import Mathlib

/-!
# json-parser: a shallow embedding of `json.h` / `json.cpp`

The library is a JSON value model (`json::value`), a renderer
(`value::to_string`) and a recursive-descent reader over a cursor
(`string_iterator`).

Conventions of the embedding

* a C++ `char` is a Lean `Char` with the same code; a `std::string` is a
  `List Char`;
* `string_iterator` keeps the source's two fields, the text and the index;
  reading `text[index]` at or past the end of the text yields the NUL
  character (the terminator a `std::string` buffer holds there);
* the build flag `NO_EXCEPTIONS` is a Boolean parameter of every function
  whose body depends on it: `false` is the default (exception) build, `true`
  the sentinel build;
* every `while` / `do while` loop is a function recursive on a fuel counter
  that carries the loop's variables; the recursion `read_value -> read_array /
  read_object -> read_value` goes through the same counter;
* `std::unordered_map` is an association list with `dict_find` and
  `dict_assign`; the list order stands for the (unspecified) iteration order.
-/

namespace json

/-! ## The value model (json.h) -/

/-- The discriminant `enum class value_type`. -/
inductive value_type where
  | object
  | array
  | integer
  | floating
  | string
  | true_literal
  | false_literal
  | null_literal
  | undefined
  deriving DecidableEq, Repr

/-- The class `json::value`: its four data members `type`, `text`, `dict`, `array`. -/
inductive value where
  | mk (type : value_type) (text : List Char)
      (dict : List (List Char × value)) (array : List value)

namespace value

/-- Member `type`. -/
def type : value → value_type
  | mk t _ _ _ => t

/-- Member `text`. -/
def text : value → List Char
  | mk _ t _ _ => t

/-- Member `dict`. -/
def dict : value → List (List Char × value)
  | mk _ _ d _ => d

/-- Member `array`. -/
def array : value → List value
  | mk _ _ _ a => a

/-- Constructor `value::value()`. -/
def default : value := mk value_type.undefined [] [] []

instance : Inhabited value := ⟨default⟩

/-- Constructor `value::value(json::value_type type, std::string text)`. -/
def of_type_text (type : value_type) (text : List Char) : value := mk type text [] []

/-- Constructor `value::value(std::unordered_map<std::string, json::value> values)`. -/
def of_map (values : List (List Char × value)) : value := mk value_type.object [] values []

/-- Constructor `value::value(std::vector<json::value> values)`. -/
def of_vector (values : List value) : value := mk value_type.array [] [] values

/-- Constructor `value::value(std::string str)`. -/
def of_string (str : List Char) : value := mk value_type.string str [] []

/-- Constructor `value::value(bool value)`. -/
def of_bool (b : Bool) : value :=
  mk (if b then value_type.true_literal else value_type.false_literal) [] [] []

/-- Method `value::is_string`. -/
def is_string (v : value) : Bool := v.type == value_type.string

/-- Method `value::is_object`. -/
def is_object (v : value) : Bool := v.type == value_type.object

/-- Method `value::is_array`. -/
def is_array (v : value) : Bool := v.type == value_type.array

/-- Method `value::is_bool`. -/
def is_bool (v : value) : Bool :=
  v.type == value_type.true_literal || v.type == value_type.false_literal

/-- Method `value::is_number`. -/
def is_number (v : value) : Bool :=
  v.type == value_type.integer || v.type == value_type.floating

/-- Method `value::is_integer`. -/
def is_integer (v : value) : Bool := v.type == value_type.integer

/-- Method `value::is_float`. -/
def is_float (v : value) : Bool := v.type == value_type.floating

/-- Method `value::is_null`. -/
def is_null (v : value) : Bool := v.type == value_type.null_literal

/-- Method `value::error` (declared in `NO_EXCEPTIONS` builds). -/
def error (v : value) : Bool := v.type == value_type.undefined

end value

/-- Function `json::error(const std::string& msg)`. -/
def error (msg : String) : value := value.of_type_text value_type.undefined msg.toList

/-- Lookup `dict.find(key)` in the association-list model of `std::unordered_map`. -/
def dict_find : List (List Char × value) → List Char → Option value
  | [], _ => none
  | (k, v) :: rest, key => if k = key then some v else dict_find rest key

/-- Assignment `dict[key] = v`: overwrite the entry of an existing key, add a new one otherwise. -/
def dict_assign : List (List Char × value) → List Char → value → List (List Char × value)
  | [], key, v => [(key, v)]
  | (k, w) :: rest, key, v =>
    if k = key then (k, v) :: rest else (k, w) :: dict_assign rest key v

mutual
/-- Method `value::to_string`. -/
def value.to_string : value → List Char
  | value.mk value_type.object _ dict _ =>
    ['{', ' '] ++ object_to_string 0 dict ++ [' ', '}']
  | value.mk value_type.array _ _ array =>
    ['['] ++ array_to_string 0 array ++ [']']
  | value.mk value_type.floating text _ _ => text
  | value.mk value_type.integer text _ _ => text
  | value.mk value_type.string text _ _ => ['"'] ++ text ++ ['"']
  | value.mk value_type.true_literal _ _ _ => ['t', 'r', 'u', 'e']
  | value.mk value_type.false_literal _ _ _ => ['f', 'a', 'l', 's', 'e']
  | value.mk value_type.null_literal _ _ _ => ['n', 'u', 'l', 'l']
  | value.mk value_type.undefined text _ _ => text
/-- The loop of `to_string` over `dict`, `i` being its counter. -/
def object_to_string : Nat → List (List Char × value) → List Char
  | _, [] => []
  | i, (key, val) :: rest =>
    (if i ≠ 0 then [',', ' '] else []) ++
      (['"'] ++ key ++ ['"', ':', ' '] ++ value.to_string val) ++
      object_to_string (i + 1) rest
/-- The loop of `to_string` over `array`, `i` being its counter. -/
def array_to_string : Nat → List value → List Char
  | _, [] => []
  | i, val :: rest =>
    ((if i ≠ 0 then [',', ' '] else []) ++ value.to_string val) ++
      array_to_string (i + 1) rest
end

/-- Conversion `value::operator std::string`. -/
def value.to_std_string (v : value) : List Char :=
  if v.type = value_type.string then v.text else v.to_string

/-! ## The cursor (json.cpp, `string_iterator`) -/

/-- The class `string_iterator`: the text and the index of the next character. -/
structure string_iterator where
  text : List Char
  index : Nat

namespace string_iterator

/-- Constructor `string_iterator(text)`: the index starts at 0. -/
def init (text : List Char) : string_iterator := ⟨text, 0⟩

/-- Method `peek`: `text[index]`, the NUL character at or past the end. -/
def peek (it : string_iterator) : Char := it.text.getD it.index (Char.ofNat 0)

/-- Method `available`: `index < text.size()`. -/
def available (it : string_iterator) : Bool := it.index < it.text.length

/-- Method `next`: `available() ? text[index++] : text[index]`, with the cursor it leaves. -/
def next (it : string_iterator) : Char × string_iterator :=
  if it.available then (it.text.getD it.index (Char.ofNat 0), { it with index := it.index + 1 })
  else (it.text.getD it.index (Char.ofNat 0), it)

end string_iterator

/-- What a call of a reader ends in: a normal return with the cursor it leaves,
a thrown `json::exception`, or the exhaustion of the fuel of the embedding. -/
inductive outcome (α : Type) where
  | ret (a : α) (it : string_iterator)
  | raised (msg : String)
  | out_of_fuel

/-- The failure exit of the readers that return a `json::value`:
`throw json::exception(msg)`, or `return json::error(msg)` under `NO_EXCEPTIONS`. -/
def fail (NO_EXCEPTIONS : Bool) (msg : String) (it : string_iterator) : outcome value :=
  if NO_EXCEPTIONS then outcome.ret (error msg) it else outcome.raised msg

/-- The failure exit of the readers that return a `std::string`:
`throw json::exception(msg)`, or `return ""` under `NO_EXCEPTIONS`. -/
def fail_string (NO_EXCEPTIONS : Bool) (msg : String) (it : string_iterator) :
    outcome (List Char) :=
  if NO_EXCEPTIONS then outcome.ret [] it else outcome.raised msg

/-- Sequencing of two steps of a reader: a thrown exception or the exhaustion of
the fuel in the first step ends the call. -/
def outcome.bind {α β : Type} (o : outcome α) (k : α → string_iterator → outcome β) :
    outcome β :=
  match o with
  | outcome.ret a it => k a it
  | outcome.raised msg => outcome.raised msg
  | outcome.out_of_fuel => outcome.out_of_fuel

/-! ## String literals (`read_unicode`, `read_string`) -/

/-- The digit value a `case` group of `read_unicode` ors into `value`:
`c - '0'`, `c - 'a' + 10`, `c - 'A' + 10`; `none` is the `default:` group. -/
def hex_value (c : Char) : Option Nat :=
  if c = '0' ∨ c = '1' ∨ c = '2' ∨ c = '3' ∨ c = '4' ∨ c = '5' ∨ c = '6' ∨ c = '7' ∨
      c = '8' ∨ c = '9' then
    some (c.toNat - ('0').toNat)
  else if c = 'a' ∨ c = 'b' ∨ c = 'c' ∨ c = 'd' ∨ c = 'e' ∨ c = 'f' then
    some (c.toNat - ('a').toNat + 10)
  else if c = 'A' ∨ c = 'B' ∨ c = 'C' ∨ c = 'D' ∨ c = 'E' ∨ c = 'F' then
    some (c.toNat - ('A').toNat + 10)
  else none

/-- The tail of `read_unicode`: "Encode a code point into UTF-8 binary representation". -/
def encode_utf8 (value : Nat) : List Char :=
  if value ≤ 0x007F then [Char.ofNat value]
  else if value ≤ 0x07FF then
    [Char.ofNat ((0b110 <<< 5) ||| ((value >>> 6) &&& 0b11111)),
     Char.ofNat ((0b10 <<< 6) ||| (value &&& 0b111111))]
  else
    [Char.ofNat ((0b1110 <<< 4) ||| ((value >>> 12) &&& 0b1111)),
     Char.ofNat ((0b10 <<< 6) ||| ((value >>> 6) &&& 0b111111)),
     Char.ofNat ((0b10 <<< 6) ||| (value &&& 0b111111))]

/-- The loop `while(digits < 4 && text.available())` of `read_unicode`, with the
encoding step the function ends in. -/
def read_unicode_loop (NO_EXCEPTIONS : Bool) :
    Nat → Nat → Nat → string_iterator → outcome (List Char)
  | 0, _, _, _ => outcome.out_of_fuel
  | fuel + 1, value, digits, text =>
    if digits < 4 ∧ text.available = true then
      match hex_value text.peek with
      | some d =>
        read_unicode_loop NO_EXCEPTIONS fuel ((value <<< 4) ||| d) (digits + 1)
          (if digits + 1 < 4 then text.next.2 else text)
      | none => fail_string NO_EXCEPTIONS "parsing: invalid unicode character" text
    else outcome.ret (encode_utf8 value) text

/-- Function `read_unicode`. -/
def read_unicode (NO_EXCEPTIONS : Bool) (fuel : Nat) (text : string_iterator) :
    outcome (List Char) :=
  read_unicode_loop NO_EXCEPTIONS fuel 0 0 text

/-- The statements of the loop of `read_string` that follow its `switch`:
`if(exit) break;`, the update of `str` and `backslash`, `text.next()`; `loop` is
the next iteration, and after the `break` come `text.next(); return json::value(str);`. -/
def read_string_tail (loop : List Char → Bool → string_iterator → outcome value)
    (c : Char) (str : List Char) (backslash exit : Bool) (text : string_iterator) :
    outcome value :=
  if exit then outcome.ret (value.of_string str) text.next.2
  else if !backslash then loop (str ++ [c]) backslash text.next.2
  else if c ≠ '\\' then loop str false text.next.2
  else loop str backslash text.next.2

/-- The loop `while(text.available())` of `read_string` on the variables `str` and
`backslash`, with the two statements that follow it. -/
def read_string_loop (NO_EXCEPTIONS : Bool) :
    Nat → List Char → Bool → string_iterator → outcome value
  | 0, _, _, _ => outcome.out_of_fuel
  | fuel + 1, str, backslash, text =>
    if text.available then
      if text.peek = '\\' then
        if !backslash then
          read_string_tail (read_string_loop NO_EXCEPTIONS fuel) text.peek str true false text
        else
          read_string_tail (read_string_loop NO_EXCEPTIONS fuel) text.peek (str ++ ['\\'])
            backslash false text
      else if text.peek = '"' then
        read_string_tail (read_string_loop NO_EXCEPTIONS fuel) text.peek str backslash
          (!backslash) text
      else if text.peek = 'b' then
        read_string_tail (read_string_loop NO_EXCEPTIONS fuel) text.peek
          (if backslash then str ++ [Char.ofNat 8] else str) backslash false text
      else if text.peek = 'f' then
        read_string_tail (read_string_loop NO_EXCEPTIONS fuel) text.peek
          (if backslash then str ++ [Char.ofNat 12] else str) backslash false text
      else if text.peek = 'n' then
        read_string_tail (read_string_loop NO_EXCEPTIONS fuel) text.peek
          (if backslash then str ++ ['\n'] else str) backslash false text
      else if text.peek = 'r' then
        read_string_tail (read_string_loop NO_EXCEPTIONS fuel) text.peek
          (if backslash then str ++ ['\r'] else str) backslash false text
      else if text.peek = 't' then
        read_string_tail (read_string_loop NO_EXCEPTIONS fuel) text.peek
          (if backslash then str ++ ['\t'] else str) backslash false text
      else if text.peek = 'u' then
        if backslash then
          (read_unicode NO_EXCEPTIONS fuel text.next.2).bind fun unicode text2 =>
            if NO_EXCEPTIONS && unicode.isEmpty then
              outcome.ret (error "parsing: invalid unicode character") text2
            else
              read_string_tail (read_string_loop NO_EXCEPTIONS fuel) text.peek (str ++ unicode)
                backslash false text2
        else
          read_string_tail (read_string_loop NO_EXCEPTIONS fuel) text.peek str backslash false text
      else
        read_string_tail (read_string_loop NO_EXCEPTIONS fuel) text.peek str backslash false text
    else outcome.ret (value.of_string str) text.next.2

/-- Function `read_string`. -/
def read_string (NO_EXCEPTIONS : Bool) (fuel : Nat) (text : string_iterator) : outcome value :=
  read_string_loop NO_EXCEPTIONS fuel [] false text.next.2

/-! ## Numbers (`is_digit`, `read_fractional`, `read_exponent`, `read_number`) -/

/-- Function `is_digit`. -/
def is_digit (c : Char) : Bool :=
  c == '0' || c == '1' || c == '2' || c == '3' || c == '4' ||
    c == '5' || c == '6' || c == '7' || c == '8' || c == '9'

/-- The loop `do { buffer += text.next(); } while(is_digit(text.peek()));`, which
`read_fractional`, `read_exponent` and `read_number` each contain. -/
def do_digits : Nat → List Char → string_iterator → outcome (List Char)
  | 0, _, _ => outcome.out_of_fuel
  | fuel + 1, buffer, text =>
    if is_digit text.next.2.peek then do_digits fuel (buffer ++ [text.next.1]) text.next.2
    else outcome.ret (buffer ++ [text.next.1]) text.next.2

/-- Function `read_fractional`. -/
def read_fractional (NO_EXCEPTIONS : Bool) (fuel : Nat) (text : string_iterator) :
    outcome (List Char) :=
  if text.peek = '.' then
    if is_digit text.next.2.peek then do_digits fuel [text.next.1] text.next.2
    else fail_string NO_EXCEPTIONS "parsing: decimal must be followed by digits" text.next.2
  else outcome.ret [] text

/-- The part of `read_exponent` after the letter: the optional sign and the digits. -/
def read_exponent_digits (NO_EXCEPTIONS : Bool) (fuel : Nat) (buffer : List Char)
    (text : string_iterator) : outcome (List Char) :=
  if is_digit text.peek then do_digits fuel buffer text
  else fail_string NO_EXCEPTIONS "parsing: exponent must be followed by digits" text

/-- Function `read_exponent`. -/
def read_exponent (NO_EXCEPTIONS : Bool) (fuel : Nat) (text : string_iterator) :
    outcome (List Char) :=
  if text.peek = 'e' ∨ text.peek = 'E' then
    if text.next.2.peek = '+' then
      read_exponent_digits NO_EXCEPTIONS fuel [text.next.1, text.next.2.next.1]
        text.next.2.next.2
    else if text.next.2.peek = '-' then
      read_exponent_digits NO_EXCEPTIONS fuel [text.next.1, text.next.2.next.1]
        text.next.2.next.2
    else read_exponent_digits NO_EXCEPTIONS fuel [text.next.1] text.next.2
  else outcome.ret [] text

/-- The end of `read_number`: the `switch(text.peek())` on the exponent letter and
`return json::value(type, str);`. The exponent is read by a first call of
`read_exponent` into `exponent`; what is appended to `str` is the result of a
second call, `str += read_exponent(text)`. -/
def read_number_exponent (NO_EXCEPTIONS : Bool) (fuel : Nat) (type : value_type)
    (str : List Char) (text : string_iterator) : outcome value :=
  if text.peek = 'e' ∨ text.peek = 'E' then
    (read_exponent NO_EXCEPTIONS fuel text).bind fun exponent text1 =>
      if NO_EXCEPTIONS && exponent.isEmpty then
        outcome.ret (error "parsing: exponent must be followed by digits") text1
      else
        (read_exponent NO_EXCEPTIONS fuel text1).bind fun again text2 =>
          outcome.ret (value.of_type_text value_type.floating (str ++ again)) text2
  else outcome.ret (value.of_type_text type str) text

/-- The middle of `read_number`: `if(text.peek() == '.') { ... }`, then the end. -/
def read_number_fraction (NO_EXCEPTIONS : Bool) (fuel : Nat) (type : value_type)
    (str : List Char) (text : string_iterator) : outcome value :=
  if text.peek = '.' then
    (read_fractional NO_EXCEPTIONS fuel text).bind fun fractional text1 =>
      if NO_EXCEPTIONS && fractional.isEmpty then
        outcome.ret (error "parsing: decimal must be followed by digits") text1
      else
        read_number_exponent NO_EXCEPTIONS fuel value_type.floating (str ++ fractional) text1
  else read_number_exponent NO_EXCEPTIONS fuel type str text

/-- The integer part of `read_number`, `str` holding the sign read so far. -/
def read_number_integer (NO_EXCEPTIONS : Bool) (fuel : Nat) (str : List Char)
    (text : string_iterator) : outcome value :=
  if text.peek = '0' then
    read_number_fraction NO_EXCEPTIONS fuel value_type.integer (str ++ [text.next.1]) text.next.2
  else if is_digit text.peek then
    (do_digits fuel str text).bind fun str1 text1 =>
      read_number_fraction NO_EXCEPTIONS fuel value_type.integer str1 text1
  else fail NO_EXCEPTIONS "parsing: invalid number" text

/-- Function `read_number`. -/
def read_number (NO_EXCEPTIONS : Bool) (fuel : Nat) (text : string_iterator) : outcome value :=
  if text.peek = '-' then read_number_integer NO_EXCEPTIONS fuel [text.next.1] text.next.2
  else read_number_integer NO_EXCEPTIONS fuel [] text

/-! ## Aggregates and dispatch (`read_array`, `read_object`, `read_value`, `parse`)

`read_array` and `read_object` call `read_value`, which calls them: they take the
callee as the parameter `read_value`, and `json.read_value` passes itself at a
smaller fuel. -/

/-- The four characters the readers treat as whitespace: `' '`, `'\r'`, `'\n'`, `'\t'`. -/
def is_space (c : Char) : Bool := c == ' ' || c == '\r' || c == '\n' || c == '\t'

/-- The statements of the loop of `read_array` that follow its `switch`:
`if(ready && !exit) { values.push_back(read_value(text)); ... ready = false; }
else { text.next(); if(exit) break; }`; `loop` is the next iteration, and after the
`break` comes `return json::value(values);`. -/
def read_array_tail (NO_EXCEPTIONS : Bool) (read_value : string_iterator → outcome value)
    (loop : List value → Bool → string_iterator → outcome value)
    (values : List value) (ready exit : Bool) (text : string_iterator) : outcome value :=
  if ready && !exit then
    (read_value text).bind fun back text1 =>
      if NO_EXCEPTIONS && back.error then outcome.ret back text1
      else loop (values ++ [back]) false text1
  else if exit then outcome.ret (value.of_vector values) text.next.2
  else loop values ready text.next.2

/-- The loop `while(text.available())` of `read_array` on the variables `values`
and `ready`, with the `return json::value(values);` that follows it. -/
def read_array_loop (NO_EXCEPTIONS : Bool) (read_value : string_iterator → outcome value) :
    Nat → List value → Bool → string_iterator → outcome value
  | 0, _, _, _ => outcome.out_of_fuel
  | fuel + 1, values, ready, text =>
    if text.available then
      if text.peek = ',' then
        read_array_tail NO_EXCEPTIONS read_value
          (read_array_loop NO_EXCEPTIONS read_value fuel) values true false text.next.2
      else if text.peek = ' ' ∨ text.peek = '\r' ∨ text.peek = '\n' ∨ text.peek = '\t' then
        read_array_tail NO_EXCEPTIONS read_value
          (read_array_loop NO_EXCEPTIONS read_value fuel) values ready false text
      else if text.peek = ']' then
        read_array_tail NO_EXCEPTIONS read_value
          (read_array_loop NO_EXCEPTIONS read_value fuel) values ready true text
      else if !ready then fail NO_EXCEPTIONS "parsing: invalid array" text
      else
        read_array_tail NO_EXCEPTIONS read_value
          (read_array_loop NO_EXCEPTIONS read_value fuel) values ready false text
    else outcome.ret (value.of_vector values) text

/-- Function `read_array`. -/
def read_array (NO_EXCEPTIONS : Bool) (read_value : string_iterator → outcome value)
    (fuel : Nat) (text : string_iterator) : outcome value :=
  if text.peek = '[' then read_array_loop NO_EXCEPTIONS read_value fuel [] true text.next.2
  else outcome.ret value.default text

/-- The loop `while(text.available())` of `read_object` on the variables `values`
and `key`, with the `text.next(); return json::value(values);` that follow it. -/
def read_object_loop (NO_EXCEPTIONS : Bool) (read_value : string_iterator → outcome value) :
    Nat → List (List Char × value) → List Char → string_iterator → outcome value
  | 0, _, _, _ => outcome.out_of_fuel
  | fuel + 1, values, key, text =>
    if text.available then
      if text.peek = '"' then
        (read_string NO_EXCEPTIONS fuel text).bind fun str text1 =>
          read_object_loop NO_EXCEPTIONS read_value fuel values str.to_std_string text1
      else if text.peek = ':' then
        (read_value text.next.2).bind fun val text1 =>
          if NO_EXCEPTIONS && val.error then outcome.ret val text1
          else read_object_loop NO_EXCEPTIONS read_value fuel (dict_assign values key val) [] text1
      else if text.peek = ',' then
        if !key.isEmpty then
          fail NO_EXCEPTIONS "parsing: object key does not have value" text.next.2
        else read_object_loop NO_EXCEPTIONS read_value fuel values key text.next.2
      else if text.peek = '}' then outcome.ret (value.of_map values) text.next.2
      else if text.peek = ' ' ∨ text.peek = '\r' ∨ text.peek = '\n' ∨ text.peek = '\t' then
        read_object_loop NO_EXCEPTIONS read_value fuel values key text.next.2
      else fail NO_EXCEPTIONS "parsing: invalid object" text
    else outcome.ret (value.of_map values) text.next.2

/-- Function `read_object`. -/
def read_object (NO_EXCEPTIONS : Bool) (read_value : string_iterator → outcome value)
    (fuel : Nat) (text : string_iterator) : outcome value :=
  read_object_loop NO_EXCEPTIONS read_value fuel [] [] text.next.2

/-- The value `std::string::npos` of a 64-bit `size_t`. -/
def npos : Nat := 2 ^ 64 - 1

/-- Method `buffer.find_first_not_of(" \t\n\r")`. -/
def find_first_not_of (buffer : List Char) : Nat :=
  if buffer.all is_space then npos else buffer.findIdx fun c => !is_space c

/-- Method `buffer.find_last_not_of(" \t\n\r")`. -/
def find_last_not_of (buffer : List Char) : Nat :=
  if buffer.all is_space then npos
  else buffer.length - 1 - buffer.reverse.findIdx fun c => !is_space c

/-- The `std::string_view view` of `read_value`: `buffer` after `remove_prefix` and
`remove_suffix`, the subtraction `buffer.size() - find_last_not_of - 1` being one of
`size_t`. -/
def trim_view (buffer : List Char) : List Char :=
  ((buffer.drop (min buffer.length (find_first_not_of buffer))).reverse.drop
    (min buffer.length
      ((buffer.length + 2 ^ 64 - find_last_not_of buffer + 2 ^ 64 - 1) % 2 ^ 64))).reverse

/-- The end of `read_value`, after its loop: the trimmed buffer is matched against
the three literals. -/
def read_value_literal (NO_EXCEPTIONS : Bool) (buffer : List Char) (text : string_iterator) :
    outcome value :=
  if trim_view buffer = ['t', 'r', 'u', 'e'] then
    outcome.ret (value.of_type_text value_type.true_literal ['t', 'r', 'u', 'e']) text
  else if trim_view buffer = ['f', 'a', 'l', 's', 'e'] then
    outcome.ret (value.of_type_text value_type.false_literal ['f', 'a', 'l', 's', 'e']) text
  else if trim_view buffer = ['n', 'u', 'l', 'l'] then
    outcome.ret (value.of_type_text value_type.null_literal ['n', 'u', 'l', 'l']) text
  else fail NO_EXCEPTIONS "parsing: unrecognized literal" text

/-- The loop `while(text.available())` of `read_value` on the variable `buffer`,
with the end of the function; `read_value` is the function itself, as the
aggregate readers call it. -/
def read_value_loop (NO_EXCEPTIONS : Bool) (read_value : string_iterator → outcome value) :
    Nat → List Char → string_iterator → outcome value
  | 0, _, _ => outcome.out_of_fuel
  | fuel + 1, buffer, text =>
    if text.available then
      if text.peek = '{' then read_object NO_EXCEPTIONS read_value fuel text
      else if text.peek = '[' then read_array NO_EXCEPTIONS read_value fuel text
      else if text.peek = '"' then read_string NO_EXCEPTIONS fuel text
      else if text.peek = '-' ∨ is_digit text.peek then read_number NO_EXCEPTIONS fuel text
      else if text.peek = ' ' ∨ text.peek = '\n' ∨ text.peek = '\r' ∨ text.peek = '\t' then
        read_value_loop NO_EXCEPTIONS read_value fuel buffer text.next.2
      else if text.peek = ',' then read_value_literal NO_EXCEPTIONS buffer text.next.2
      else read_value_loop NO_EXCEPTIONS read_value fuel (buffer ++ [text.peek]) text.next.2
    else read_value_literal NO_EXCEPTIONS buffer text

/-- Function `read_value`. -/
def read_value (NO_EXCEPTIONS : Bool) : Nat → string_iterator → outcome value
  | 0, _ => outcome.out_of_fuel
  | fuel + 1, text =>
    read_value_loop NO_EXCEPTIONS (read_value NO_EXCEPTIONS fuel) (fuel + 1) [] text

/-- Function `parse`. The fuel `text.size() + 1` is more than the number of
characters any loop or nested call can still consume. -/
def parse (NO_EXCEPTIONS : Bool) (text : List Char) : outcome value :=
  read_value NO_EXCEPTIONS (text.length + 1) (string_iterator.init text)

/-! ## The number grammar of RFC 8259, as the claims quote it

`-?(0|[1-9][0-9]*)(\.[0-9]+)?([eE][+-]?[0-9]+)?`, a text being the
concatenation of a sign part, an integer part, a fractional part and an
exponent part. -/

/-- The pattern `[0-9]+`. -/
def grammar_digits (s : List Char) : Bool := !s.isEmpty && s.all is_digit

/-- The pattern `-?`. -/
def grammar_sign (s : List Char) : Bool := s == [] || s == ['-']

/-- The pattern `(0|[1-9][0-9]*)`. -/
def grammar_int (s : List Char) : Bool :=
  s == ['0'] || (grammar_digits s && s.head? != some '0')

/-- The pattern `(\.[0-9]+)?`. -/
def grammar_frac (s : List Char) : Bool :=
  match s with
  | [] => true
  | c :: ds => c == '.' && grammar_digits ds

/-- The pattern `([eE][+-]?[0-9]+)?`. -/
def grammar_exp (s : List Char) : Bool :=
  match s with
  | [] => true
  | [_] => false
  | c :: s1 :: ds =>
    (c == 'e' || c == 'E') &&
      (((s1 == '+' || s1 == '-') && grammar_digits ds) || grammar_digits (s1 :: ds))

/-- Failure of a parse in the build `NO_EXCEPTIONS`: a thrown `json::exception` in
the default build, a returned value for which `error()` holds in the sentinel build. -/
def outcome.failed (NO_EXCEPTIONS : Bool) (o : outcome value) : Bool :=
  match o with
  | outcome.ret v _ => NO_EXCEPTIONS && v.error
  | outcome.raised _ => !NO_EXCEPTIONS
  | outcome.out_of_fuel => false

/-- A string body without escapes and without a closing quote: no character of it
is a double quote or a backslash. -/
def plain_text (s : List Char) : Bool := s.all fun c => c != '"' && c != '\\'

/-- The character that writes the hexadecimal digit `h` (below 16), in upper or in
lower case: the codes of `0`, `A` and `a` are 48, 65 and 97. -/
def hex_char (upper : Bool) (h : Nat) : Char :=
  Char.ofNat (if h < 10 then 48 + h else if upper then 65 + (h - 10) else 97 + (h - 10))

/-- The UTF-8 bit layout of a 16-bit code point, as the specification words it:
one byte `0xxxxxxx` up to `0x7F`, two bytes `110xxxxx 10xxxxxx` up to `0x7FF`,
three bytes `1110xxxx 10xxxxxx 10xxxxxx` beyond, the `x` being the bits of the code
point from the most significant down. -/
def utf8_layout (cp : Nat) : List Char :=
  if cp ≤ 0x7F then [Char.ofNat cp]
  else if cp ≤ 0x7FF then [Char.ofNat (0xC0 + cp / 64), Char.ofNat (0x80 + cp % 64)]
  else
    [Char.ofNat (0xE0 + cp / 4096), Char.ofNat (0x80 + cp / 64 % 64),
     Char.ofNat (0x80 + cp % 64)]

/-- The six characters of the escape `\uXXXX` that writes the code point `cp`, the
four flags choosing upper or lower case for each hexadecimal digit. -/
def unicode_escape (u1 u2 u3 u4 : Bool) (cp : Nat) : List Char :=
  ['\\', 'u', hex_char u1 (cp / 4096), hex_char u2 (cp / 256 % 16),
    hex_char u3 (cp / 16 % 16), hex_char u4 (cp % 16)]

/-! ## Auxiliary notions of the proofs -/

/-- The first character of a text, NUL for the empty text: what `peek` reads at a
cursor whose remaining input is that text. -/
def first (r : List Char) : Char :=
  match r with
  | [] => Char.ofNat 0
  | c :: _ => c

namespace string_iterator

/-- The remaining input of a cursor: the text from the index on. -/
def rest (it : string_iterator) : List Char := it.text.drop it.index

/-- The cursor moved forward by `n` characters. -/
def adv (it : string_iterator) (n : Nat) : string_iterator := { it with index := it.index + n }

end string_iterator

/-- A text at which `read_number` stops: its first character is no digit, no `.`
and no exponent letter. -/
def number_stop (r : List Char) : Prop :=
  is_digit (first r) = false ∧ first r ≠ '.' ∧ first r ≠ 'e' ∧ first r ≠ 'E'

/-! ## Structural equality and the values that render to text `parse` reads back -/

mutual
/-- The value has no Undefined node at any depth. -/
def value.no_undefined : value → Bool
  | value.mk value_type.undefined _ _ _ => false
  | value.mk value_type.object _ dict _ => object_no_undefined dict
  | value.mk value_type.array _ _ array => array_no_undefined array
  | value.mk _ _ _ _ => true
/-- No member of the object has an Undefined node. -/
def object_no_undefined : List (List Char × value) → Bool
  | [] => true
  | (_, val) :: rest => value.no_undefined val && object_no_undefined rest
/-- No element of the array has an Undefined node. -/
def array_no_undefined : List value → Bool
  | [] => true
  | val :: rest => value.no_undefined val && array_no_undefined rest
end

mutual
/-- Structural equality of two values: the same kind, and the same active payload:
the text of a String, Integer, Float or Undefined value, the elements of an Array in
order, the key-to-child mapping of an Object. The keys of the first object are taken
to be distinct, as those of a `std::unordered_map` are. -/
def struct_eq : value → value → Prop
  | value.mk value_type.object _ dict _, w =>
    w.type = value_type.object ∧ object_eq dict w.dict ∧
      ∀ k, (dict_find w.dict k).isSome = true → k ∈ dict.map Prod.fst
  | value.mk value_type.array _ _ array, w =>
    w.type = value_type.array ∧ array_eq array w.array
  | value.mk value_type.string text _ _, w => w.type = value_type.string ∧ w.text = text
  | value.mk value_type.integer text _ _, w => w.type = value_type.integer ∧ w.text = text
  | value.mk value_type.floating text _ _, w => w.type = value_type.floating ∧ w.text = text
  | value.mk value_type.undefined text _ _, w => w.type = value_type.undefined ∧ w.text = text
  | value.mk value_type.true_literal _ _ _, w => w.type = value_type.true_literal
  | value.mk value_type.false_literal _ _ _, w => w.type = value_type.false_literal
  | value.mk value_type.null_literal _ _ _, w => w.type = value_type.null_literal
/-- Every member of the first object has a structurally equal child under the same
key in the second. -/
def object_eq : List (List Char × value) → List (List Char × value) → Prop
  | [], _ => True
  | (key, val) :: rest, d =>
    (∃ w, dict_find d key = some w ∧ struct_eq val w) ∧ object_eq rest d
/-- The two arrays have structurally equal elements in the same order. -/
def array_eq : List value → List value → Prop
  | [], ws => ws = []
  | val :: rest, ws => ∃ w ws1, ws = w :: ws1 ∧ struct_eq val w ∧ array_eq rest ws1
end

/-- The text of an Integer value as `std::to_string(int)` writes it: `-?(0|[1-9][0-9]*)`. -/
def integer_text (t : List Char) : Bool :=
  grammar_int t || (t.head? == some '-' && grammar_int t.tail)

/-- The text of a Float value with a fractional part and no exponent, as
`std::to_string(double)` writes a finite number: `-?(0|[1-9][0-9]*)\.[0-9]+`. -/
def float_text (t : List Char) : Bool :=
  (grammar_int (t.takeWhile fun c => c != '.') &&
      (t.dropWhile fun c => c != '.') != [] && grammar_frac (t.dropWhile fun c => c != '.')) ||
    (t.head? == some '-' && grammar_int (t.tail.takeWhile fun c => c != '.') &&
      (t.tail.dropWhile fun c => c != '.') != [] &&
      grammar_frac (t.tail.dropWhile fun c => c != '.'))

mutual
/-- The values the amended round trip covers below the top level: Objects with
distinct keys free of quotes and backslashes, Arrays, Strings free of quotes and
backslashes, Integers and Floats whose text is a decimal number without exponent,
nested to any depth. -/
def value.nested_ok : value → Bool
  | value.mk value_type.object _ dict _ =>
    object_ok dict && decide ((dict.map Prod.fst).Nodup)
  | value.mk value_type.array _ _ array => array_ok array
  | value.mk value_type.string text _ _ => plain_text text
  | value.mk value_type.integer text _ _ => integer_text text
  | value.mk value_type.floating text _ _ => float_text text
  | value.mk _ _ _ _ => false
/-- Every member has a plain key and a child that is `nested_ok`. -/
def object_ok : List (List Char × value) → Bool
  | [] => true
  | (key, val) :: rest => plain_text key && value.nested_ok val && object_ok rest
/-- Every element is `nested_ok`. -/
def array_ok : List value → Bool
  | [] => true
  | val :: rest => value.nested_ok val && array_ok rest
end

/-- The values the amended round trip covers: a `nested_ok` value, or one of the
literals true, false, null as the whole document. -/
def value.document_ok (v : value) : Bool := v.nested_ok || v.is_bool || v.is_null

/-- The round trip of one value at any cursor: whenever the remaining input is the
rendering of `v`, after spaces `ws` and before a text `r` at which a number stops,
`read_value` with more fuel than remaining characters returns a structurally equal
value and leaves the cursor at `r`. -/
def reads_back (v : value) : Prop :=
  ∀ (NE : Bool) (n : Nat) (it : string_iterator) (ws r : List Char),
    it.rest = ws ++ (v.to_string ++ r) → (∀ c ∈ ws, c = ' ') → number_stop r →
    it.rest.length < n →
    ∃ w, read_value NE n it = outcome.ret w (it.adv (ws.length + v.to_string.length)) ∧
      struct_eq v w

/-- The document of the round-trip test, shortened:
`{ "Image": { "Width": 800, "Title": "View", "IDs": [116, 943] }, "Pi": 3.14 }`. -/
def round_trip_document : value :=
  value.of_map
    [(['I', 'm', 'a', 'g', 'e'],
        value.of_map
          [(['W', 'i', 'd', 't', 'h'], value.of_type_text value_type.integer ['8', '0', '0']),
           (['T', 'i', 't', 'l', 'e'], value.of_string ['V', 'i', 'e', 'w']),
           (['I', 'D', 's'],
              value.of_vector
                [value.of_type_text value_type.integer ['1', '1', '6'],
                 value.of_type_text value_type.integer ['9', '4', '3']])]),
     (['P', 'i'], value.of_type_text value_type.floating ['3', '.', '1', '4'])]

/-! ## Host integers, conversions, access and comparison (json.h, json.cpp)

`std::to_string(int)`, `std::stoi` and `std::stod` are functions of the C++ library:
the first two are written out for decimal text, the third is a parameter. A host
`int` is an `Int` in the range `int_range`. -/

/-- The range of a 32-bit `int`. -/
def int_range (n : Int) : Prop := -2147483648 ≤ n ∧ n ≤ 2147483647

instance (n : Int) : Decidable (int_range n) := by
  unfold int_range
  exact inferInstance

/-- Function `std::to_string(int)`: the decimal digits, after a minus sign for a
negative number. -/
def to_string_int (n : Int) : List Char :=
  if n < 0 then '-' :: Nat.toDigits 10 n.natAbs else Nat.toDigits 10 n.natAbs

/-- Function `isspace` of the C locale, which `std::stoi` skips at the start. -/
def is_c_space (c : Char) : Bool :=
  c == ' ' || c == '\t' || c == '\n' || c == Char.ofNat 11 || c == Char.ofNat 12 || c == '\r'

/-- The number a run of decimal digits writes. -/
def digits_value (ds : List Char) : Nat :=
  ds.foldl (fun acc c => 10 * acc + (c.toNat - ('0').toNat)) 0

/-- The sign and digits of `std::stoi`, after the leading whitespace: `none` when
no digit follows the optional sign (`std::invalid_argument`) or the number is
outside the range of `int` (`std::out_of_range`). -/
def stoi_signed (neg : Bool) (s : List Char) : Option Int :=
  if (s.takeWhile is_digit).isEmpty then none
  else if int_range (if neg then -(digits_value (s.takeWhile is_digit) : Int)
      else (digits_value (s.takeWhile is_digit) : Int)) then
    some (if neg then -(digits_value (s.takeWhile is_digit) : Int)
      else (digits_value (s.takeWhile is_digit) : Int))
  else none

/-- Function `std::stoi(str)`: leading whitespace, an optional sign, decimal digits;
what follows the digits is ignored; `none` stands for a thrown `std::` exception. -/
def stoi (str : List Char) : Option Int :=
  match str.dropWhile is_c_space with
  | [] => none
  | c :: s =>
    if c = '-' then stoi_signed true s
    else if c = '+' then stoi_signed false s
    else stoi_signed false (c :: s)

namespace value

/-- Constructor `value::value(int value)`. -/
def of_int (n : Int) : value := mk value_type.integer (to_string_int n) [] []

/-- Method `value::size`. -/
def size (v : value) : Nat :=
  match v.type with
  | value_type.array => v.array.length
  | value_type.string => v.to_std_string.length
  | _ => 0

/-- Conversion `value::operator int`; `none` when `std::stoi` throws. -/
def to_int (v : value) : Option Int :=
  match v.type with
  | value_type.integer => stoi v.to_string
  | value_type.floating => stoi v.to_string
  | value_type.false_literal => some 0
  | value_type.true_literal => some 1
  | _ => some 0

/-- Conversion `value::operator double`, `stod` being `std::stod` (`none` when it
throws) and `zero` the double `0`. -/
def to_double {D : Type} (stod : List Char → Option D) (zero : D) (v : value) : Option D :=
  match v.type with
  | value_type.integer => stod v.to_string
  | value_type.floating => stod v.to_string
  | _ => some zero

/-- Conversion `value::operator bool`. -/
def to_bool (v : value) : Bool :=
  !(v.type == value_type.false_literal || v.type == value_type.undefined)

/-- Indexing `value::operator[](const std::string&)`. -/
def index_key (v : value) (str : List Char) : value :=
  match dict_find v.dict str with
  | some found => found
  | none => default

/-- Indexing `value::operator[](size_t)`: the element, or the failure "array index
out of bounds", thrown in the default build and returned as `json::error(msg)`
under `NO_EXCEPTIONS`. -/
def index (NO_EXCEPTIONS : Bool) (v : value) (i : Nat) : Except String value :=
  if i < v.array.length then Except.ok (v.array.getD i default)
  else if NO_EXCEPTIONS then Except.ok (json.error "array index out of bounds")
  else Except.error "array index out of bounds"

/-- The loop `for(size_t i = 0; i < size(); ++i) result.push_back((T)array[i]);` of
`to_vector`, `n` being the number of iterations left and `convert` the conversion to
`T`. -/
def to_vector_loop {T : Type} (convert : value → Option T) (array : List value) :
    Nat → Nat → Option (List T)
  | 0, _ => some []
  | n + 1, i =>
    match convert (array.getD i default) with
    | none => none
    | some x =>
      match to_vector_loop convert array n (i + 1) with
      | none => none
      | some rest => some (x :: rest)

/-- Method `value::to_vector<T>`, `convert` being the conversion to `T`. -/
def to_vector {T : Type} (convert : value → Option T) (v : value) : Option (List T) :=
  if v.is_array then to_vector_loop convert v.array v.size 0 else some []

/-- The class invariant of `json::value`: `dict` is filled only by the constructors
of an Object, `array` only by the constructor of an Array, and no method changes
a member. -/
def invariant (v : value) : Prop :=
  (v.type ≠ value_type.object → v.dict = []) ∧ (v.type ≠ value_type.array → v.array = [])

end value

/-- Function `json::array`. -/
def array (list : List value) : value := value.of_vector list

/-- Comparison `operator==(const json::value&, double)`, `eqd` being `==` on
`double`. -/
def eq_double {D : Type} (stod : List Char → Option D) (zero : D) (eqd : D → D → Bool)
    (v : value) (num : D) : Option Bool :=
  if v.is_number then (v.to_double stod zero).map fun x => eqd x num else some false

/-- Comparison `operator==(const json::value&, int)`; `none` when the conversion
throws. -/
def eq_int (v : value) (num : Int) : Option Bool :=
  if v.is_number || v.is_bool then v.to_int.map fun x => decide (x = num) else some false

/-- Comparison `operator==(const json::value&, std::string)`, and the one with
`const char*`. -/
def eq_string (v : value) (str : List Char) : Bool :=
  if v.is_string then decide (v.to_std_string = str) else false

/-! ## Texts of the later claims -/

/-- A character the loop of `read_value` appends to its buffer: none of those its
`switch` names. -/
def is_literal_char (c : Char) : Bool :=
  !(c == '{' || c == '[' || c == '"' || c == '-' || is_digit c || is_space c || c == ',')

/-- The elements of an array text, each after the first preceded by a comma and the
whitespace `ws`; `array_to_string` is the case of one space. -/
def array_text (ws : List Char) : Nat → List value → List Char
  | _, [] => []
  | i, val :: rest =>
    ((if i ≠ 0 then ',' :: ws else []) ++ val.to_string) ++ array_text ws (i + 1) rest

/-- The members `"k1":n1,...,"km":nm` of an object text without whitespace, the
values being host integers. -/
def members_text : Nat → List (List Char × Int) → List Char
  | _, [] => []
  | i, (key, n) :: rest =>
    ((if i ≠ 0 then [','] else []) ++ ('"' :: key ++ '"' :: ':' :: to_string_int n)) ++
      members_text (i + 1) rest

/-- The object text `{"k1":n1,...,"km":nm}`. -/
def object_text (ps : List (List Char × Int)) : List Char :=
  '{' :: (members_text 0 ps ++ ['}'])

/-- The pairs of the text `{"a":1,"b":-2,"a":3}`, in which the key `a` occurs twice. -/
def object_pairs : List (List Char × Int) := [(['a'], 1), (['b'], -2), (['a'], 3)]

/-- A piece of the body of a string literal, as the claim on escapes words it: a
character written as it is, or the two-character escape made of a backslash and a
letter. -/
inductive body_piece where
  | verbatim (c : Char)
  | escape (letter : Char)

/-- The pieces the claim allows: a character other than the double quote and the
backslash, or an escape whose letter is one of `b`, `f`, `n`, `r`, `t`. -/
def body_piece.allowed : body_piece → Bool
  | body_piece.verbatim c => c != '"' && c != '\\'
  | body_piece.escape letter =>
    letter == 'b' || letter == 'f' || letter == 'n' || letter == 'r' || letter == 't'

/-- The control character an escape letter stands for: backspace, form feed, line
feed, carriage return, tab. -/
def control_char (letter : Char) : Char :=
  if letter = 'b' then Char.ofNat 8
  else if letter = 'f' then Char.ofNat 12
  else if letter = 'n' then '\n'
  else if letter = 'r' then '\r'
  else '\t'

/-- The characters a piece is written with in the literal. -/
def body_piece.source : body_piece → List Char
  | body_piece.verbatim c => [c]
  | body_piece.escape letter => ['\\', letter]

/-- The character a piece stands for. -/
def body_piece.denotes : body_piece → Char
  | body_piece.verbatim c => c
  | body_piece.escape letter => control_char letter

/-- The body of a literal written from its pieces. -/
def body_source : List body_piece → List Char
  | [] => []
  | p :: ps => p.source ++ body_source ps

/-- The pieces of the body `a\tb\nu`: the letters `a`, `b`, `u` with a tab escape
and a line feed escape between them. -/
def escape_pieces : List body_piece :=
  [body_piece.verbatim 'a', body_piece.escape 't', body_piece.verbatim 'b',
    body_piece.escape 'n', body_piece.verbatim 'u']

/-- What a reader may return: a value without Undefined node at any depth, or, in
the sentinel build, a value for which `error()` holds. -/
def outcome.clean (NO_EXCEPTIONS : Bool) (o : outcome value) : Prop :=
  ∀ v it, o = outcome.ret v it →
    v.no_undefined = true ∨ (NO_EXCEPTIONS = true ∧ v.error = true)

/-- The text `{"a":[1,"x",[]]}`: an object with an array that holds a number, a
string and an empty array. -/
def nested_document : List Char :=
  ['{', '"', 'a', '"', ':', '[', '1', ',', '"', 'x', '"', ',', '[', ']', ']', '}']

/-- A reader call ends, on the text `t`, at an index from `j` up to the length of
`t`: it returns with its cursor on `t` at such an index, or throws; it does not run
out of fuel. -/
def outcome.advances {α : Type} (t : List Char) (j : Nat) (o : outcome α) : Prop :=
  match o with
  | outcome.ret _ it => it.text = t ∧ j ≤ it.index ∧ it.index ≤ t.length
  | outcome.raised _ => True
  | outcome.out_of_fuel => False

open string_iterator

/-! ## Lemmas: the cursor -/

theorem first_nil : first [] = Char.ofNat 0 := rfl

theorem first_cons (c : Char) (r : List Char) : first (c :: r) = c := rfl

namespace string_iterator

theorem rest_init (text : List Char) : (init text).rest = text := by
  simp [init, rest]

theorem adv_zero (it : string_iterator) : it.adv 0 = it := rfl

theorem adv_adv (it : string_iterator) (m n : Nat) : (it.adv m).adv n = it.adv (m + n) := by
  simp [adv, Nat.add_assoc]

theorem adv_inj (it : string_iterator) (m n : Nat) : it.adv m = it.adv n ↔ m = n := by
  simp [adv]

theorem rest_adv (it : string_iterator) (n : Nat) : (it.adv n).rest = it.rest.drop n := by
  simp [adv, rest, List.drop_drop, Nat.add_comm]

theorem peek_eq_first (it : string_iterator) : it.peek = first it.rest := by
  unfold peek rest
  rw [List.getD_eq_getElem?_getD, ← List.head?_drop]
  cases List.drop it.index it.text <;> rfl

theorem available_iff (it : string_iterator) : it.available = true ↔ it.rest ≠ [] := by
  simp [available, rest]

theorem peek_cons {it : string_iterator} {c : Char} {r : List Char} (h : it.rest = c :: r) :
    it.peek = c := by
  rw [peek_eq_first, h]; rfl

theorem available_cons {it : string_iterator} {c : Char} {r : List Char}
    (h : it.rest = c :: r) : it.available = true := by
  rw [available_iff, h]; simp

theorem next_cons {it : string_iterator} {c : Char} {r : List Char} (h : it.rest = c :: r) :
    it.next = (c, it.adv 1) := by
  have hp := peek_cons h
  have ha := available_cons h
  unfold peek at hp
  rw [List.getD_eq_getElem?_getD] at hp
  simp [next, ha, hp, adv]

theorem peek_nil {it : string_iterator} (h : it.rest = []) : it.peek = Char.ofNat 0 := by
  rw [peek_eq_first, h]; rfl

theorem available_nil {it : string_iterator} (h : it.rest = []) : it.available = false := by
  have := available_iff it
  cases hav : it.available
  · rfl
  · exact absurd h (this.mp hav)

theorem next_nil {it : string_iterator} (h : it.rest = []) : it.next = (Char.ofNat 0, it) := by
  have hp := peek_nil h
  have ha := available_nil h
  unfold peek at hp
  rw [List.getD_eq_getElem?_getD] at hp
  simp [next, ha, hp]

theorem next_fst (it : string_iterator) : it.next.1 = first it.rest := by
  rw [← peek_eq_first]
  unfold next peek
  split <;> rfl

theorem next_snd (it : string_iterator) :
    it.next.2 = if it.rest = [] then it else it.adv 1 := by
  by_cases h : it.rest = []
  · rw [next_nil h, if_pos h]
  · obtain ⟨c, r, hc⟩ := List.exists_cons_of_ne_nil h
    rw [next_cons hc, if_neg h]

theorem available_eq (it : string_iterator) : it.available = !it.rest.isEmpty := by
  by_cases h : it.rest = []
  · rw [available_nil h, h]; rfl
  · obtain ⟨c, r, hc⟩ := List.exists_cons_of_ne_nil h
    rw [available_cons hc, hc]; rfl

end string_iterator

theorem is_digit_iff (c : Char) : is_digit c = true ↔
    c = '0' ∨ c = '1' ∨ c = '2' ∨ c = '3' ∨ c = '4' ∨ c = '5' ∨ c = '6' ∨ c = '7' ∨
      c = '8' ∨ c = '9' := by
  simp [is_digit, or_assoc]

theorem do_digits_eq (ds : List Char) : ∀ (fuel : Nat) (buffer : List Char)
    (it : string_iterator) (c : Char) (r : List Char),
    it.rest = c :: ds ++ r → (∀ x ∈ ds, is_digit x = true) →
    is_digit (first r) = false → ds.length < fuel →
    do_digits fuel buffer it = outcome.ret (buffer ++ c :: ds) (it.adv (ds.length + 1)) := by
  induction ds with
  | nil =>
    intro fuel buffer it c r h _ hr hf
    obtain ⟨f, rfl⟩ : ∃ f, fuel = f + 1 := ⟨fuel - 1, by simp at hf; omega⟩
    simp at h
    simp [do_digits, peek_eq_first, next_fst, next_snd, rest_adv, h, hr, first_cons]
  | cons d ds ih =>
    intro fuel buffer it c r h hds hr hf
    obtain ⟨f, rfl⟩ : ∃ f, fuel = f + 1 := ⟨fuel - 1, by simp at hf; omega⟩
    simp at hds h hf
    have h1 : (it.adv 1).rest = d :: ds ++ r := by simp [rest_adv, h]
    simp [do_digits, peek_eq_first, next_fst, next_snd, rest_adv, h, hds.1, first_cons]
    rw [ih f (buffer ++ [c]) (it.adv 1) d r h1 hds.2 hr hf]
    simp +arith [adv_adv, adv_inj]

/-! ## Lemmas: numbers -/

theorem is_digit_not_special {c : Char} (h : is_digit c = true) :
    c ≠ '.' ∧ c ≠ 'e' ∧ c ≠ 'E' ∧ c ≠ '-' ∧ c ≠ '+' := by
  rw [is_digit_iff] at h
  rcases h with h | h | h | h | h | h | h | h | h | h <;> subst h <;> decide

theorem grammar_digits_inv {s : List Char} (h : grammar_digits s = true) :
    ∃ d ds, s = d :: ds ∧ is_digit d = true ∧ ∀ x ∈ ds, is_digit x = true := by
  cases s with
  | nil => simp [grammar_digits] at h
  | cons d ds =>
    simp [grammar_digits] at h
    exact ⟨d, ds, rfl, h.1, h.2⟩

theorem grammar_sign_inv {s : List Char} (h : grammar_sign s = true) : s = [] ∨ s = ['-'] := by
  simpa [grammar_sign] using h

theorem grammar_int_inv {s : List Char} (h : grammar_int s = true) :
    s = ['0'] ∨ ∃ d ds, s = d :: ds ∧ is_digit d = true ∧ d ≠ '0' ∧
      ∀ x ∈ ds, is_digit x = true := by
  simp only [grammar_int, Bool.or_eq_true, Bool.and_eq_true, beq_iff_eq] at h
  rcases h with h | ⟨h1, h2⟩
  · exact Or.inl h
  · obtain ⟨d, ds, rfl, hd, hds⟩ := grammar_digits_inv h1
    refine Or.inr ⟨d, ds, rfl, hd, ?_, hds⟩
    intro h0; subst h0; simp at h2

theorem grammar_frac_inv {s : List Char} (h : grammar_frac s = true) :
    s = [] ∨ ∃ d ds, s = '.' :: d :: ds ∧ is_digit d = true ∧ ∀ x ∈ ds, is_digit x = true := by
  cases s with
  | nil => exact Or.inl rfl
  | cons c t =>
    simp only [grammar_frac, Bool.and_eq_true, beq_iff_eq] at h
    obtain ⟨d, ds, rfl, hd, hds⟩ := grammar_digits_inv h.2
    exact Or.inr ⟨d, ds, by rw [h.1], hd, hds⟩

theorem grammar_exp_inv {s : List Char} (h : grammar_exp s = true) :
    s = [] ∨ ∃ e sg d ds, s = e :: sg ++ d :: ds ∧ (e = 'e' ∨ e = 'E') ∧
      (sg = [] ∨ sg = ['+'] ∨ sg = ['-']) ∧ is_digit d = true ∧
      ∀ x ∈ ds, is_digit x = true := by
  match s, h with
  | [], _ => exact Or.inl rfl
  | [_], h => simp [grammar_exp] at h
  | c :: s1 :: t, h =>
    simp only [grammar_exp, Bool.and_eq_true, Bool.or_eq_true, beq_iff_eq] at h
    obtain ⟨hc, hrest⟩ := h
    rcases hrest with ⟨hs, hd⟩ | hd
    · obtain ⟨d, ds, rfl, hd1, hds⟩ := grammar_digits_inv hd
      refine Or.inr ⟨c, [s1], d, ds, rfl, hc, ?_, hd1, hds⟩
      rcases hs with hs | hs <;> simp [hs]
    · obtain ⟨d, ds, heq, hd1, hds⟩ := grammar_digits_inv hd
      injection heq with h1 h2
      subst h1 h2
      exact Or.inr ⟨c, [], s1, t, rfl, hc, Or.inl rfl, hd1, hds⟩

theorem read_exponent_none (NE : Bool) (fuel : Nat) (it : string_iterator)
    (h1 : first it.rest ≠ 'e') (h2 : first it.rest ≠ 'E') :
    read_exponent NE fuel it = outcome.ret [] it := by
  simp [read_exponent, peek_eq_first, h1, h2]

theorem read_exponent_eq (NE : Bool) (fuel : Nat) (it : string_iterator) (e : Char)
    (sg : List Char) (d : Char) (ds r : List Char)
    (h : it.rest = e :: sg ++ d :: ds ++ r) (he : e = 'e' ∨ e = 'E')
    (hsg : sg = [] ∨ sg = ['+'] ∨ sg = ['-']) (hd : is_digit d = true)
    (hds : ∀ x ∈ ds, is_digit x = true) (hr : is_digit (first r) = false)
    (hf : ds.length < fuel) :
    read_exponent NE fuel it =
      outcome.ret (e :: sg ++ d :: ds) (it.adv (sg.length + ds.length + 2)) := by
  have hdn := is_digit_not_special hd
  rcases hsg with rfl | rfl | rfl
  · have h1 : (it.adv 1).rest = d :: ds ++ r := by simp [rest_adv, h]
    simp [read_exponent, read_exponent_digits, peek_eq_first, next_fst, next_snd, rest_adv, h,
      first_cons, he, hdn, hd]
    rw [do_digits_eq ds fuel [e] (it.adv 1) d r h1 hds hr hf]
    simp +arith [adv_adv, adv_inj]
  · have h1 : (it.adv 2).rest = d :: ds ++ r := by simp [rest_adv, h]
    simp [read_exponent, read_exponent_digits, peek_eq_first, next_fst, next_snd, rest_adv, h,
      first_cons, he, hdn, hd, adv_adv]
    rw [do_digits_eq ds fuel [e, '+'] (it.adv 2) d r h1 hds hr hf]
    simp +arith [adv_adv, adv_inj]
  · have h1 : (it.adv 2).rest = d :: ds ++ r := by simp [rest_adv, h]
    simp [read_exponent, read_exponent_digits, peek_eq_first, next_fst, next_snd, rest_adv, h,
      first_cons, he, hdn, hd, adv_adv]
    rw [do_digits_eq ds fuel [e, '-'] (it.adv 2) d r h1 hds hr hf]
    simp +arith [adv_adv, adv_inj]

theorem rest_adv_length {it : string_iterator} {s t : List Char} (h : it.rest = s ++ t) :
    (it.adv s.length).rest = t := by
  rw [rest_adv, h, List.drop_left]

theorem read_fractional_eq (NE : Bool) (fuel : Nat) (it : string_iterator) (d : Char)
    (ds r : List Char) (h : it.rest = '.' :: d :: ds ++ r) (hd : is_digit d = true)
    (hds : ∀ x ∈ ds, is_digit x = true) (hr : is_digit (first r) = false)
    (hf : ds.length < fuel) :
    read_fractional NE fuel it = outcome.ret ('.' :: d :: ds) (it.adv (ds.length + 2)) := by
  have h1 : (it.adv 1).rest = d :: ds ++ r := by simp [rest_adv, h]
  simp [read_fractional, peek_eq_first, next_fst, next_snd, rest_adv, h, first_cons, hd]
  rw [do_digits_eq ds fuel ['.'] (it.adv 1) d r h1 hds hr hf]
  simp +arith [adv_adv, adv_inj]

/-- The sign step of `read_number`. -/
theorem read_number_sign_step (NE : Bool) (fuel : Nat) (it : string_iterator)
    (sign t : List Char) (hsign : grammar_sign sign = true) (h : it.rest = sign ++ t)
    (ht : sign = [] → first t ≠ '-') :
    read_number NE fuel it = read_number_integer NE fuel sign (it.adv sign.length) := by
  rcases grammar_sign_inv hsign with rfl | rfl
  · have hpk : ¬ it.peek = '-' := by rw [peek_eq_first, h]; exact ht rfl
    unfold read_number
    rw [if_neg hpk]; rfl
  · have h0 : it.rest = '-' :: t := by simpa using h
    have hpk : it.peek = '-' := by rw [peek_eq_first, h0]; rfl
    unfold read_number
    rw [if_pos hpk, next_fst, next_snd, h0]
    simp [first_cons]

/-- The integer-part step of `read_number`. -/
theorem read_number_integer_step (NE : Bool) (fuel : Nat) (str : List Char)
    (it : string_iterator) (int t : List Char) (hint : grammar_int int = true)
    (h : it.rest = int ++ t) (ht : int = ['0'] ∨ is_digit (first t) = false)
    (hf : int.length ≤ fuel) :
    read_number_integer NE fuel str it =
      read_number_fraction NE fuel value_type.integer (str ++ int) (it.adv int.length) := by
  rcases grammar_int_inv hint with rfl | ⟨d, ds, rfl, hd, hd0, hds⟩
  · have h0 : it.rest = '0' :: t := by simpa using h
    have hpk : it.peek = '0' := by rw [peek_eq_first, h0]; rfl
    unfold read_number_integer
    rw [if_pos hpk, next_fst, next_snd, h0]
    simp [first_cons]
  · have h0 : it.rest = d :: ds ++ t := by simpa using h
    have hpk : ¬ it.peek = '0' := by rw [peek_eq_first, h0]; exact hd0
    have hpk2 : is_digit it.peek = true := by rw [peek_eq_first, h0]; exact hd
    have ht2 : is_digit (first t) = false := by
      rcases ht with ht | ht
      · injection ht with h1 h2; exact absurd h1 hd0
      · exact ht
    unfold read_number_integer
    rw [if_neg hpk, if_pos hpk2, do_digits_eq ds fuel str it d t h0 hds ht2
      (by simp at hf; omega)]
    simp [outcome.bind]

/-- The fractional-part step of `read_number`. -/
theorem read_number_fraction_step (NE : Bool) (fuel : Nat) (ty : value_type) (str : List Char)
    (it : string_iterator) (frac t : List Char) (hfrac : grammar_frac frac = true)
    (h : it.rest = frac ++ t) (ht : is_digit (first t) = false)
    (ht2 : frac = [] → first t ≠ '.') (hf : frac.length ≤ fuel) :
    read_number_fraction NE fuel ty str it =
      read_number_exponent NE fuel (if frac = [] then ty else value_type.floating)
        (str ++ frac) (it.adv frac.length) := by
  rcases grammar_frac_inv hfrac with rfl | ⟨d, ds, rfl, hd, hds⟩
  · have hpk : ¬ it.peek = '.' := by rw [peek_eq_first, h]; exact ht2 rfl
    unfold read_number_fraction
    rw [if_neg hpk]
    simp [adv_zero]
  · have h0 : it.rest = '.' :: d :: ds ++ t := by simpa using h
    have hpk : it.peek = '.' := by rw [peek_eq_first, h0]; rfl
    unfold read_number_fraction
    rw [if_pos hpk, read_fractional_eq NE fuel it d ds t h0 hd hds ht (by simp at hf; omega)]
    simp [outcome.bind]

theorem first_exp_append {exp r : List Char} (hexp : grammar_exp exp = true)
    (hr : number_stop r) :
    is_digit (first (exp ++ r)) = false ∧ first (exp ++ r) ≠ '.' := by
  rcases grammar_exp_inv hexp with rfl | ⟨e, sg, d, ds, rfl, he, -, -, -⟩
  · exact ⟨hr.1, hr.2.1⟩
  · rcases he with rfl | rfl <;> simp [first_cons] <;> decide

theorem first_frac_append {frac exp r : List Char} (hfrac : grammar_frac frac = true)
    (hexp : grammar_exp exp = true) (hr : number_stop r) :
    is_digit (first (frac ++ exp ++ r)) = false := by
  rcases grammar_frac_inv hfrac with rfl | ⟨d, ds, rfl, -, -⟩
  · simpa using (first_exp_append hexp hr).1
  · simp [first_cons]; decide

theorem first_int_append {int t : List Char} (hint : grammar_int int = true) :
    is_digit (first (int ++ t)) = true := by
  rcases grammar_int_inv hint with rfl | ⟨d, ds, rfl, hd, -, -⟩
  · rfl
  · simpa [first_cons] using hd

theorem read_number_exponent_eq (NE : Bool) (fuel : Nat) (ty : value_type) (str : List Char)
    (it : string_iterator) (exp r : List Char) (hexp : grammar_exp exp = true)
    (h : it.rest = exp ++ r) (hr : number_stop r) (hf : exp.length ≤ fuel) :
    read_number_exponent NE fuel ty str it =
      outcome.ret (value.of_type_text (if exp = [] then ty else value_type.floating) str)
        (it.adv exp.length) := by
  rcases grammar_exp_inv hexp with rfl | ⟨e, sg, d, ds, rfl, he, hsg, hd, hds⟩
  · simp at h
    simp [read_number_exponent, peek_eq_first, h, hr.2.2.1, hr.2.2.2, adv_zero]
  · have hlen : ds.length < fuel := by simp at hf; omega
    have h0 : it.rest = e :: sg ++ d :: ds ++ r := by simpa using h
    have h2 : (it.adv (sg.length + ds.length + 2)).rest = r := by
      rw [rest_adv, h0]
      have : sg.length + ds.length + 2 = (e :: sg ++ d :: ds).length := by simp +arith
      rw [this, List.drop_left]
    have hpk : it.peek = 'e' ∨ it.peek = 'E' := by
      rw [peek_eq_first, h0]; exact he
    unfold read_number_exponent
    rw [if_pos hpk, read_exponent_eq NE fuel it e sg d ds r h0 he hsg hd hds hr.1 hlen]
    simp only [outcome.bind]
    rw [read_exponent_none NE fuel _ (by rw [h2]; exact hr.2.2.1) (by rw [h2]; exact hr.2.2.2)]
    simp +arith [outcome.bind, adv_inj]

/-- What `read_number` returns on a text of the number grammar: the sign, the
integer part and the fractional part are stored, the exponent part is not. -/
theorem read_number_eq (NE : Bool) (fuel : Nat) (it : string_iterator)
    (sign int frac exp r : List Char) (hsign : grammar_sign sign = true)
    (hint : grammar_int int = true) (hfrac : grammar_frac frac = true)
    (hexp : grammar_exp exp = true) (h : it.rest = sign ++ int ++ frac ++ exp ++ r)
    (hr : number_stop r) (hf : sign.length + int.length + frac.length + exp.length ≤ fuel) :
    read_number NE fuel it =
      outcome.ret
        (value.of_type_text
          (if frac = [] ∧ exp = [] then value_type.integer else value_type.floating)
          (sign ++ int ++ frac))
        (it.adv (sign.length + int.length + frac.length + exp.length)) := by
  have h0 : it.rest = sign ++ (int ++ (frac ++ (exp ++ r))) := by simpa using h
  have h1 := rest_adv_length h0
  have h2 := rest_adv_length h1
  have h3 := rest_adv_length h2
  have hd1 := first_int_append (t := frac ++ (exp ++ r)) hint
  have hd2 : is_digit (first (frac ++ (exp ++ r))) = false := by
    simpa using first_frac_append hfrac hexp hr
  have hd3 := first_exp_append hexp hr
  rw [read_number_sign_step NE fuel it sign _ hsign h0
      (fun _ => (is_digit_not_special hd1).2.2.2.1),
    read_number_integer_step NE fuel sign _ int _ hint h1 (Or.inr hd2) (by omega),
    read_number_fraction_step NE fuel _ _ _ frac _ hfrac h2 hd3.1 (fun _ => hd3.2) (by omega),
    read_number_exponent_eq NE fuel _ _ _ exp r hexp h3 hr (by omega)]
  by_cases hfr : frac = [] <;> by_cases hex : exp = [] <;>
    simp +arith [hfr, hex, adv_adv, adv_inj]

theorem is_digit_not_open {c : Char} (h : is_digit c = true) :
    c ≠ '{' ∧ c ≠ '[' ∧ c ≠ '"' := by
  rw [is_digit_iff] at h
  rcases h with h | h | h | h | h | h | h | h | h | h <;> subst h <;> decide

theorem rest_ne_nil_of_first {it : string_iterator}
    (h : first it.rest = '-' ∨ is_digit (first it.rest) = true) : it.rest ≠ [] := by
  intro hnil
  rw [hnil] at h
  rcases h with h | h <;> revert h <;> decide

/-- On a minus sign or a digit `read_value` hands over to `read_number`. -/
theorem read_value_loop_number (NE : Bool) (rv : string_iterator → outcome value) (fuel : Nat)
    (buffer : List Char) (it : string_iterator)
    (h : first it.rest = '-' ∨ is_digit (first it.rest) = true) :
    read_value_loop NE rv (fuel + 1) buffer it = read_number NE fuel it := by
  have hav : it.available = true := (available_iff it).mpr (rest_ne_nil_of_first h)
  have h1 : first it.rest ≠ '{' ∧ first it.rest ≠ '[' ∧ first it.rest ≠ '"' := by
    rcases h with h | h
    · rw [h]; decide
    · exact is_digit_not_open h
  have h2 : it.peek = '-' ∨ is_digit it.peek = true := by rw [peek_eq_first]; exact h
  unfold read_value_loop
  rw [if_pos hav, if_neg (by rw [peek_eq_first]; exact h1.1),
    if_neg (by rw [peek_eq_first]; exact h1.2.1), if_neg (by rw [peek_eq_first]; exact h1.2.2),
    if_pos h2]

theorem read_value_number (NE : Bool) (fuel : Nat) (it : string_iterator)
    (h : first it.rest = '-' ∨ is_digit (first it.rest) = true) :
    read_value NE (fuel + 1) it = read_number NE fuel it := by
  rw [read_value, read_value_loop_number NE _ fuel [] it h]

theorem first_number {sign int t : List Char} (hsign : grammar_sign sign = true)
    (hint : grammar_int int = true) :
    first (sign ++ (int ++ t)) = '-' ∨ is_digit (first (sign ++ (int ++ t))) = true := by
  rcases grammar_sign_inv hsign with rfl | rfl
  · exact Or.inr (by simpa using first_int_append hint)
  · exact Or.inl rfl

theorem number_stop_nil : number_stop [] := by
  refine ⟨?_, ?_, ?_, ?_⟩ <;> decide

/-- What `parse` returns on a text of the number grammar. -/
theorem parse_number (NE : Bool) (sign int frac exp : List Char)
    (hsign : grammar_sign sign = true) (hint : grammar_int int = true)
    (hfrac : grammar_frac frac = true) (hexp : grammar_exp exp = true) :
    parse NE (sign ++ int ++ frac ++ exp) =
      outcome.ret
        (value.of_type_text
          (if frac = [] ∧ exp = [] then value_type.integer else value_type.floating)
          (sign ++ int ++ frac))
        ((string_iterator.init (sign ++ int ++ frac ++ exp)).adv
          (sign ++ int ++ frac ++ exp).length) := by
  have h0 : (string_iterator.init (sign ++ int ++ frac ++ exp)).rest =
      sign ++ int ++ frac ++ exp ++ [] := by simp [rest_init]
  have hfst : first (string_iterator.init (sign ++ int ++ frac ++ exp)).rest = '-' ∨
      is_digit (first (string_iterator.init (sign ++ int ++ frac ++ exp)).rest) = true := by
    rw [rest_init]
    simpa using first_number (t := frac ++ exp) hsign hint
  unfold parse
  rw [read_value_number NE _ _ hfst,
    read_number_eq NE _ _ sign int frac exp [] hsign hint hfrac hexp h0 number_stop_nil
      (by simp +arith)]
  simp +arith [adv_inj]

theorem failed_fail (NE : Bool) (msg : String) (it : string_iterator) :
    (fail NE msg it).failed NE = true := by
  cases NE <;> rfl

/-- A minus sign that no digit follows: `read_number` fails. -/
theorem read_number_fails_sign (NE : Bool) (fuel : Nat) (it : string_iterator) (r : List Char)
    (h : it.rest = '-' :: r) (hr : is_digit (first r) = false) :
    (read_number NE fuel it).failed NE = true := by
  have h1 : (it.adv 1).rest = r := by simp [rest_adv, h]
  have hpk : it.peek = '-' := by rw [peek_eq_first, h]; rfl
  have hp0 : ¬ (it.adv 1).peek = '0' := by
    rw [peek_eq_first, h1]; intro h0; rw [h0] at hr; revert hr; decide
  unfold read_number
  rw [if_pos hpk, next_snd, h]
  simp only [reduceCtorEq, if_false]
  unfold read_number_integer
  rw [if_neg hp0, peek_eq_first, h1, hr]
  simp [failed_fail]

/-- A decimal point that no digit follows: `read_number_fraction` fails. -/
theorem read_number_fraction_fails (NE : Bool) (fuel : Nat) (ty : value_type) (str : List Char)
    (it : string_iterator) (r : List Char) (h : it.rest = '.' :: r)
    (hr : is_digit (first r) = false) :
    (read_number_fraction NE fuel ty str it).failed NE = true := by
  have h1 : (it.adv 1).rest = r := by simp [rest_adv, h]
  have hpk : it.peek = '.' := by rw [peek_eq_first, h]; rfl
  unfold read_number_fraction read_fractional
  rw [if_pos hpk, if_pos hpk, next_snd, h]
  simp only [reduceCtorEq, if_false]
  rw [peek_eq_first, h1, hr]
  cases NE <;> rfl

/-- An exponent letter and optional sign that no digit follows:
`read_number_exponent` fails. -/
theorem read_number_exponent_fails (NE : Bool) (fuel : Nat) (ty : value_type) (str : List Char)
    (it : string_iterator) (e : Char) (sg r : List Char) (h : it.rest = e :: sg ++ r)
    (he : e = 'e' ∨ e = 'E')
    (hsg : (sg = [] ∧ first r ≠ '+' ∧ first r ≠ '-') ∨ sg = ['+'] ∨ sg = ['-'])
    (hr : is_digit (first r) = false) :
    (read_number_exponent NE fuel ty str it).failed NE = true := by
  have hpk : it.peek = 'e' ∨ it.peek = 'E' := by rw [peek_eq_first, h]; exact he
  unfold read_number_exponent read_exponent
  rw [if_pos hpk, if_pos hpk]
  rcases hsg with ⟨rfl, h1, h2⟩ | rfl | rfl
  · have h0 : it.rest = e :: r := by simpa using h
    have hr1 : (it.adv 1).rest = r := by simp [rest_adv, h0]
    rw [next_snd, h0]
    simp only [reduceCtorEq, if_false]
    rw [if_neg (by rw [peek_eq_first, hr1]; exact h1),
      if_neg (by rw [peek_eq_first, hr1]; exact h2)]
    unfold read_exponent_digits
    rw [peek_eq_first, hr1, hr]
    cases NE <;> rfl
  · have h0 : it.rest = e :: '+' :: r := by simpa using h
    have hr1 : (it.adv 1).rest = '+' :: r := by simp [rest_adv, h0]
    have hr2 : ((it.adv 1).adv 1).rest = r := by simp [rest_adv, h0]
    rw [next_snd, h0]
    simp only [reduceCtorEq, if_false]
    rw [if_pos (by rw [peek_eq_first, hr1]; rfl), next_snd, hr1]
    simp only [reduceCtorEq, if_false]
    unfold read_exponent_digits
    rw [peek_eq_first, hr2, hr]
    cases NE <;> rfl
  · have h0 : it.rest = e :: '-' :: r := by simpa using h
    have hr1 : (it.adv 1).rest = '-' :: r := by simp [rest_adv, h0]
    have hr2 : ((it.adv 1).adv 1).rest = r := by simp [rest_adv, h0]
    rw [next_snd, h0]
    simp only [reduceCtorEq, if_false]
    rw [if_neg (by rw [peek_eq_first, hr1, first_cons]; decide),
      if_pos (by rw [peek_eq_first, hr1]; rfl), next_snd, hr1]
    simp only [reduceCtorEq, if_false]
    unfold read_exponent_digits
    rw [peek_eq_first, hr2, hr]
    cases NE <;> rfl

/-! ## Lemmas: string literals -/

theorem plain_text_cons {c : Char} {s : List Char} (h : plain_text (c :: s) = true) :
    c ≠ '"' ∧ c ≠ '\\' ∧ plain_text s = true := by
  simp [plain_text] at h
  refine ⟨h.1.1, h.1.2, ?_⟩
  simp [plain_text]
  exact h.2

/-- One iteration of the loop of `read_string` on a character that is neither a
quote nor a backslash, outside an escape: the character is appended. -/
theorem read_string_loop_char (NE : Bool) (fuel : Nat) (str : List Char)
    (it : string_iterator) (c : Char) (r : List Char) (h : it.rest = c :: r)
    (h1 : c ≠ '"') (h2 : c ≠ '\\') :
    read_string_loop NE (fuel + 1) str false it =
      read_string_loop NE fuel (str ++ [c]) false (it.adv 1) := by
  simp [read_string_loop, read_string_tail, available_eq, peek_eq_first, next_snd, h, first_cons,
    h1, h2]

/-- The loop of `read_string` copies a run of plain characters. -/
theorem read_string_loop_plain (NE : Bool) (pre : List Char) : ∀ (fuel : Nat) (str : List Char)
    (it : string_iterator) (r : List Char), it.rest = pre ++ r → plain_text pre = true →
    pre.length ≤ fuel →
    read_string_loop NE fuel str false it =
      read_string_loop NE (fuel - pre.length) (str ++ pre) false (it.adv pre.length) := by
  induction pre with
  | nil => intro fuel str it r _ _ _; simp [adv_zero]
  | cons c pre ih =>
    intro fuel str it r h hp hf
    obtain ⟨f, rfl⟩ : ∃ f, fuel = f + 1 := ⟨fuel - 1, by simp at hf; omega⟩
    obtain ⟨h1, h2, hp2⟩ := plain_text_cons hp
    have h0 : it.rest = c :: (pre ++ r) := by simpa using h
    have hr1 : (it.adv 1).rest = pre ++ r := by simp [rest_adv, h0]
    rw [read_string_loop_char NE f str it c _ h0 h1 h2,
      ih f (str ++ [c]) (it.adv 1) r hr1 hp2 (by simp at hf; omega)]
    simp +arith [adv_adv, adv_inj]
    rw [Nat.add_comm]

/-- The closing quote ends `read_string`; the cursor is left after it. -/
theorem read_string_loop_close (NE : Bool) (fuel : Nat) (str : List Char)
    (it : string_iterator) (r : List Char) (h : it.rest = '"' :: r) :
    read_string_loop NE (fuel + 1) str false it =
      outcome.ret (value.of_string str) (it.adv 1) := by
  simp [read_string_loop, read_string_tail, available_eq, peek_eq_first, next_snd, h, first_cons]

/-- What `read_string` returns on a literal with a plain body. -/
theorem read_string_plain (NE : Bool) (fuel : Nat) (it : string_iterator) (s r : List Char)
    (h : it.rest = '"' :: s ++ '"' :: r) (hp : plain_text s = true) (hf : s.length < fuel) :
    read_string NE fuel it = outcome.ret (value.of_string s) (it.adv (s.length + 2)) := by
  have h0 : it.rest = '"' :: (s ++ '"' :: r) := by simpa using h
  have hr1 : (it.adv 1).rest = s ++ '"' :: r := by simp [rest_adv, h0]
  have hr2 := rest_adv_length hr1
  obtain ⟨f, hf2⟩ : ∃ f, fuel - s.length = f + 1 := ⟨fuel - s.length - 1, by omega⟩
  unfold read_string
  rw [next_snd, h0]
  simp only [reduceCtorEq, if_false]
  rw [read_string_loop_plain NE s fuel [] (it.adv 1) _ hr1 hp (by omega), hf2,
    read_string_loop_close NE f _ _ r hr2]
  simp +arith [adv_adv, adv_inj]

theorem hex_value_hex_char : ∀ upper : Bool, ∀ h, h < 16 →
    hex_value (hex_char upper h) = some h := by
  decide

theorem or_192 : ∀ y, y < 32 → 192 ||| y = 192 + y := by decide

theorem or_128 : ∀ y, y < 64 → 128 ||| y = 128 + y := by decide

theorem or_224 : ∀ y, y < 16 → 224 ||| y = 224 + y := by decide

theorem shift_or_hex (x h : Nat) (hh : h < 16) : (x <<< 4) ||| h = 16 * x + h := by
  rw [Nat.shiftLeft_eq, Nat.mul_comm]
  exact (Nat.mul_add_lt_is_or (i := 4) hh x).symm

/-- The shifts and masks of `read_unicode` compute the UTF-8 layout. -/
theorem encode_utf8_eq (cp : Nat) (h : cp < 65536) : encode_utf8 cp = utf8_layout cp := by
  have e5 : ∀ x, x &&& 31 = x % 32 := fun x => Nat.and_pow_two_sub_one_eq_mod x 5
  have e6 : ∀ x, x &&& 63 = x % 64 := fun x => Nat.and_pow_two_sub_one_eq_mod x 6
  have e4 : ∀ x, x &&& 15 = x % 16 := fun x => Nat.and_pow_two_sub_one_eq_mod x 4
  unfold encode_utf8 utf8_layout
  by_cases h1 : cp ≤ 0x7F
  · rw [if_pos h1, if_pos h1]
  · rw [if_neg h1, if_neg h1]
    by_cases h2 : cp ≤ 0x7FF
    · rw [if_pos h2, if_pos h2]
      have a1 : (0b110 <<< 5) ||| ((cp >>> 6) &&& 0b11111) = 0xC0 + cp / 64 := by
        show 192 ||| ((cp >>> 6) &&& 31) = 192 + cp / 64
        rw [e5, Nat.shiftRight_eq_div_pow, or_192 _ (Nat.mod_lt _ (by decide))]
        have : cp / 2 ^ 6 % 32 = cp / 64 := by simp at h2 ⊢; omega
        rw [this]
      have a2 : (0b10 <<< 6) ||| (cp &&& 0b111111) = 0x80 + cp % 64 := by
        show 128 ||| (cp &&& 63) = 128 + cp % 64
        rw [e6, or_128 _ (Nat.mod_lt _ (by decide))]
      rw [a1, a2]
    · rw [if_neg h2, if_neg h2]
      have a1 : (0b1110 <<< 4) ||| ((cp >>> 12) &&& 0b1111) = 0xE0 + cp / 4096 := by
        show 224 ||| ((cp >>> 12) &&& 15) = 224 + cp / 4096
        rw [e4, Nat.shiftRight_eq_div_pow, or_224 _ (Nat.mod_lt _ (by decide))]
        have : cp / 2 ^ 12 % 16 = cp / 4096 := by simp; omega
        rw [this]
      have a2 : (0b10 <<< 6) ||| ((cp >>> 6) &&& 0b111111) = 0x80 + cp / 64 % 64 := by
        show 128 ||| ((cp >>> 6) &&& 63) = 128 + cp / 64 % 64
        rw [e6, Nat.shiftRight_eq_div_pow, or_128 _ (Nat.mod_lt _ (by decide))]
      have a3 : (0b10 <<< 6) ||| (cp &&& 0b111111) = 0x80 + cp % 64 := by
        show 128 ||| (cp &&& 63) = 128 + cp % 64
        rw [e6, or_128 _ (Nat.mod_lt _ (by decide))]
      rw [a1, a2, a3]

theorem encode_utf8_ne_nil (value : Nat) : encode_utf8 value ≠ [] := by
  unfold encode_utf8
  split
  · simp
  · split <;> simp

/-- Function `read_unicode` on four hexadecimal digits: the cursor is left on the
fourth digit. -/
theorem read_unicode_eq (NE : Bool) (fuel : Nat) (it : string_iterator)
    (d1 d2 d3 d4 : Char) (h1 h2 h3 h4 : Nat) (r : List Char)
    (h : it.rest = d1 :: d2 :: d3 :: d4 :: r)
    (e1 : hex_value d1 = some h1) (e2 : hex_value d2 = some h2)
    (e3 : hex_value d3 = some h3) (e4 : hex_value d4 = some h4) (hf : 5 ≤ fuel) :
    read_unicode NE fuel it =
      outcome.ret
        (encode_utf8 ((((((h1 <<< 4) ||| h2) <<< 4) ||| h3) <<< 4) ||| h4))
        (it.adv 3) := by
  obtain ⟨f, rfl⟩ : ∃ f, fuel = f + 5 := ⟨fuel - 5, by omega⟩
  simp [read_unicode, read_unicode_loop, available_eq, peek_eq_first, next_snd, rest_adv, h,
    first_cons, e1, e2, e3, e4, adv_adv]

/-- The loop of `read_string` on an escape `\uXXXX`: the encoding is appended, the
escape mode is left and the cursor moves to the character after the fourth digit. -/
theorem read_string_loop_unicode (NE : Bool) (fuel : Nat) (str : List Char)
    (it : string_iterator) (d1 d2 d3 d4 : Char) (h1 h2 h3 h4 : Nat) (r : List Char)
    (h : it.rest = '\\' :: 'u' :: d1 :: d2 :: d3 :: d4 :: r)
    (e1 : hex_value d1 = some h1) (e2 : hex_value d2 = some h2)
    (e3 : hex_value d3 = some h3) (e4 : hex_value d4 = some h4) (hf : 7 ≤ fuel) :
    read_string_loop NE fuel str false it =
      read_string_loop NE (fuel - 2)
        (str ++
          encode_utf8 ((((((h1 <<< 4) ||| h2) <<< 4) ||| h3) <<< 4) ||| h4))
        false (it.adv 6) := by
  obtain ⟨f, rfl⟩ : ∃ f, fuel = f + 2 := ⟨fuel - 2, by omega⟩
  have hr1 : (it.adv 1).rest = 'u' :: d1 :: d2 :: d3 :: d4 :: r := by simp [rest_adv, h]
  have hr2 : ((it.adv 1).adv 1).rest = d1 :: d2 :: d3 :: d4 :: r := by simp [rest_adv, h]
  have hr5 : (((it.adv 1).adv 1).adv 3).rest = [d4] ++ r := by simp [rest_adv, h]
  have step1 : read_string_loop NE (f + 2) str false it =
      read_string_loop NE (f + 1) str true (it.adv 1) := by
    simp [read_string_loop, read_string_tail, available_eq, peek_eq_first, next_snd, h,
      first_cons]
  rw [step1, read_string_loop]
  have hav : (it.adv 1).available = true := by rw [available_eq, hr1]; rfl
  have hpk : (it.adv 1).peek = 'u' := by rw [peek_eq_first, hr1]; rfl
  rw [if_pos hav, hpk]
  simp only [Char.reduceEq, if_false, if_true]
  rw [next_snd, hr1]
  simp only [reduceCtorEq, if_false]
  rw [read_unicode_eq NE f _ d1 d2 d3 d4 h1 h2 h3 h4 r hr2 e1 e2 e3 e4 (by omega)]
  simp only [outcome.bind, read_string_tail]
  rw [next_snd, hr5]
  cases NE <;> simp [encode_utf8_ne_nil, adv_adv]

/-! ## Single steps of `read_value`, `read_array` and `read_object` -/

/-- On a double quote `read_value` hands over to `read_string`. -/
theorem read_value_loop_string (NE : Bool) (rv : string_iterator → outcome value) (fuel : Nat)
    (buffer : List Char) (it : string_iterator) (r : List Char) (h : it.rest = '"' :: r) :
    read_value_loop NE rv (fuel + 1) buffer it = read_string NE fuel it := by
  simp [read_value_loop, available_eq, peek_eq_first, h, first_cons]

/-- On an opening bracket `read_value` hands over to `read_array`. -/
theorem read_value_loop_array (NE : Bool) (rv : string_iterator → outcome value) (fuel : Nat)
    (buffer : List Char) (it : string_iterator) (r : List Char) (h : it.rest = '[' :: r) :
    read_value_loop NE rv (fuel + 1) buffer it = read_array NE rv fuel it := by
  simp [read_value_loop, available_eq, peek_eq_first, h, first_cons]

/-- On an opening brace `read_value` hands over to `read_object`. -/
theorem read_value_loop_object (NE : Bool) (rv : string_iterator → outcome value) (fuel : Nat)
    (buffer : List Char) (it : string_iterator) (r : List Char) (h : it.rest = '{' :: r) :
    read_value_loop NE rv (fuel + 1) buffer it = read_object NE rv fuel it := by
  simp [read_value_loop, available_eq, peek_eq_first, h, first_cons]

theorem is_space_iff (c : Char) :
    is_space c = true ↔ c = ' ' ∨ c = '\r' ∨ c = '\n' ∨ c = '\t' := by
  simp [is_space, or_assoc]

theorem spaces_is_space {ws : List Char} (h : ∀ c ∈ ws, c = ' ') :
    ∀ c ∈ ws, is_space c = true := by
  intro c hc
  rw [h c hc]
  rfl

/-- The loop of `read_value` skips a whitespace character. -/
theorem read_value_loop_space (NE : Bool) (rv : string_iterator → outcome value) (fuel : Nat)
    (buffer : List Char) (it : string_iterator) (c : Char) (r : List Char)
    (h : it.rest = c :: r) (hc : is_space c = true) :
    read_value_loop NE rv (fuel + 1) buffer it =
      read_value_loop NE rv fuel buffer (it.adv 1) := by
  rcases (is_space_iff c).mp hc with rfl | rfl | rfl | rfl <;>
    simp [read_value_loop, available_eq, peek_eq_first, next_snd, h, first_cons, is_digit]

/-- The loop of `read_value` skips a run of whitespace. -/
theorem read_value_loop_spaces (NE : Bool) (rv : string_iterator → outcome value)
    (ws : List Char) : ∀ (fuel : Nat) (buffer : List Char) (it : string_iterator)
    (r : List Char), it.rest = ws ++ r → (∀ c ∈ ws, is_space c = true) → ws.length ≤ fuel →
    read_value_loop NE rv fuel buffer it =
      read_value_loop NE rv (fuel - ws.length) buffer (it.adv ws.length) := by
  induction ws with
  | nil => intro fuel buffer it r _ _ _; simp [adv_zero]
  | cons c ws ih =>
    intro fuel buffer it r h hws hf
    obtain ⟨f, rfl⟩ : ∃ f, fuel = f + 1 := ⟨fuel - 1, by simp at hf; omega⟩
    have h0 : it.rest = c :: (ws ++ r) := by simpa using h
    have hr1 : (it.adv 1).rest = ws ++ r := by simp [rest_adv, h0]
    rw [read_value_loop_space NE rv f buffer it c _ h0 (hws c (by simp)),
      ih f buffer (it.adv 1) r hr1 (fun c hc => hws c (by simp [hc])) (by simp at hf; omega)]
    simp +arith [adv_adv, adv_inj]
    rw [Nat.add_comm]

/-- Function `read_array` consumes the opening bracket and enters its loop. -/
theorem read_array_open (NE : Bool) (rv : string_iterator → outcome value) (fuel : Nat)
    (it : string_iterator) (r : List Char) (h : it.rest = '[' :: r) :
    read_array NE rv fuel it = read_array_loop NE rv fuel [] true (it.adv 1) := by
  simp [read_array, peek_eq_first, next_snd, h, first_cons]

/-- The loop of `read_array` ends on the closing bracket. -/
theorem read_array_loop_close (NE : Bool) (rv : string_iterator → outcome value) (fuel : Nat)
    (values : List value) (ready : Bool) (it : string_iterator) (r : List Char)
    (h : it.rest = ']' :: r) :
    read_array_loop NE rv (fuel + 1) values ready it =
      outcome.ret (value.of_vector values) (it.adv 1) := by
  simp [read_array_loop, read_array_tail, available_eq, peek_eq_first, next_snd, h, first_cons]

/-- The loop of `read_array` on a comma: the comma is consumed and a value is read
in the same iteration. -/
theorem read_array_loop_comma (NE : Bool) (rv : string_iterator → outcome value) (fuel : Nat)
    (values : List value) (ready : Bool) (it it2 : string_iterator) (r : List Char) (w : value)
    (h : it.rest = ',' :: r) (hrv : rv (it.adv 1) = outcome.ret w it2)
    (hw : w.error = false) :
    read_array_loop NE rv (fuel + 1) values ready it =
      read_array_loop NE rv fuel (values ++ [w]) false it2 := by
  simp [read_array_loop, read_array_tail, available_eq, peek_eq_first, next_snd, h, first_cons,
    hrv, outcome.bind, hw]

/-- The loop of `read_array` when a value is expected and the next character is
neither a comma nor the closing bracket: a value is read. -/
theorem read_array_loop_value (NE : Bool) (rv : string_iterator → outcome value) (fuel : Nat)
    (values : List value) (it it2 : string_iterator) (c : Char) (r : List Char) (w : value)
    (h : it.rest = c :: r) (hc1 : c ≠ ',') (hc2 : c ≠ ']')
    (hrv : rv it = outcome.ret w it2) (hw : w.error = false) :
    read_array_loop NE rv (fuel + 1) values true it =
      read_array_loop NE rv fuel (values ++ [w]) false it2 := by
  simp [read_array_loop, read_array_tail, available_eq, peek_eq_first, h, first_cons,
    hrv, outcome.bind, hw, hc1, hc2]

/-- Function `read_object` consumes the opening brace and enters its loop. -/
theorem read_object_open (NE : Bool) (rv : string_iterator → outcome value) (fuel : Nat)
    (it : string_iterator) (c : Char) (r : List Char) (h : it.rest = c :: r) :
    read_object NE rv fuel it = read_object_loop NE rv fuel [] [] (it.adv 1) := by
  simp [read_object, next_snd, h]

/-- The loop of `read_object` skips a space. -/
theorem read_object_loop_space (NE : Bool) (rv : string_iterator → outcome value) (fuel : Nat)
    (values : List (List Char × value)) (key : List Char) (it : string_iterator)
    (r : List Char) (h : it.rest = ' ' :: r) :
    read_object_loop NE rv (fuel + 1) values key it =
      read_object_loop NE rv fuel values key (it.adv 1) := by
  simp [read_object_loop, available_eq, peek_eq_first, next_snd, h, first_cons]

/-- The loop of `read_object` on a comma when no key is pending. -/
theorem read_object_loop_comma (NE : Bool) (rv : string_iterator → outcome value) (fuel : Nat)
    (values : List (List Char × value)) (it : string_iterator)
    (r : List Char) (h : it.rest = ',' :: r) :
    read_object_loop NE rv (fuel + 1) values [] it =
      read_object_loop NE rv fuel values [] (it.adv 1) := by
  simp [read_object_loop, available_eq, peek_eq_first, next_snd, h, first_cons]

/-- The loop of `read_object` ends on the closing brace. -/
theorem read_object_loop_close (NE : Bool) (rv : string_iterator → outcome value) (fuel : Nat)
    (values : List (List Char × value)) (key : List Char) (it : string_iterator)
    (r : List Char) (h : it.rest = '}' :: r) :
    read_object_loop NE rv (fuel + 1) values key it =
      outcome.ret (value.of_map values) (it.adv 1) := by
  simp [read_object_loop, available_eq, peek_eq_first, next_snd, h, first_cons]

/-- The loop of `read_object` reads a plain string literal as the next key. -/
theorem read_object_loop_key (NE : Bool) (rv : string_iterator → outcome value) (fuel : Nat)
    (values : List (List Char × value)) (key k : List Char) (it : string_iterator)
    (r : List Char) (h : it.rest = '"' :: k ++ '"' :: r) (hk : plain_text k = true)
    (hf : k.length < fuel) :
    read_object_loop NE rv (fuel + 1) values key it =
      read_object_loop NE rv fuel values k (it.adv (k.length + 2)) := by
  have h0 : it.rest = '"' :: (k ++ '"' :: r) := by simpa using h
  have hav : it.available = true := by rw [available_eq, h0]; rfl
  have hpk : it.peek = '"' := by rw [peek_eq_first, h0]; rfl
  rw [read_object_loop, if_pos hav, if_pos hpk, read_string_plain NE fuel it k r h hk hf]
  simp [outcome.bind, value.to_std_string, value.of_string, value.type, value.text]

/-- The loop of `read_object` on a colon: the value is read and stored under the
pending key. -/
theorem read_object_loop_colon (NE : Bool) (rv : string_iterator → outcome value) (fuel : Nat)
    (values : List (List Char × value)) (key : List Char) (it it2 : string_iterator)
    (r : List Char) (w : value) (h : it.rest = ':' :: r)
    (hrv : rv (it.adv 1) = outcome.ret w it2) (hw : w.error = false) :
    read_object_loop NE rv (fuel + 1) values key it =
      read_object_loop NE rv fuel (dict_assign values key w) [] it2 := by
  simp [read_object_loop, available_eq, peek_eq_first, next_snd, h, first_cons, hrv,
    outcome.bind, hw]

/-! ## The round trip `parse (to_string v)` -/

theorem integer_text_inv {t : List Char} (h : integer_text t = true) :
    ∃ sign int, t = sign ++ int ∧ grammar_sign sign = true ∧ grammar_int int = true := by
  simp only [integer_text, Bool.or_eq_true, Bool.and_eq_true, beq_iff_eq] at h
  rcases h with h | ⟨h1, h2⟩
  · exact ⟨[], t, rfl, rfl, h⟩
  · cases t with
    | nil => simp at h1
    | cons c t =>
      simp at h1 h2
      subst h1
      exact ⟨['-'], t, rfl, rfl, h2⟩

theorem float_text_inv {t : List Char} (h : float_text t = true) :
    ∃ sign int frac, t = sign ++ int ++ frac ∧ grammar_sign sign = true ∧
      grammar_int int = true ∧ grammar_frac frac = true ∧ frac ≠ [] := by
  simp only [float_text, Bool.or_eq_true, Bool.and_eq_true, beq_iff_eq, bne_iff_ne] at h
  rcases h with ⟨⟨h1, h2⟩, h3⟩ | ⟨⟨⟨h0, h1⟩, h2⟩, h3⟩
  · exact ⟨[], _, _, by simp [List.takeWhile_append_dropWhile], rfl, h1, h3, h2⟩
  · cases t with
    | nil => simp at h0
    | cons c t =>
      simp at h0
      subst h0
      refine ⟨['-'], _, _, ?_, rfl, h1, h3, h2⟩
      simp [List.takeWhile_append_dropWhile]

/-- The entry of `read_value`: the leading spaces are skipped. -/
theorem read_value_skip (NE : Bool) (n : Nat) (it : string_iterator) (ws t : List Char)
    (h : it.rest = ws ++ t) (hws : ∀ c ∈ ws, is_space c = true) (hn : ws.length < n) :
    read_value NE n it =
      read_value_loop NE (read_value NE (n - 1)) (n - 1 - ws.length + 1) []
        (it.adv ws.length) := by
  obtain ⟨m, rfl⟩ : ∃ m, n = m + 1 := ⟨n - 1, by omega⟩
  rw [read_value, read_value_loop_spaces NE _ ws (m + 1) [] it t h hws (by omega)]
  have : m + 1 - ws.length = m + 1 - 1 - ws.length + 1 := by omega
  rw [this]
  simp

theorem struct_eq_number (ty : value_type) (text : List Char)
    (d : List (List Char × value)) (a : List value)
    (hty : ty = value_type.integer ∨ ty = value_type.floating) :
    struct_eq (value.mk ty text d a) (value.of_type_text ty text) := by
  rcases hty with rfl | rfl <;> simp [struct_eq, value.of_type_text, value.type, value.text]

/-- A number value whose text is of the grammar without exponent is read back. -/
theorem reads_back_number (ty : value_type) (text : List Char)
    (d : List (List Char × value)) (a : List value) (sign int frac : List Char)
    (htext : text = sign ++ int ++ frac) (hsign : grammar_sign sign = true)
    (hint : grammar_int int = true) (hfrac : grammar_frac frac = true)
    (hty : ty = if frac = [] then value_type.integer else value_type.floating) :
    reads_back (value.mk ty text d a) := by
  intro NE n it ws r h hws hr hn
  have hts : (value.mk ty text d a).to_string = text := by
    by_cases hf : frac = [] <;> simp [hf] at hty <;> subst hty <;> simp [value.to_string]
  rw [hts] at h ⊢
  have hlen : it.rest.length = ws.length + text.length + r.length := by
    rw [h]; simp +arith
  have h1 := rest_adv_length h
  have h2 : (it.adv ws.length).rest = sign ++ int ++ frac ++ [] ++ r := by
    rw [h1, htext]; simp
  have hfst : first (it.adv ws.length).rest = '-' ∨
      is_digit (first (it.adv ws.length).rest) = true := by
    rw [h1, htext]
    simpa using first_number (t := frac ++ r) hsign hint
  rw [hlen] at hn
  have htl : text.length = sign.length + int.length + frac.length := by
    rw [htext]; simp +arith
  rw [read_value_skip NE n it ws _ h (spaces_is_space hws) (by omega),
    read_value_loop_number NE _ _ [] _ hfst,
    read_number_eq NE _ _ sign int frac [] r hsign hint hfrac rfl h2 hr (by simp; omega)]
  refine ⟨value.of_type_text ty text, ?_, ?_⟩
  · simp only [and_true, List.length_nil, Nat.add_zero, adv_adv, ← htext, ← htl, ← hty]
  · apply struct_eq_number
    by_cases hf : frac = [] <;> simp [hf] at hty <;> simp [hty]

/-- A String value with a plain text is read back. -/
theorem reads_back_string (text : List Char) (d : List (List Char × value)) (a : List value)
    (hp : plain_text text = true) : reads_back (value.mk value_type.string text d a) := by
  intro NE n it ws r h hws hr hn
  have hts : (value.mk value_type.string text d a).to_string = '"' :: text ++ '"' :: [] := by
    simp [value.to_string]
  rw [hts] at h ⊢
  have hlen : it.rest.length = ws.length + text.length + 2 + r.length := by
    rw [h]; simp +arith
  have h1 := rest_adv_length h
  have h2 : (it.adv ws.length).rest = '"' :: text ++ '"' :: r := by
    rw [h1]; simp
  rw [hlen] at hn
  rw [read_value_skip NE n it ws _ h (spaces_is_space hws) (by omega),
    read_value_loop_string NE _ _ [] _ _ (by simpa using h2),
    read_string_plain NE _ _ text r h2 hp (by omega)]
  refine ⟨value.of_string text, ?_, ?_⟩
  · simp +arith [adv_adv, adv_inj]
  · simp [struct_eq, value.of_string, value.type, value.text]

theorem number_stop_cons (c : Char) (t : List Char)
    (hc : c = ',' ∨ c = ']' ∨ c = ' ' ∨ c = '}') : number_stop (c :: t) := by
  rcases hc with rfl | rfl | rfl | rfl <;> refine ⟨?_, ?_, ?_, ?_⟩ <;>
    rw [first_cons] <;> decide

theorem struct_eq_type {v w : value} (h : struct_eq v w) : w.type = v.type := by
  cases v with
  | mk ty text d a =>
    cases ty <;> simp only [struct_eq] at h <;> first | exact h.1 | exact h

theorem nested_ok_type {v : value} (h : v.nested_ok = true) :
    v.type ≠ value_type.undefined := by
  cases v with
  | mk ty text d a =>
    cases ty <;> simp [value.nested_ok] at h <;> simp [value.type]

theorem struct_eq_not_error {v w : value} (h : struct_eq v w) (hv : v.nested_ok = true) :
    w.error = false := by
  have h1 := struct_eq_type h
  have h2 := nested_ok_type hv
  simp [value.error, h1, h2]

/-- The rendering of a `nested_ok` value starts with a brace, a bracket, a quote, a
minus sign or a digit: neither with a comma nor with a closing bracket. -/
theorem to_string_first {v : value} (h : v.nested_ok = true) :
    ∃ c t, v.to_string = c :: t ∧ c ≠ ',' ∧ c ≠ ']' := by
  cases v with
  | mk ty text d a =>
    cases ty <;> simp [value.nested_ok] at h
    · exact ⟨'{', _, by simp [value.to_string]; rfl, by decide, by decide⟩
    · exact ⟨'[', _, by simp [value.to_string]; rfl, by decide, by decide⟩
    · obtain ⟨sign, int, rfl, hs, hi⟩ := integer_text_inv h
      have hf := first_number (t := []) hs hi
      cases hsi : sign ++ (int ++ []) with
      | nil => rw [hsi] at hf; exact absurd hf (by decide)
      | cons c t =>
        rw [hsi] at hf
        simp only [first_cons] at hf
        refine ⟨c, t, by simpa [value.to_string] using hsi, ?_, ?_⟩ <;>
          rcases hf with rfl | hf
        · decide
        · intro hc; subst hc; revert hf; decide
        · decide
        · intro hc; subst hc; revert hf; decide
    · obtain ⟨sign, int, frac, rfl, hs, hi, -, -⟩ := float_text_inv h
      have hf := first_number (t := frac) hs hi
      cases hsi : sign ++ (int ++ frac) with
      | nil => rw [hsi] at hf; exact absurd hf (by decide)
      | cons c t =>
        rw [hsi] at hf
        simp only [first_cons] at hf
        refine ⟨c, t, by simpa [value.to_string] using hsi, ?_, ?_⟩ <;>
          rcases hf with rfl | hf
        · decide
        · intro hc; subst hc; revert hf; decide
        · decide
        · intro hc; subst hc; revert hf; decide
    · exact ⟨'"', _, by simp [value.to_string]; rfl, by decide, by decide⟩

theorem array_to_string_cons (i : Nat) (hi : i ≠ 0) (v : value) (vs : List value) :
    array_to_string i (v :: vs) = ',' :: ' ' :: (v.to_string ++ array_to_string (i + 1) vs) := by
  simp [array_to_string, hi]

theorem array_to_string_zero (v : value) (vs : List value) :
    array_to_string 0 (v :: vs) = v.to_string ++ array_to_string 1 vs := by
  simp [array_to_string]

theorem number_stop_array_cont (i : Nat) (hi : i ≠ 0) (vs : List value) (t : List Char)
    (ht : number_stop t) : number_stop (array_to_string i vs ++ t) := by
  cases vs with
  | nil => simpa [array_to_string] using ht
  | cons v vs =>
    rw [array_to_string_cons i hi]
    exact number_stop_cons ',' _ (by simp)

/-- The loop of `read_array` after the first element: the remaining elements, each
after a comma and a space, are read, and the loop goes on at the text `t` that
follows them, with more fuel than `t` has characters. -/
theorem read_array_loop_rest (NE : Bool) (m : Nat) (vs : List value) :
    ∀ (i : Nat) (values : List value) (fuel : Nat) (it : string_iterator) (t : List Char),
    i ≠ 0 → (∀ v ∈ vs, v.nested_ok = true ∧ reads_back v) →
    it.rest = array_to_string i vs ++ t → number_stop t → it.rest.length < fuel →
    it.rest.length ≤ m →
    ∃ ws fuel1, t.length < fuel1 ∧
      read_array_loop NE (read_value NE m) fuel values false it =
        read_array_loop NE (read_value NE m) fuel1 (values ++ ws) false
          (it.adv (array_to_string i vs).length) ∧
      array_eq vs ws := by
  induction vs with
  | nil =>
    intro i values fuel it t _ _ h _ hf _
    have h0 : it.rest = t := by simpa [array_to_string] using h
    exact ⟨[], fuel, by rw [← h0]; exact hf, by simp [array_to_string, adv_zero],
      by simp [array_eq]⟩
  | cons v vs ih =>
    intro i values fuel it t hi hvs h ht hf hm
    obtain ⟨f, rfl⟩ : ∃ f, fuel = f + 1 := ⟨fuel - 1, by omega⟩
    obtain ⟨hok, hrb⟩ := hvs v (by simp)
    rw [array_to_string_cons i hi] at h ⊢
    have h0 : it.rest = ',' :: ' ' :: (v.to_string ++ (array_to_string (i + 1) vs ++ t)) := by
      simpa using h
    have hlen : it.rest.length =
        2 + v.to_string.length + (array_to_string (i + 1) vs ++ t).length := by
      rw [h0]; simp +arith
    have hr1 : (it.adv 1).rest =
        [' '] ++ (v.to_string ++ (array_to_string (i + 1) vs ++ t)) := by
      simp [rest_adv, h0]
    obtain ⟨w, hrv, hsw⟩ := hrb NE m (it.adv 1) [' '] _ hr1 (by simp)
      (number_stop_array_cont (i + 1) (by omega) vs t ht)
      (by rw [hr1]; simp at hlen ⊢; omega)
    have hr2 : ((it.adv 1).adv ([' '].length + v.to_string.length)).rest =
        array_to_string (i + 1) vs ++ t := by
      rw [rest_adv, hr1]
      have : [' '].length + v.to_string.length = ([' '] ++ v.to_string).length := by simp +arith
      rw [this, ← List.append_assoc, List.drop_left]
    obtain ⟨ws, fuel1, hfuel1, hloop, hws⟩ := ih (i + 1) (values ++ [w]) f _ t (by omega)
      (fun x hx => hvs x (by simp [hx])) hr2 ht (by rw [hr2]; omega) (by rw [hr2]; omega)
    refine ⟨w :: ws, fuel1, hfuel1, ?_, ?_⟩
    · rw [read_array_loop_comma NE _ f values false it _ _ w h0 hrv
        (struct_eq_not_error hsw hok), hloop]
      have e : ((it.adv 1).adv ([' '].length + v.to_string.length)).adv
          (array_to_string (i + 1) vs).length =
          it.adv (',' :: ' ' :: (v.to_string ++ array_to_string (i + 1) vs)).length := by
        simp +arith [adv_adv, adv_inj]
      rw [e]
      simp
    · simp only [array_eq]
      exact ⟨w, ws, rfl, hsw, hws⟩

/-- The loop of `read_array` from the opening bracket on, for at least one element:
all elements are read, and the loop goes on at the text `t` that follows them. -/
theorem read_array_loop_elems (NE : Bool) (m : Nat) (v : value) (vs : List value) (fuel : Nat)
    (it : string_iterator) (t : List Char)
    (hvs : ∀ x ∈ v :: vs, x.nested_ok = true ∧ reads_back x)
    (h : it.rest = array_to_string 0 (v :: vs) ++ t) (ht : number_stop t)
    (hf : it.rest.length < fuel) (hm : it.rest.length < m) :
    ∃ ws fuel1, t.length < fuel1 ∧
      read_array_loop NE (read_value NE m) fuel [] true it =
        read_array_loop NE (read_value NE m) fuel1 ws false
          (it.adv (array_to_string 0 (v :: vs)).length) ∧
      array_eq (v :: vs) ws := by
  obtain ⟨f, rfl⟩ : ∃ f, fuel = f + 1 := ⟨fuel - 1, by omega⟩
  obtain ⟨hok, hrb⟩ := hvs v (by simp)
  rw [array_to_string_zero] at h ⊢
  have h0 : it.rest = [] ++ (v.to_string ++ (array_to_string 1 vs ++ t)) := by
    simpa using h
  have hlen : it.rest.length = v.to_string.length + (array_to_string 1 vs ++ t).length := by
    rw [h0]; simp +arith
  obtain ⟨c, u, hct, hc1, hc2⟩ := to_string_first hok
  have hvl : 1 ≤ v.to_string.length := by rw [hct]; simp
  obtain ⟨w, hrv, hsw⟩ := hrb NE m it [] _ h0 (by simp)
    (number_stop_array_cont 1 (by omega) vs t ht) hm
  have hr2 : (it.adv (([] : List Char).length + v.to_string.length)).rest =
      array_to_string 1 vs ++ t := by
    rw [rest_adv, h0]
    simp
  obtain ⟨ws, fuel1, hfuel1, hloop, hws⟩ := read_array_loop_rest NE m vs 1 ([] ++ [w]) f _ t
    (by omega) (fun x hx => hvs x (by simp [hx])) hr2 ht (by rw [hr2]; omega)
    (by rw [hr2]; omega)
  refine ⟨w :: ws, fuel1, hfuel1, ?_, ?_⟩
  · rw [read_array_loop_value NE _ f [] it _ c (u ++ (array_to_string 1 vs ++ t)) w
      (by rw [h0, hct]; simp) hc1 hc2 hrv (struct_eq_not_error hsw hok), hloop]
    have e : (it.adv (([] : List Char).length + v.to_string.length)).adv
        (array_to_string 1 vs).length =
        it.adv (v.to_string ++ array_to_string 1 vs).length := by
      simp +arith [adv_adv, adv_inj]
    rw [e]
    simp
  · simp only [array_eq]
    exact ⟨w, ws, rfl, hsw, hws⟩

/-- The loop of `read_array` from the opening bracket on: all elements and the
closing bracket. -/
theorem read_array_loop_all (NE : Bool) (m : Nat) (vs : List value) (fuel : Nat)
    (it : string_iterator) (r : List Char)
    (hvs : ∀ v ∈ vs, v.nested_ok = true ∧ reads_back v)
    (h : it.rest = array_to_string 0 vs ++ ']' :: r) (hf : it.rest.length < fuel)
    (hm : it.rest.length < m) :
    ∃ ws, read_array_loop NE (read_value NE m) fuel [] true it =
        outcome.ret (value.of_vector ws) (it.adv ((array_to_string 0 vs).length + 1)) ∧
      array_eq vs ws := by
  cases vs with
  | nil =>
    obtain ⟨f, rfl⟩ : ∃ f, fuel = f + 1 := ⟨fuel - 1, by omega⟩
    have h0 : it.rest = ']' :: r := by simpa [array_to_string] using h
    refine ⟨[], ?_, by simp [array_eq]⟩
    rw [read_array_loop_close NE _ f [] true it r h0]
    simp [array_to_string]
  | cons v vs =>
    obtain ⟨ws, fuel1, hfuel1, hloop, hws⟩ := read_array_loop_elems NE m v vs fuel it
      (']' :: r) hvs h (number_stop_cons ']' r (by simp)) hf hm
    obtain ⟨f, rfl⟩ : ∃ f, fuel1 = f + 1 := ⟨fuel1 - 1, by omega⟩
    refine ⟨ws, ?_, hws⟩
    rw [hloop, read_array_loop_close NE _ f ws false _ r (rest_adv_length h), adv_adv]

theorem object_to_string_cons (i : Nat) (hi : i ≠ 0) (k : List Char) (v : value)
    (es : List (List Char × value)) :
    object_to_string i ((k, v) :: es) =
      ',' :: ' ' :: '"' :: (k ++ '"' :: ':' :: ' ' ::
        (v.to_string ++ object_to_string (i + 1) es)) := by
  simp [object_to_string, hi]

theorem object_to_string_zero (k : List Char) (v : value) (es : List (List Char × value)) :
    object_to_string 0 ((k, v) :: es) =
      '"' :: (k ++ '"' :: ':' :: ' ' :: (v.to_string ++ object_to_string 1 es)) := by
  simp [object_to_string]

theorem number_stop_object_rest (i : Nat) (hi : i ≠ 0) (es : List (List Char × value))
    (r : List Char) : number_stop (object_to_string i es ++ ' ' :: '}' :: r) := by
  cases es with
  | nil => simpa [object_to_string] using number_stop_cons ' ' ('}' :: r) (by simp)
  | cons e es =>
    obtain ⟨k, v⟩ := e
    rw [object_to_string_cons i hi]
    exact number_stop_cons ',' _ (by simp)

/-- The loop of `read_object` on one member `"key": value`: two iterations, the
key and the colon with the value. -/
theorem read_object_loop_entry (NE : Bool) (m f : Nat) (it : string_iterator)
    (k : List Char) (v : value) (t : List Char)
    (h : it.rest = '"' :: (k ++ '"' :: ':' :: ' ' :: (v.to_string ++ t)))
    (hk : plain_text k = true) (hok : v.nested_ok = true) (hrb : reads_back v)
    (ht : number_stop t) (hf : it.rest.length < f + 2) (hm : it.rest.length ≤ m) :
    ∃ w, struct_eq v w ∧ ∀ (values : List (List Char × value)) (key : List Char),
      read_object_loop NE (read_value NE m) (f + 2) values key it =
        read_object_loop NE (read_value NE m) f (dict_assign values k w) []
          (it.adv (k.length + 4 + v.to_string.length)) := by
  have hlen : it.rest.length = k.length + 4 + v.to_string.length + t.length := by
    rw [h]; simp +arith
  have h0 : it.rest = '"' :: k ++ '"' :: (':' :: ' ' :: (v.to_string ++ t)) := by
    simpa using h
  have hr1 : (it.adv (k.length + 2)).rest = ':' :: ' ' :: (v.to_string ++ t) := by
    rw [rest_adv, h0]
    have : k.length + 2 = ('"' :: k ++ ['"']).length := by simp
    rw [this, ← List.drop_left ('"' :: k ++ ['"']) (':' :: ' ' :: (v.to_string ++ t))]
    simp
  have hr2 : ((it.adv (k.length + 2)).adv 1).rest = [' '] ++ (v.to_string ++ t) := by
    rw [rest_adv, hr1]; rfl
  obtain ⟨w, hrv, hsw⟩ := hrb NE m _ [' '] t hr2 (by simp) ht
    (by rw [hr2]; simp at hlen ⊢; omega)
  have e : ((it.adv (k.length + 2)).adv 1).adv ([' '].length + v.to_string.length) =
      it.adv (k.length + 4 + v.to_string.length) := by
    simp +arith [adv_adv, adv_inj]
  rw [e] at hrv
  refine ⟨w, hsw, ?_⟩
  intro values key
  rw [read_object_loop_key NE _ (f + 1) values key k it _ h0 hk (by omega),
    read_object_loop_colon NE _ f values k _ _ _ w hr1 hrv (struct_eq_not_error hsw hok)]

/-- The loop of `read_object` after the first member: the remaining members, each
after a comma and a space, then the space and the closing brace. -/
theorem read_object_loop_rest (NE : Bool) (m : Nat) (es : List (List Char × value)) :
    ∀ (i : Nat) (values : List (List Char × value)) (fuel : Nat) (it : string_iterator)
      (r : List Char),
    i ≠ 0 → (∀ e ∈ es, plain_text e.1 = true ∧ e.2.nested_ok = true ∧ reads_back e.2) →
    it.rest = object_to_string i es ++ ' ' :: '}' :: r → it.rest.length < fuel →
    it.rest.length ≤ m →
    ∃ ws : List (List Char × value), read_object_loop NE (read_value NE m) fuel values [] it =
        outcome.ret
          (value.of_map (ws.foldl (fun acc e => dict_assign acc e.1 e.2) values))
          (it.adv ((object_to_string i es).length + 2)) ∧
      ws.map Prod.fst = es.map Prod.fst ∧
      ∀ e ∈ es, ∃ w, (e.1, w) ∈ ws ∧ struct_eq e.2 w := by
  induction es with
  | nil =>
    intro i values fuel it r _ _ h hf _
    have h0 : it.rest = ' ' :: '}' :: r := by simpa [object_to_string] using h
    have hr1 : (it.adv 1).rest = '}' :: r := by simp [rest_adv, h0]
    obtain ⟨f, rfl⟩ : ∃ f, fuel = f + 2 := ⟨fuel - 2, by rw [h0] at hf; simp at hf; omega⟩
    refine ⟨[], ?_, rfl, by simp⟩
    rw [read_object_loop_space NE _ (f + 1) values [] it _ h0,
      read_object_loop_close NE _ f values [] _ r hr1]
    simp [object_to_string, adv_adv]
  | cons e es ih =>
    intro i values fuel it r hi hes h hf hm
    obtain ⟨k, v⟩ := e
    obtain ⟨hk, hok, hrb⟩ := hes (k, v) (by simp)
    rw [object_to_string_cons i hi] at h ⊢
    have h0 : it.rest = ',' :: ' ' :: '"' :: (k ++ '"' :: ':' :: ' ' ::
        (v.to_string ++ (object_to_string (i + 1) es ++ ' ' :: '}' :: r))) := by
      simpa using h
    have hlen : it.rest.length = k.length + 6 + v.to_string.length +
        (object_to_string (i + 1) es ++ ' ' :: '}' :: r).length := by
      rw [h0]; simp +arith
    have hr1 : (it.adv 1).rest = ' ' :: '"' :: (k ++ '"' :: ':' :: ' ' ::
        (v.to_string ++ (object_to_string (i + 1) es ++ ' ' :: '}' :: r))) := by
      simp [rest_adv, h0]
    have hr2 : ((it.adv 1).adv 1).rest = '"' :: (k ++ '"' :: ':' :: ' ' ::
        (v.to_string ++ (object_to_string (i + 1) es ++ ' ' :: '}' :: r))) := by
      rw [rest_adv, hr1]; rfl
    obtain ⟨f, rfl⟩ : ∃ f, fuel = f + 4 := ⟨fuel - 4, by omega⟩
    obtain ⟨w, hsw, hent⟩ := read_object_loop_entry NE m f _ k v _ hr2 hk hok hrb
      (number_stop_object_rest (i + 1) (by omega) es r)
      (by rw [hr2]; simp at hlen ⊢; omega) (by rw [hr2]; simp at hlen ⊢; omega)
    have hr3 : (((it.adv 1).adv 1).adv (k.length + 4 + v.to_string.length)).rest =
        object_to_string (i + 1) es ++ ' ' :: '}' :: r := by
      rw [rest_adv, hr2]
      have : k.length + 4 + v.to_string.length =
          ('"' :: (k ++ '"' :: ':' :: ' ' :: v.to_string)).length := by simp +arith
      rw [this, ← List.drop_left ('"' :: (k ++ '"' :: ':' :: ' ' :: v.to_string))
        (object_to_string (i + 1) es ++ ' ' :: '}' :: r)]
      simp
    obtain ⟨ws, hloop, hkeys, hmem⟩ := ih (i + 1) (dict_assign values k w) f _ r (by omega)
      (fun x hx => hes x (by simp [hx])) hr3 (by rw [hr3]; omega) (by rw [hr3]; omega)
    refine ⟨(k, w) :: ws, ?_, by simp [hkeys], ?_⟩
    · rw [read_object_loop_comma NE _ (f + 3) values it _ h0,
        read_object_loop_space NE _ (f + 2) values [] _ _ hr1, hent, hloop]
      simp +arith [adv_adv, adv_inj]
    · intro e he
      rcases List.mem_cons.mp he with rfl | he
      · exact ⟨w, by simp, hsw⟩
      · obtain ⟨w2, hw2, hs2⟩ := hmem e he
        exact ⟨w2, by simp [hw2], hs2⟩

/-- The loop of `read_object` from the opening brace on: the space, all members,
the space and the closing brace. -/
theorem read_object_loop_all (NE : Bool) (m : Nat) (es : List (List Char × value))
    (fuel : Nat) (it : string_iterator) (r : List Char)
    (hes : ∀ e ∈ es, plain_text e.1 = true ∧ e.2.nested_ok = true ∧ reads_back e.2)
    (h : it.rest = ' ' :: (object_to_string 0 es ++ ' ' :: '}' :: r))
    (hf : it.rest.length < fuel) (hm : it.rest.length ≤ m) :
    ∃ ws : List (List Char × value), read_object_loop NE (read_value NE m) fuel [] [] it =
        outcome.ret (value.of_map (ws.foldl (fun acc e => dict_assign acc e.1 e.2) []))
          (it.adv ((object_to_string 0 es).length + 3)) ∧
      ws.map Prod.fst = es.map Prod.fst ∧
      ∀ e ∈ es, ∃ w, (e.1, w) ∈ ws ∧ struct_eq e.2 w := by
  have hr1 : (it.adv 1).rest = object_to_string 0 es ++ ' ' :: '}' :: r := by
    simp [rest_adv, h]
  cases es with
  | nil =>
    have hr1b : (it.adv 1).rest = ' ' :: '}' :: r := by simpa [object_to_string] using hr1
    have hr2 : ((it.adv 1).adv 1).rest = '}' :: r := by rw [rest_adv, hr1b]; rfl
    obtain ⟨f, rfl⟩ : ∃ f, fuel = f + 3 := ⟨fuel - 3, by rw [h] at hf; simp at hf; omega⟩
    refine ⟨[], ?_, rfl, by simp⟩
    rw [read_object_loop_space NE _ (f + 2) [] [] it _ h,
      read_object_loop_space NE _ (f + 1) [] [] _ _ hr1b,
      read_object_loop_close NE _ f [] [] _ r hr2]
    simp [object_to_string, adv_adv]
  | cons e es =>
    obtain ⟨k, v⟩ := e
    obtain ⟨hk, hok, hrb⟩ := hes (k, v) (by simp)
    rw [object_to_string_zero] at h hr1 ⊢
    have hlen : it.rest.length = k.length + 5 + v.to_string.length +
        (object_to_string 1 es ++ ' ' :: '}' :: r).length := by
      rw [h]; simp +arith
    have hr1b : (it.adv 1).rest = '"' :: (k ++ '"' :: ':' :: ' ' ::
        (v.to_string ++ (object_to_string 1 es ++ ' ' :: '}' :: r))) := by
      simpa using hr1
    obtain ⟨f, rfl⟩ : ∃ f, fuel = f + 3 := ⟨fuel - 3, by omega⟩
    obtain ⟨w, hsw, hent⟩ := read_object_loop_entry NE m f _ k v _ hr1b hk hok hrb
      (number_stop_object_rest 1 (by omega) es r)
      (by rw [hr1b]; simp at hlen ⊢; omega) (by rw [hr1b]; simp at hlen ⊢; omega)
    have hr3 : ((it.adv 1).adv (k.length + 4 + v.to_string.length)).rest =
        object_to_string 1 es ++ ' ' :: '}' :: r := by
      rw [rest_adv, hr1b]
      have : k.length + 4 + v.to_string.length =
          ('"' :: (k ++ '"' :: ':' :: ' ' :: v.to_string)).length := by simp +arith
      rw [this, ← List.drop_left ('"' :: (k ++ '"' :: ':' :: ' ' :: v.to_string))
        (object_to_string 1 es ++ ' ' :: '}' :: r)]
      simp
    obtain ⟨ws, hloop, hkeys, hmem⟩ := read_object_loop_rest NE m es 1
      (dict_assign [] k w) f _ r (by omega)
      (fun x hx => hes x (by simp [hx])) hr3 (by rw [hr3]; omega) (by rw [hr3]; omega)
    refine ⟨(k, w) :: ws, ?_, by simp [hkeys], ?_⟩
    · rw [read_object_loop_space NE _ (f + 2) [] [] it _ h, hent, hloop]
      simp +arith [adv_adv, adv_inj]
    · intro e he
      rcases List.mem_cons.mp he with rfl | he
      · exact ⟨w, by simp, hsw⟩
      · obtain ⟨w2, hw2, hs2⟩ := hmem e he
        exact ⟨w2, by simp [hw2], hs2⟩

theorem dict_assign_new (acc : List (List Char × value)) (k : List Char) (w : value)
    (h : k ∉ acc.map Prod.fst) : dict_assign acc k w = acc ++ [(k, w)] := by
  induction acc with
  | nil => rfl
  | cons e acc ih =>
    obtain ⟨k1, w1⟩ := e
    simp at h
    have hne : ¬ k1 = k := fun hk => h.1 hk.symm
    simp [dict_assign, hne, ih (by simpa using h.2)]

theorem foldl_dict_assign (ws : List (List Char × value)) :
    ∀ acc : List (List Char × value), ((acc ++ ws).map Prod.fst).Nodup →
      ws.foldl (fun acc e => dict_assign acc e.1 e.2) acc = acc ++ ws := by
  induction ws with
  | nil => intro acc _; simp
  | cons e ws ih =>
    intro acc h
    have hk : e.1 ∉ acc.map Prod.fst := by
      intro hmem
      simp only [List.map_append, List.map_cons] at h
      have := (List.nodup_append.mp h).2.2
      exact this hmem (by simp)
    simp only [List.foldl_cons]
    rw [dict_assign_new acc e.1 e.2 hk, ih (acc ++ [(e.1, e.2)]) (by simpa using h)]
    simp

theorem dict_find_of_mem (d : List (List Char × value)) (k : List Char) (w : value)
    (hnd : (d.map Prod.fst).Nodup) (h : (k, w) ∈ d) : dict_find d k = some w := by
  induction d with
  | nil => simp at h
  | cons e d ih =>
    obtain ⟨k1, w1⟩ := e
    simp only [List.map_cons, List.nodup_cons] at hnd
    rcases List.mem_cons.mp h with heq | hmem
    · injection heq with h1 h2
      subst h1 h2
      simp [dict_find]
    · have hne : ¬ k1 = k := by
        intro hk
        subst hk
        exact hnd.1 (List.mem_map.mpr ⟨(k1, w), hmem, rfl⟩)
      simp [dict_find, hne, ih hnd.2 hmem]

theorem dict_find_isSome_mem (d : List (List Char × value)) (k : List Char)
    (h : (dict_find d k).isSome = true) : k ∈ d.map Prod.fst := by
  induction d with
  | nil => simp [dict_find] at h
  | cons e d ih =>
    obtain ⟨k1, w1⟩ := e
    by_cases hk : k1 = k
    · simp [hk]
    · simp only [dict_find, hk, if_false] at h
      simp [ih h]

theorem object_eq_iff (es D : List (List Char × value)) :
    object_eq es D ↔ ∀ e ∈ es, ∃ w, dict_find D e.1 = some w ∧ struct_eq e.2 w := by
  induction es with
  | nil => simp [object_eq]
  | cons e es ih =>
    obtain ⟨k, v⟩ := e
    simp only [object_eq, ih, List.mem_cons, forall_eq_or_imp]

/-- An Array value whose elements are read back is read back. -/
theorem reads_back_array (text : List Char) (d : List (List Char × value)) (a : List value)
    (ha : ∀ v ∈ a, v.nested_ok = true ∧ reads_back v) :
    reads_back (value.mk value_type.array text d a) := by
  intro NE n it ws r h hws hr hn
  have hts : (value.mk value_type.array text d a).to_string =
      '[' :: (array_to_string 0 a ++ [']']) := by
    simp [value.to_string]
  rw [hts] at h ⊢
  have hlen : it.rest.length = ws.length + (array_to_string 0 a).length + 2 + r.length := by
    rw [h]; simp +arith
  have h1 := rest_adv_length h
  have h2 : (it.adv ws.length).rest = '[' :: (array_to_string 0 a ++ ']' :: r) := by
    rw [h1]; simp
  have h3 : ((it.adv ws.length).adv 1).rest = array_to_string 0 a ++ ']' :: r := by
    rw [rest_adv, h2]; rfl
  rw [hlen] at hn
  obtain ⟨xs, hloop, hxs⟩ := read_array_loop_all NE (n - 1) a (n - 1 - ws.length) _ r ha h3
    (by rw [h3]; simp; omega) (by rw [h3]; simp; omega)
  refine ⟨value.of_vector xs, ?_, ?_⟩
  · rw [read_value_skip NE n it ws _ h (spaces_is_space hws) (by omega),
      read_value_loop_array NE _ _ [] _ _ h2, read_array_open NE _ _ _ _ h2, hloop]
    simp +arith [adv_adv, adv_inj]
  · simp only [struct_eq]
    exact ⟨rfl, hxs⟩

/-- An Object value with distinct plain keys whose children are read back is read
back. -/
theorem reads_back_object (text : List Char) (d : List (List Char × value)) (a : List value)
    (hd : ∀ e ∈ d, plain_text e.1 = true ∧ e.2.nested_ok = true ∧ reads_back e.2)
    (hnd : (d.map Prod.fst).Nodup) :
    reads_back (value.mk value_type.object text d a) := by
  intro NE n it ws r h hws hr hn
  have hts : (value.mk value_type.object text d a).to_string =
      '{' :: ' ' :: (object_to_string 0 d ++ [' ', '}']) := by
    simp [value.to_string]
  rw [hts] at h ⊢
  have hlen : it.rest.length = ws.length + (object_to_string 0 d).length + 4 + r.length := by
    rw [h]; simp +arith
  have h1 := rest_adv_length h
  have h2 : (it.adv ws.length).rest =
      '{' :: ' ' :: (object_to_string 0 d ++ ' ' :: '}' :: r) := by
    rw [h1]; simp
  have h3 : ((it.adv ws.length).adv 1).rest =
      ' ' :: (object_to_string 0 d ++ ' ' :: '}' :: r) := by
    rw [rest_adv, h2]; rfl
  rw [hlen] at hn
  obtain ⟨xs, hloop, hkeys, hmem⟩ := read_object_loop_all NE (n - 1) d (n - 1 - ws.length) _ r
    hd h3 (by rw [h3]; simp; omega) (by rw [h3]; simp; omega)
  have hndx : (xs.map Prod.fst).Nodup := by rw [hkeys]; exact hnd
  rw [foldl_dict_assign xs [] (by simpa using hndx)] at hloop
  refine ⟨value.of_map xs, ?_, ?_⟩
  · rw [read_value_skip NE n it ws _ h (spaces_is_space hws) (by omega),
      read_value_loop_object NE _ _ [] _ _ h2, read_object_open NE _ _ _ _ _ h2, hloop]
    simp +arith [adv_adv, adv_inj]
  · simp only [struct_eq]
    refine ⟨rfl, ?_, ?_⟩
    · rw [object_eq_iff]
      intro e he
      obtain ⟨w, hw, hs⟩ := hmem e he
      exact ⟨w, dict_find_of_mem _ _ _ hndx hw, hs⟩
    · intro k hk
      rw [← hkeys]
      exact dict_find_isSome_mem _ _ hk

mutual
/-- Every `nested_ok` value is read back. -/
theorem reads_back_of_nested_ok : ∀ v : value, v.nested_ok = true → reads_back v
  | value.mk value_type.object text d a, h => by
    simp only [value.nested_ok, Bool.and_eq_true, decide_eq_true_eq] at h
    exact reads_back_object text d a (reads_back_members d h.1) h.2
  | value.mk value_type.array text d a, h => by
    simp only [value.nested_ok] at h
    exact reads_back_array text d a (reads_back_elements a h)
  | value.mk value_type.string text d a, h => by
    simp only [value.nested_ok] at h
    exact reads_back_string text d a h
  | value.mk value_type.integer text d a, h => by
    simp only [value.nested_ok] at h
    obtain ⟨sign, int, htext, hs, hi⟩ := integer_text_inv h
    exact reads_back_number _ text d a sign int [] (by simpa using htext) hs hi rfl rfl
  | value.mk value_type.floating text d a, h => by
    simp only [value.nested_ok] at h
    obtain ⟨sign, int, frac, htext, hs, hi, hf, hne⟩ := float_text_inv h
    exact reads_back_number _ text d a sign int frac htext hs hi hf (by simp [hne])
  | value.mk value_type.true_literal _ _ _, h => by simp [value.nested_ok] at h
  | value.mk value_type.false_literal _ _ _, h => by simp [value.nested_ok] at h
  | value.mk value_type.null_literal _ _ _, h => by simp [value.nested_ok] at h
  | value.mk value_type.undefined _ _ _, h => by simp [value.nested_ok] at h
/-- Every member of an `object_ok` list is read back. -/
theorem reads_back_members : ∀ d : List (List Char × value), object_ok d = true →
    ∀ e ∈ d, plain_text e.1 = true ∧ e.2.nested_ok = true ∧ reads_back e.2
  | [], _ => by simp
  | (k, v) :: rest, h => by
    simp only [object_ok, Bool.and_eq_true] at h
    intro e he
    rcases List.mem_cons.mp he with rfl | he
    · exact ⟨h.1.1, h.1.2, reads_back_of_nested_ok v h.1.2⟩
    · exact reads_back_members rest h.2 e he
/-- Every element of an `array_ok` list is read back. -/
theorem reads_back_elements : ∀ a : List value, array_ok a = true →
    ∀ v ∈ a, v.nested_ok = true ∧ reads_back v
  | [], _ => by simp
  | v :: rest, h => by
    simp only [array_ok, Bool.and_eq_true] at h
    intro x hx
    rcases List.mem_cons.mp hx with rfl | hx
    · exact ⟨h.1, reads_back_of_nested_ok _ h.1⟩
    · exact reads_back_elements rest h.2 x hx
end

/-! ## Commas of an array that no value follows -/

/-- After whitespace, on a closing bracket that ends the input, `read_value` fails:
the bracket is read as a literal. -/
theorem read_value_fails_close (NE : Bool) (m : Nat) (it : string_iterator) (ws : List Char)
    (h : it.rest = ws ++ [']']) (hws : ∀ c ∈ ws, is_space c = true) (hm : it.rest.length < m) :
    (read_value NE m it).failed NE = true := by
  have hlen : it.rest.length = ws.length + 1 := by rw [h]; simp
  have h1 := rest_adv_length h
  have h2 : ((it.adv ws.length).adv 1).rest = [] := by rw [rest_adv, h1]; rfl
  obtain ⟨f, hf⟩ : ∃ f, m - 1 - ws.length = f + 1 := ⟨m - 1 - ws.length - 1, by omega⟩
  have hav : ((it.adv ws.length).adv 1).available = false := by rw [available_eq, h2]; rfl
  rw [read_value_skip NE m it ws _ h hws (by omega), hf]
  have step : read_value_loop NE (read_value NE (m - 1)) (f + 1 + 1) [] (it.adv ws.length) =
      read_value_loop NE (read_value NE (m - 1)) (f + 1) [']'] ((it.adv ws.length).adv 1) := by
    simp [read_value_loop, available_eq, peek_eq_first, next_snd, h1, first_cons, is_digit]
  rw [step, read_value_loop, hav]
  simp only [Bool.false_eq_true, if_false]
  have hlit : read_value_literal NE [']'] ((it.adv ws.length).adv 1) =
      fail NE "parsing: unrecognized literal" ((it.adv ws.length).adv 1) := by
    cases NE <;> rfl
  rw [hlit]
  exact failed_fail _ _ _

/-- After whitespace, on a comma, `read_value` fails: the literal it has read is empty. -/
theorem read_value_fails_comma (NE : Bool) (m : Nat) (it : string_iterator)
    (ws t : List Char) (h : it.rest = ws ++ ',' :: t) (hws : ∀ c ∈ ws, is_space c = true)
    (hm : it.rest.length < m) :
    (read_value NE m it).failed NE = true := by
  have hlen : it.rest.length = ws.length + 1 + t.length := by rw [h]; simp +arith
  have h1 := rest_adv_length h
  rw [read_value_skip NE m it ws _ h hws (by omega)]
  have step : read_value_loop NE (read_value NE (m - 1)) (m - 1 - ws.length + 1) []
      (it.adv ws.length) =
      read_value_literal NE [] ((it.adv ws.length).adv 1) := by
    simp [read_value_loop, available_eq, peek_eq_first, next_snd, h1, first_cons, is_digit]
  have hlit : read_value_literal NE [] ((it.adv ws.length).adv 1) =
      fail NE "parsing: unrecognized literal" ((it.adv ws.length).adv 1) := by
    cases NE <;> rfl
  rw [step, hlit]
  exact failed_fail _ _ _

/-- The loop of `read_array` on a comma after which `read_value` fails: the failure
is that of the loop. -/
theorem read_array_loop_comma_fails (NE : Bool) (rv : string_iterator → outcome value)
    (fuel : Nat) (values : List value) (ready : Bool) (it : string_iterator) (r : List Char)
    (h : it.rest = ',' :: r) (hrv : (rv (it.adv 1)).failed NE = true) :
    (read_array_loop NE rv (fuel + 1) values ready it).failed NE = true := by
  have hstep : read_array_loop NE rv (fuel + 1) values ready it =
      (rv (it.adv 1)).bind fun back text1 =>
        if (NE && back.error) = true then outcome.ret back text1
        else read_array_loop NE rv fuel (values ++ [back]) false text1 := by
    simp [read_array_loop, read_array_tail, available_eq, peek_eq_first, next_snd, h,
      first_cons]
  rw [hstep]
  cases hout : rv (it.adv 1) with
  | ret back text1 =>
    rw [hout] at hrv
    simp only [outcome.failed, Bool.and_eq_true] at hrv
    simp [outcome.bind, hrv.1, hrv.2, outcome.failed]
  | raised msg =>
    rw [hout] at hrv
    simpa [outcome.bind, outcome.failed] using hrv
  | out_of_fuel =>
    rw [hout] at hrv
    simp [outcome.failed] at hrv

/-- The text of an array with at least one element, continued by a comma after which
`read_value` fails: `parse` fails. -/
theorem parse_array_comma_fails (NE : Bool) (v : value) (vs : List value) (t : List Char)
    (hok : array_ok (v :: vs) = true)
    (hrv : ∀ (m : Nat) (it : string_iterator), it.rest = t → it.rest.length < m →
      (read_value NE m it).failed NE = true) :
    (parse NE ('[' :: array_to_string 0 (v :: vs) ++ ',' :: t)).failed NE = true := by
  generalize htext : '[' :: array_to_string 0 (v :: vs) ++ ',' :: t = text
  have h0 : (string_iterator.init text).rest =
      [] ++ ('[' :: (array_to_string 0 (v :: vs) ++ ',' :: t)) := by
    rw [rest_init, ← htext]; simp
  have h0b : ((string_iterator.init text).adv ([] : List Char).length).rest =
      '[' :: (array_to_string 0 (v :: vs) ++ ',' :: t) := by
    show ((string_iterator.init text).adv 0).rest = _
    rw [adv_zero]; simpa using h0
  have h1 : (((string_iterator.init text).adv ([] : List Char).length).adv 1).rest =
      array_to_string 0 (v :: vs) ++ ',' :: t := by
    rw [rest_adv, h0b]; rfl
  have hlen : text.length = (array_to_string 0 (v :: vs) ++ ',' :: t).length + 1 := by
    rw [← htext]; simp
  obtain ⟨ws, fuel1, hfuel1, hloop, -⟩ := read_array_loop_elems NE (text.length + 1 - 1) v vs
    (text.length + 1 - 1 - ([] : List Char).length) _ (',' :: t)
    (reads_back_elements (v :: vs) hok) h1 (number_stop_cons ',' t (by simp))
    (by rw [h1]; simp at hlen ⊢; omega) (by rw [h1]; simp at hlen ⊢; omega)
  obtain ⟨f, rfl⟩ : ∃ f, fuel1 = f + 1 := ⟨fuel1 - 1, by omega⟩
  have h2 := rest_adv_length h1
  have h3 : (((((string_iterator.init text).adv ([] : List Char).length).adv 1).adv
      (array_to_string 0 (v :: vs)).length).adv 1).rest = t := by
    rw [rest_adv, h2]; rfl
  unfold parse
  rw [read_value_skip NE _ _ [] _ h0 (by simp) (by simp),
    read_value_loop_array NE _ _ [] _ _ h0b, read_array_open NE _ _ _ _ h0b, hloop]
  apply read_array_loop_comma_fails NE _ f ws false _ t h2
  apply hrv _ _ h3
  rw [h3]
  simp at hlen ⊢
  omega

/-! ## Decimal text of host integers: `std::to_string` and `std::stoi` -/

theorem digitChar_spec : ∀ k, k < 10 →
    is_digit (Nat.digitChar k) = true ∧ (Nat.digitChar k).toNat - ('0').toNat = k ∧
      (k ≠ 0 → Nat.digitChar k ≠ '0') := by
  decide

theorem toDigitsCore_append (fuel : Nat) : ∀ (n : Nat) (ds : List Char),
    Nat.toDigitsCore 10 fuel n ds = Nat.toDigitsCore 10 fuel n [] ++ ds := by
  induction fuel with
  | zero => intro n ds; simp [Nat.toDigitsCore]
  | succ f ih =>
    intro n ds
    simp only [Nat.toDigitsCore]
    by_cases h : n / 10 = 0
    · simp [h]
    · simp only [h, if_false]
      rw [ih (n / 10) (Nat.digitChar (n % 10) :: ds), ih (n / 10) [Nat.digitChar (n % 10)]]
      simp

theorem toDigitsCore_fuel (f1 : Nat) : ∀ (f2 n : Nat), n < f1 → n < f2 →
    Nat.toDigitsCore 10 f1 n [] = Nat.toDigitsCore 10 f2 n [] := by
  induction f1 with
  | zero => intro f2 n h1 _; omega
  | succ f1 ih =>
    intro f2 n h1 h2
    obtain ⟨g, rfl⟩ : ∃ g, f2 = g + 1 := ⟨f2 - 1, by omega⟩
    simp only [Nat.toDigitsCore]
    by_cases h : n / 10 = 0
    · simp [h]
    · simp only [h, if_false]
      rw [toDigitsCore_append f1, toDigitsCore_append g,
        ih g (n / 10) (by omega) (by omega)]

/-- The decimal digits of a number: those of its tenth, then its last digit. -/
theorem toDigits_step (n : Nat) (h : 10 ≤ n) :
    Nat.toDigits 10 n = Nat.toDigits 10 (n / 10) ++ [Nat.digitChar (n % 10)] := by
  have h0 : ¬ n / 10 = 0 := by omega
  unfold Nat.toDigits
  rw [Nat.toDigitsCore]
  simp only [h0, if_false]
  rw [toDigitsCore_append n, toDigitsCore_fuel n (n / 10 + 1) (n / 10) (by omega) (by omega)]

theorem toDigits_small (n : Nat) (h : n < 10) : Nat.toDigits 10 n = [Nat.digitChar n] := by
  have h0 : n / 10 = 0 := by omega
  have h1 : n % 10 = n := by omega
  unfold Nat.toDigits
  rw [Nat.toDigitsCore]
  simp [h0, h1]

/-- The decimal text of a natural number: a single `0`, or digits of which the first
is not `0`; and the number it writes. -/
theorem toDigits_spec (n : Nat) :
    (∀ c ∈ Nat.toDigits 10 n, is_digit c = true) ∧
      (∃ d ds, Nat.toDigits 10 n = d :: ds ∧ (n ≠ 0 → d ≠ '0')) ∧
      digits_value (Nat.toDigits 10 n) = n := by
  induction n using Nat.strong_induction_on with
  | _ n ih =>
    by_cases h : n < 10
    · obtain ⟨a, b, c⟩ := digitChar_spec n h
      rw [toDigits_small n h]
      refine ⟨by simpa using a, ⟨_, [], rfl, c⟩, ?_⟩
      simpa [digits_value] using b
    · obtain ⟨a, b, -⟩ := digitChar_spec (n % 10) (Nat.mod_lt _ (by decide))
      obtain ⟨i1, ⟨d, ds, i2, i3⟩, i4⟩ := ih (n / 10) (by omega)
      rw [toDigits_step n (by omega)]
      refine ⟨?_, ⟨d, ds ++ [Nat.digitChar (n % 10)], by rw [i2]; rfl,
        fun _ => i3 (by omega)⟩, ?_⟩
      · intro c hc
        rcases List.mem_append.mp hc with hc | hc
        · exact i1 c hc
        · simp at hc; rw [hc]; exact a
      · unfold digits_value at i4 ⊢
        rw [List.foldl_append, i4]
        simp only [List.foldl_cons, List.foldl_nil, b]
        omega

theorem grammar_int_toDigits (n : Nat) : grammar_int (Nat.toDigits 10 n) = true := by
  obtain ⟨h1, ⟨d, ds, h2, h3⟩, -⟩ := toDigits_spec n
  by_cases hn : n = 0
  · subst hn; rfl
  · have hd := h3 hn
    simp only [grammar_int, grammar_digits, Bool.or_eq_true, Bool.and_eq_true]
    right
    rw [h2] at h1 ⊢
    refine ⟨⟨by simp, by simpa using h1⟩, by simpa using hd⟩

theorem integer_text_to_string_int (n : Int) : integer_text (to_string_int n) = true := by
  unfold to_string_int integer_text
  by_cases h : n < 0
  · simp [h, grammar_int_toDigits]
  · simp [h, grammar_int_toDigits]

theorem nested_ok_of_int (n : Int) : (value.of_int n).nested_ok = true := by
  simp [value.of_int, value.nested_ok, integer_text_to_string_int]

/-- Function `std::stoi` reads back what `std::to_string` writes for an `int`. -/
theorem stoi_to_string_int (n : Int) (h : int_range n) : stoi (to_string_int n) = some n := by
  obtain ⟨h1, ⟨d, ds, h2, -⟩, h4⟩ := toDigits_spec n.natAbs
  have htw : (Nat.toDigits 10 n.natAbs).takeWhile is_digit = Nat.toDigits 10 n.natAbs := by
    rw [List.takeWhile_eq_self_iff]; exact h1
  have hne : (Nat.toDigits 10 n.natAbs).isEmpty = false := by rw [h2]; rfl
  unfold to_string_int
  by_cases hn : n < 0
  · have hval : -((n.natAbs : Nat) : Int) = n := by omega
    simp only [hn, if_true]
    have hs : stoi ('-' :: Nat.toDigits 10 n.natAbs) =
        stoi_signed true (Nat.toDigits 10 n.natAbs) := by
      simp [stoi, List.dropWhile, is_c_space]
    rw [hs]
    unfold stoi_signed
    rw [htw, hne, h4]
    simp only [Bool.false_eq_true, if_false, if_true, hval]
    rw [if_pos h]
  · have hval : ((n.natAbs : Nat) : Int) = n := by omega
    have hd : is_digit d = true := h1 d (by rw [h2]; simp)
    have hdn := is_digit_not_special hd
    have hsp : is_c_space d = false := by
      rw [is_digit_iff] at hd
      rcases hd with h | h | h | h | h | h | h | h | h | h <;> subst h <;> decide
    simp only [hn, if_false]
    have hs : stoi (Nat.toDigits 10 n.natAbs) =
        stoi_signed false (Nat.toDigits 10 n.natAbs) := by
      rw [h2]
      simp [stoi, List.dropWhile, hsp, hdn]
    rw [hs]
    unfold stoi_signed
    rw [htw, hne, h4]
    simp only [Bool.false_eq_true, if_false, if_true, hval]
    rw [if_pos h]

theorem to_int_of_int (n : Int) (h : int_range n) : (value.of_int n).to_int = some n := by
  simp [value.to_int, value.of_int, value.type, value.to_string, stoi_to_string_int n h]

/-- What `read_value` returns on the text of an Integer, after whitespace and
before a text at which a number stops. -/
theorem read_value_integer_text (NE : Bool) (n : Nat) (it : string_iterator)
    (ws text r : List Char) (htext : integer_text text = true)
    (h : it.rest = ws ++ (text ++ r)) (hws : ∀ c ∈ ws, is_space c = true)
    (hr : number_stop r) (hn : it.rest.length < n) :
    read_value NE n it =
      outcome.ret (value.of_type_text value_type.integer text)
        (it.adv (ws.length + text.length)) := by
  obtain ⟨sign, int, rfl, hsign, hint⟩ := integer_text_inv htext
  have hlen : it.rest.length = ws.length + (sign ++ int).length + r.length := by
    rw [h]; simp +arith
  have h1 := rest_adv_length h
  have h2 : (it.adv ws.length).rest = sign ++ int ++ [] ++ [] ++ r := by
    rw [h1]; simp
  have hfst : first (it.adv ws.length).rest = '-' ∨
      is_digit (first (it.adv ws.length).rest) = true := by
    rw [h1]
    simpa using first_number (t := r) hsign hint
  rw [hlen] at hn
  rw [read_value_skip NE n it ws _ h hws (by omega),
    read_value_loop_number NE _ _ [] _ hfst,
    read_number_eq NE _ _ sign int [] [] r hsign hint rfl rfl h2 hr
      (by simp at hn ⊢; omega)]
  simp +arith [adv_adv, adv_inj]

/-- What `parse` returns on the decimal text of a host integer. -/
theorem parse_to_string_int (NE : Bool) (n : Int) :
    parse NE (to_string_int n) =
      outcome.ret (value.of_int n) ⟨to_string_int n, (to_string_int n).length⟩ := by
  unfold parse
  rw [read_value_integer_text NE _ (string_iterator.init (to_string_int n)) [] (to_string_int n)
    [] (integer_text_to_string_int n) (by simp [rest_init]) (by simp) number_stop_nil
    (by simp [rest_init])]
  simp [value.of_int, value.of_type_text, adv, string_iterator.init]

theorem to_string_of_integer {w : value} (h : w.type = value_type.integer) :
    w.to_string = w.text := by
  cases w with
  | mk ty text d a =>
    simp only [value.type] at h
    subst h
    simp [value.to_string, value.text]

/-- The loop of `to_vector<int>` over elements structurally equal to host integers. -/
theorem to_vector_loop_of_int (xs : List Int) : ∀ (ws pre : List value),
    (∀ x ∈ xs, int_range x) → array_eq (xs.map value.of_int) ws →
    value.to_vector_loop value.to_int (pre ++ ws) ws.length pre.length = some xs := by
  induction xs with
  | nil =>
    intro ws pre _ h
    simp only [List.map_nil, array_eq] at h
    subst h
    rfl
  | cons x xs ih =>
    intro ws pre hr h
    simp only [List.map_cons, array_eq] at h
    obtain ⟨w, ws1, rfl, hsw, hrest⟩ := h
    have hty : w.type = value_type.integer ∧ w.text = to_string_int x := by
      simpa [value.of_int, struct_eq] using hsw
    have hw : w.to_int = some x := by
      simp only [value.to_int, hty.1]
      rw [to_string_of_integer hty.1, hty.2]
      exact stoi_to_string_int x (hr x (by simp))
    have hget : (pre ++ w :: ws1).getD pre.length value.default = w := by
      rw [List.getD_eq_getElem?_getD, List.getElem?_append_right (Nat.le_refl _)]
      simp
    have ih2 := ih ws1 (pre ++ [w]) (fun y hy => hr y (by simp [hy])) hrest
    simp only [List.append_assoc, List.singleton_append, List.length_append,
      List.length_singleton] at ih2
    simp only [List.length_cons, value.to_vector_loop, hget, hw, ih2]

theorem array_ok_of_int (xs : List Int) : array_ok (xs.map value.of_int) = true := by
  induction xs with
  | nil => rfl
  | cons x xs ih => simp [array_ok, nested_ok_of_int, ih]

theorem array_to_string_of_int (xs : List Int) : ∀ i, i ≠ 0 →
    array_to_string i (xs.map value.of_int) =
      (xs.map fun x => [',', ' '] ++ to_string_int x).flatten := by
  induction xs with
  | nil => intro i _; rfl
  | cons x xs ih =>
    intro i hi
    simp [array_to_string, hi, ih (i + 1) (by omega), value.of_int, value.to_string]

theorem intercalate_cons (sep a : List Char) (rest : List (List Char)) :
    sep.intercalate (a :: rest) = a ++ (rest.map fun x => sep ++ x).flatten := by
  induction rest generalizing a with
  | nil => simp [List.intercalate, List.intersperse]
  | cons b rest ih =>
    have := ih b
    simp only [List.intercalate] at this ⊢
    simp [List.intersperse, this]

/-! ## Access -/

theorem dict_find_none (d : List (List Char × value)) (k : List Char)
    (h : k ∉ d.map Prod.fst) : dict_find d k = none := by
  cases hf : dict_find d k with
  | none => rfl
  | some x => exact absurd (dict_find_isSome_mem d k (by rw [hf]; rfl)) h

/-! ## Words: the literal branch of `read_value` -/

theorem is_literal_char_not_space {c : Char} (h : is_literal_char c = true) :
    is_space c = false := by
  simp only [is_literal_char, Bool.not_eq_true', Bool.or_eq_false_iff] at h
  exact h.1.2

theorem not_literal_char_mem {c : Char} (h : is_literal_char c = false) :
    c ∈ ['{', '[', '"', '-', '0', '1', '2', '3', '4', '5', '6', '7', '8', '9', ' ', '\r',
      '\n', '\t', ','] := by
  simp only [is_literal_char, is_digit, is_space, Bool.not_eq_false', Bool.or_eq_true,
    beq_iff_eq] at h
  simp only [List.mem_cons, List.mem_singleton]
  tauto

theorem is_literal_char_of_isAlpha {c : Char} (h : c.isAlpha = true) :
    is_literal_char c = true := by
  have hall : ∀ x ∈ ['{', '[', '"', '-', '0', '1', '2', '3', '4', '5', '6', '7', '8', '9', ' ',
      '\r', '\n', '\t', ','], Char.isAlpha x = false := by decide
  cases hc : is_literal_char c with
  | true => rfl
  | false =>
    have := hall c (not_literal_char_mem hc)
    rw [h] at this
    exact absurd this (by decide)

/-- One iteration of the loop of `read_value` on a character its `switch` does not
name: the character is appended to the buffer. -/
theorem read_value_loop_char (NE : Bool) (rv : string_iterator → outcome value) (fuel : Nat)
    (buffer : List Char) (it : string_iterator) (c : Char) (r : List Char)
    (h : it.rest = c :: r) (hc : is_literal_char c = true) :
    read_value_loop NE rv (fuel + 1) buffer it =
      read_value_loop NE rv fuel (buffer ++ [c]) (it.adv 1) := by
  simp only [is_literal_char, is_space, Bool.not_eq_true', Bool.or_eq_false_iff,
    beq_eq_false_iff_ne, ne_eq] at hc
  obtain ⟨⟨⟨⟨⟨⟨h1, h2⟩, h3⟩, h4⟩, h5⟩, ⟨⟨⟨h6, h7⟩, h8⟩, h9⟩⟩, h10⟩ := hc
  simp [read_value_loop, available_eq, peek_eq_first, next_snd, h, first_cons, h1, h2, h3, h4,
    h5, h6, h7, h8, h9, h10]

/-- The loop of `read_value` appends a run of such characters. -/
theorem read_value_loop_word (NE : Bool) (rv : string_iterator → outcome value)
    (w : List Char) : ∀ (fuel : Nat) (buffer : List Char) (it : string_iterator)
    (r : List Char), it.rest = w ++ r → (∀ c ∈ w, is_literal_char c = true) →
    w.length ≤ fuel →
    read_value_loop NE rv fuel buffer it =
      read_value_loop NE rv (fuel - w.length) (buffer ++ w) (it.adv w.length) := by
  induction w with
  | nil => intro fuel buffer it r _ _ _; simp [adv_zero]
  | cons c w ih =>
    intro fuel buffer it r h hw hf
    obtain ⟨f, rfl⟩ : ∃ f, fuel = f + 1 := ⟨fuel - 1, by simp at hf; omega⟩
    have h0 : it.rest = c :: (w ++ r) := by simpa using h
    have hr1 : (it.adv 1).rest = w ++ r := by simp [rest_adv, h0]
    rw [read_value_loop_char NE rv f buffer it c _ h0 (hw c (by simp)),
      ih f (buffer ++ [c]) (it.adv 1) r hr1 (fun c hc => hw c (by simp [hc]))
        (by simp at hf; omega)]
    simp +arith [adv_adv, adv_inj]
    rw [Nat.add_comm]

/-- At the end of the input the loop of `read_value` ends and the buffer is matched
against the literals. -/
theorem read_value_loop_end (NE : Bool) (rv : string_iterator → outcome value) (fuel : Nat)
    (buffer : List Char) (it : string_iterator) (h : it.rest = []) :
    read_value_loop NE rv (fuel + 1) buffer it = read_value_literal NE buffer it := by
  simp [read_value_loop, available_eq, h]

/-- Trimming leaves a buffer without whitespace as it is. -/
theorem trim_view_eq (buffer : List Char) (h : ∀ c ∈ buffer, is_space c = false) :
    trim_view buffer = buffer := by
  cases buffer with
  | nil => rfl
  | cons c t =>
    have hc : is_space c = false := h c (by simp)
    have hall : (c :: t).all is_space = false := by simp [hc]
    obtain ⟨d, u, hrev⟩ : ∃ d u, (c :: t).reverse = d :: u := by
      cases hr : (c :: t).reverse with
      | nil => simp at hr
      | cons d u => exact ⟨d, u, rfl⟩
    have hd : is_space d = false := h d (by
      have : d ∈ (c :: t).reverse := by rw [hrev]; simp
      exact List.mem_reverse.mp this)
    have h1 : find_first_not_of (c :: t) = 0 := by
      simp [find_first_not_of, hall, List.findIdx_cons, hc]
    have h2 : find_last_not_of (c :: t) = (c :: t).length - 1 := by
      simp only [find_last_not_of, hall, hrev]
      simp [List.findIdx_cons, hd]
    unfold trim_view
    rw [h1, h2]
    have h3 : ((c :: t).length + 2 ^ 64 - ((c :: t).length - 1) + 2 ^ 64 - 1) % 2 ^ 64 = 0 := by
      simp only [List.length_cons]
      omega
    rw [h3]
    simp

/-- A buffer without whitespace that is none of the three literals: `read_value`
fails. -/
theorem read_value_literal_fails (NE : Bool) (buffer : List Char) (it : string_iterator)
    (h : ∀ c ∈ buffer, is_space c = false) (h1 : buffer ≠ ['t', 'r', 'u', 'e'])
    (h2 : buffer ≠ ['f', 'a', 'l', 's', 'e']) (h3 : buffer ≠ ['n', 'u', 'l', 'l']) :
    read_value_literal NE buffer it = fail NE "parsing: unrecognized literal" it := by
  simp [read_value_literal, trim_view_eq buffer h, h1, h2, h3]

/-- On a word that runs to the end of the input and is none of the three
literals, `read_value` fails. -/
theorem read_value_word_fails (NE : Bool) (m : Nat) (it : string_iterator) (w : List Char)
    (h : it.rest = w) (hw : ∀ c ∈ w, is_literal_char c = true)
    (h1 : w ≠ ['t', 'r', 'u', 'e']) (h2 : w ≠ ['f', 'a', 'l', 's', 'e'])
    (h3 : w ≠ ['n', 'u', 'l', 'l']) (hm : it.rest.length < m) :
    (read_value NE m it).failed NE = true := by
  obtain ⟨f, rfl⟩ : ∃ f, m = f + 1 := ⟨m - 1, by omega⟩
  have h0 : it.rest = w ++ [] := by simpa using h
  have hend : (it.adv w.length).rest = [] := rest_adv_length h0
  obtain ⟨g, hg⟩ : ∃ g, f + 1 - w.length = g + 1 := ⟨f - w.length, by rw [h] at hm; omega⟩
  rw [read_value, read_value_loop_word NE _ w (f + 1) [] it [] h0 hw (by rw [h] at hm; omega),
    hg, read_value_loop_end NE _ g _ _ hend,
    read_value_literal_fails NE _ _ (by simpa using fun c hc => is_literal_char_not_space (hw c hc))
      (by simpa using h1) (by simpa using h2) (by simpa using h3)]
  exact failed_fail _ _ _

/-- The loop of `read_array` when a value is expected, the next character is neither
a comma nor the closing bracket and `read_value` fails: the loop fails. -/
theorem read_array_loop_value_fails (NE : Bool) (rv : string_iterator → outcome value)
    (fuel : Nat) (values : List value) (it : string_iterator) (c : Char) (r : List Char)
    (h : it.rest = c :: r) (hc1 : c ≠ ',') (hc2 : c ≠ ']')
    (hrv : (rv it).failed NE = true) :
    (read_array_loop NE rv (fuel + 1) values true it).failed NE = true := by
  have hstep : read_array_loop NE rv (fuel + 1) values true it =
      (rv it).bind fun back text1 =>
        if (NE && back.error) = true then outcome.ret back text1
        else read_array_loop NE rv fuel (values ++ [back]) false text1 := by
    simp [read_array_loop, read_array_tail, available_eq, peek_eq_first, h, first_cons, hc1,
      hc2]
  rw [hstep]
  cases hout : rv it with
  | ret back text1 =>
    rw [hout] at hrv
    simp only [outcome.failed, Bool.and_eq_true] at hrv
    simp [outcome.bind, hrv.1, hrv.2, outcome.failed]
  | raised msg =>
    rw [hout] at hrv
    simpa [outcome.bind, outcome.failed] using hrv
  | out_of_fuel =>
    rw [hout] at hrv
    simp [outcome.failed] at hrv

/-! ## Array texts with any run of spaces after the commas -/

theorem array_text_cons (ws : List Char) (i : Nat) (hi : i ≠ 0) (v : value) (vs : List value) :
    array_text ws i (v :: vs) = ',' :: (ws ++ (v.to_string ++ array_text ws (i + 1) vs)) := by
  simp [array_text, hi]

theorem array_text_zero (ws : List Char) (v : value) (vs : List value) :
    array_text ws 0 (v :: vs) = v.to_string ++ array_text ws 1 vs := by
  simp [array_text]

theorem array_text_one_space (vs : List value) : ∀ i,
    array_text [' '] i vs = array_to_string i vs := by
  induction vs with
  | nil => intro i; rfl
  | cons v vs ih => intro i; simp [array_text, array_to_string, ih]

theorem number_stop_array_text (ws : List Char) (i : Nat) (hi : i ≠ 0) (vs : List value)
    (t : List Char) (ht : number_stop t) : number_stop (array_text ws i vs ++ t) := by
  cases vs with
  | nil => simpa [array_text] using ht
  | cons v vs =>
    rw [array_text_cons ws i hi]
    exact number_stop_cons ',' _ (by simp)

/-- The loop of `read_array` after the first element of an array text: the
remaining elements are read, and the loop goes on at the text `t` that follows. -/
theorem read_array_text_rest (NE : Bool) (m : Nat) (ws : List Char)
    (hws : ∀ c ∈ ws, c = ' ') (vs : List value) :
    ∀ (i : Nat) (values : List value) (fuel : Nat) (it : string_iterator) (t : List Char),
    i ≠ 0 → (∀ v ∈ vs, v.nested_ok = true ∧ reads_back v) →
    it.rest = array_text ws i vs ++ t → number_stop t → it.rest.length < fuel →
    it.rest.length ≤ m →
    ∃ xs fuel1, t.length < fuel1 ∧
      read_array_loop NE (read_value NE m) fuel values false it =
        read_array_loop NE (read_value NE m) fuel1 (values ++ xs) false
          (it.adv (array_text ws i vs).length) ∧
      array_eq vs xs := by
  induction vs with
  | nil =>
    intro i values fuel it t _ _ h _ hf _
    have h0 : it.rest = t := by simpa [array_text] using h
    exact ⟨[], fuel, by rw [← h0]; exact hf, by simp [array_text, adv_zero],
      by simp [array_eq]⟩
  | cons v vs ih =>
    intro i values fuel it t hi hvs h ht hf hm
    obtain ⟨f, rfl⟩ : ∃ f, fuel = f + 1 := ⟨fuel - 1, by omega⟩
    obtain ⟨hok, hrb⟩ := hvs v (by simp)
    rw [array_text_cons ws i hi] at h ⊢
    have h0 : it.rest = ',' :: (ws ++ (v.to_string ++ (array_text ws (i + 1) vs ++ t))) := by
      simpa using h
    have hlen : it.rest.length =
        1 + ws.length + v.to_string.length + (array_text ws (i + 1) vs ++ t).length := by
      rw [h0]; simp +arith
    have hr1 : (it.adv 1).rest =
        ws ++ (v.to_string ++ (array_text ws (i + 1) vs ++ t)) := by
      simp [rest_adv, h0]
    obtain ⟨w, hrv, hsw⟩ := hrb NE m (it.adv 1) ws _ hr1 hws
      (number_stop_array_text ws (i + 1) (by omega) vs t ht)
      (by rw [hr1]; simp at hlen ⊢; omega)
    have hr2 : ((it.adv 1).adv (ws.length + v.to_string.length)).rest =
        array_text ws (i + 1) vs ++ t := by
      rw [rest_adv, hr1]
      have : ws.length + v.to_string.length = (ws ++ v.to_string).length := by simp
      rw [this, ← List.append_assoc, List.drop_left]
    obtain ⟨xs, fuel1, hfuel1, hloop, hxs⟩ := ih (i + 1) (values ++ [w]) f _ t (by omega)
      (fun x hx => hvs x (by simp [hx])) hr2 ht (by rw [hr2]; omega) (by rw [hr2]; omega)
    refine ⟨w :: xs, fuel1, hfuel1, ?_, ?_⟩
    · rw [read_array_loop_comma NE _ f values false it _ _ w h0 hrv
        (struct_eq_not_error hsw hok), hloop]
      have e : ((it.adv 1).adv (ws.length + v.to_string.length)).adv
          (array_text ws (i + 1) vs).length =
          it.adv (',' :: (ws ++ (v.to_string ++ array_text ws (i + 1) vs))).length := by
        simp +arith [adv_adv, adv_inj]
      rw [e]
      simp
    · simp only [array_eq]
      exact ⟨w, xs, rfl, hsw, hxs⟩

/-- The loop of `read_array` from the opening bracket on: all elements of an array
text are read, and the loop goes on at the text `t` that follows them, with more
fuel than `t` has characters. -/
theorem read_array_text_elems (NE : Bool) (m : Nat) (ws : List Char)
    (hws : ∀ c ∈ ws, c = ' ') (vs : List value) (fuel : Nat)
    (it : string_iterator) (t : List Char)
    (hvs : ∀ x ∈ vs, x.nested_ok = true ∧ reads_back x)
    (h : it.rest = array_text ws 0 vs ++ t) (ht : number_stop t)
    (hf : it.rest.length < fuel) (hm : it.rest.length < m) :
    ∃ xs fuel1, t.length < fuel1 ∧
      read_array_loop NE (read_value NE m) fuel [] true it =
        read_array_loop NE (read_value NE m) fuel1 xs vs.isEmpty
          (it.adv (array_text ws 0 vs).length) ∧
      array_eq vs xs := by
  cases vs with
  | nil =>
    have h0 : it.rest = t := by simpa [array_text] using h
    exact ⟨[], fuel, by rw [← h0]; exact hf, by simp [array_text, adv_zero],
      by simp [array_eq]⟩
  | cons v vs =>
    obtain ⟨f, rfl⟩ : ∃ f, fuel = f + 1 := ⟨fuel - 1, by omega⟩
    obtain ⟨hok, hrb⟩ := hvs v (by simp)
    rw [array_text_zero] at h ⊢
    have h0 : it.rest = [] ++ (v.to_string ++ (array_text ws 1 vs ++ t)) := by
      simpa using h
    have hlen : it.rest.length = v.to_string.length + (array_text ws 1 vs ++ t).length := by
      rw [h0]; simp +arith
    obtain ⟨c, u, hct, hc1, hc2⟩ := to_string_first hok
    have hvl : 1 ≤ v.to_string.length := by rw [hct]; simp
    obtain ⟨w, hrv, hsw⟩ := hrb NE m it [] _ h0 (by simp)
      (number_stop_array_text ws 1 (by omega) vs t ht) hm
    have hr2 : (it.adv (([] : List Char).length + v.to_string.length)).rest =
        array_text ws 1 vs ++ t := by
      rw [rest_adv, h0]
      simp
    obtain ⟨xs, fuel1, hfuel1, hloop, hxs⟩ := read_array_text_rest NE m ws hws vs 1 ([] ++ [w])
      f _ t (by omega) (fun x hx => hvs x (by simp [hx])) hr2 ht (by rw [hr2]; omega)
      (by rw [hr2]; omega)
    refine ⟨w :: xs, fuel1, hfuel1, ?_, ?_⟩
    · rw [read_array_loop_value NE _ f [] it _ c (u ++ (array_text ws 1 vs ++ t)) w
        (by rw [h0, hct]; simp) hc1 hc2 hrv (struct_eq_not_error hsw hok), hloop]
      have e : (it.adv (([] : List Char).length + v.to_string.length)).adv
          (array_text ws 1 vs).length =
          it.adv (v.to_string ++ array_text ws 1 vs).length := by
        simp +arith [adv_adv, adv_inj]
      rw [e]
      simp [List.isEmpty]
    · simp only [array_eq]
      exact ⟨w, xs, rfl, hsw, hxs⟩

/-- At the end of the input the loop of `read_array` ends and the elements read so
far are returned. -/
theorem read_array_loop_end (NE : Bool) (rv : string_iterator → outcome value) (fuel : Nat)
    (values : List value) (ready : Bool) (it : string_iterator) (h : it.rest = []) :
    read_array_loop NE rv (fuel + 1) values ready it =
      outcome.ret (value.of_vector values) it := by
  simp [read_array_loop, available_eq, h]

/-- What `parse` returns on an array text, with its closing bracket (`close` true)
or without it. -/
theorem parse_array_text (NE : Bool) (ws : List Char) (hws : ∀ c ∈ ws, c = ' ')
    (vs : List value) (hok : array_ok vs = true) (close : Bool) :
    ∃ w it, parse NE ('[' :: (array_text ws 0 vs ++ if close then [']'] else [])) =
        outcome.ret w it ∧ struct_eq (value.of_vector vs) w := by
  generalize htext : '[' :: (array_text ws 0 vs ++ if close then [']'] else []) = text
  have h0 : (string_iterator.init text).rest =
      [] ++ ('[' :: (array_text ws 0 vs ++ if close then [']'] else [])) := by
    rw [rest_init, ← htext]; simp
  have h0b : ((string_iterator.init text).adv ([] : List Char).length).rest =
      '[' :: (array_text ws 0 vs ++ if close then [']'] else []) := by
    show ((string_iterator.init text).adv 0).rest = _
    rw [adv_zero]; simpa using h0
  have h1 : (((string_iterator.init text).adv ([] : List Char).length).adv 1).rest =
      array_text ws 0 vs ++ if close then [']'] else [] := by
    rw [rest_adv, h0b]; rfl
  have hlen : text.length = (array_text ws 0 vs ++ if close then [']'] else []).length + 1 := by
    rw [← htext]; simp
  have hstop : number_stop (if close then [']'] else []) := by
    cases close
    · exact number_stop_nil
    · exact number_stop_cons ']' [] (by simp)
  obtain ⟨xs, fuel1, hfuel1, hloop, hxs⟩ := read_array_text_elems NE (text.length + 1 - 1) ws hws
    vs (text.length + 1 - 1 - ([] : List Char).length) _ (if close then [']'] else [])
    (reads_back_elements vs hok) h1 hstop
    (by rw [h1]; simp at hlen ⊢; omega) (by rw [h1]; simp at hlen ⊢; omega)
  obtain ⟨f, rfl⟩ : ∃ f, fuel1 = f + 1 := ⟨fuel1 - 1, by omega⟩
  have h2 := rest_adv_length h1
  refine ⟨value.of_vector xs, ?_, ?_, ⟨rfl, hxs⟩⟩
  · exact if close then
      (((string_iterator.init text).adv ([] : List Char).length).adv 1).adv
        ((array_text ws 0 vs).length + 1)
    else
      (((string_iterator.init text).adv ([] : List Char).length).adv 1).adv
        (array_text ws 0 vs).length
  · unfold parse
    rw [read_value_skip NE _ _ [] _ h0 (by simp) (by simp),
      read_value_loop_array NE _ _ [] _ _ h0b, read_array_open NE _ _ _ _ h0b, hloop]
    cases close
    · rw [read_array_loop_end NE _ f xs _ _ (by simpa using h2)]
      simp
    · rw [read_array_loop_close NE _ f xs _ _ [] (by simpa using h2)]
      simp +arith [adv_adv, adv_inj]

theorem array_eq_length : ∀ {vs ws : List value}, array_eq vs ws → vs.length = ws.length
  | [], ws, h => by
    have : ws = [] := by simpa [array_eq] using h
    simp [this]
  | v :: vs, ws, h => by
    simp only [array_eq] at h
    obtain ⟨w, ws2, rfl, _, h2⟩ := h
    simp [array_eq_length h2]

/-- A word of literal characters between square brackets makes `parse` fail. -/
theorem parse_bracketed_word_fails (NE : Bool) (c : Char) (u : List Char)
    (hw : ∀ x ∈ c :: u, is_literal_char x = true) (hc2 : c ≠ ']') :
    (parse NE ('[' :: (c :: u ++ [']']))).failed NE = true := by
  generalize htext : '[' :: (c :: u ++ [']']) = text
  have hlen : text.length = u.length + 3 := by rw [← htext]; simp
  have h0 : (string_iterator.init text).rest = [] ++ ('[' :: (c :: u ++ [']'])) := by
    rw [rest_init, ← htext]; simp
  have h0b : ((string_iterator.init text).adv ([] : List Char).length).rest =
      '[' :: (c :: u ++ [']']) := by
    show ((string_iterator.init text).adv 0).rest = _
    rw [adv_zero]; simpa using h0
  have h1 : (((string_iterator.init text).adv ([] : List Char).length).adv 1).rest =
      c :: (u ++ [']']) := by
    rw [rest_adv, h0b]; rfl
  have hc : is_literal_char c = true := hw c (by simp)
  have hlast : ∀ lit : List Char, ']' ∉ lit → c :: (u ++ [']']) ≠ lit := by
    intro lit hlit heq
    apply hlit
    rw [← heq]
    simp
  have hfail := read_value_word_fails NE (text.length + 1 - 1) _ (c :: (u ++ [']'])) h1
    (by
      intro x hx
      rcases List.mem_cons.mp hx with hx | hx
      · rw [hx]; exact hc
      · rcases List.mem_append.mp hx with hx | hx
        · exact hw x (by simp [hx])
        · rw [List.mem_singleton.mp hx]; rfl)
    (hlast _ (by decide)) (hlast _ (by decide)) (hlast _ (by decide))
    (by rw [h1]; simp; omega)
  obtain ⟨f, hf⟩ : ∃ f, text.length + 1 - 1 - ([] : List Char).length = f + 1 :=
    ⟨text.length - 1, by simp; omega⟩
  unfold parse
  rw [read_value_skip NE _ _ [] _ h0 (by simp) (by simp),
    read_value_loop_array NE _ _ [] _ _ h0b, read_array_open NE _ _ _ _ h0b, hf]
  exact read_array_loop_value_fails NE _ f [] _ c _ h1
    (fun h => by rw [h] at hc; exact absurd hc (by decide)) hc2 hfail

/-! ## Objects of integers, written without spaces -/

theorem members_text_cons (i : Nat) (hi : i ≠ 0) (k : List Char) (n : Int)
    (ps : List (List Char × Int)) :
    members_text i ((k, n) :: ps) =
      ',' :: '"' :: (k ++ '"' :: ':' :: (to_string_int n ++ members_text (i + 1) ps)) := by
  simp [members_text, hi]

theorem members_text_zero (k : List Char) (n : Int) (ps : List (List Char × Int)) :
    members_text 0 ((k, n) :: ps) =
      '"' :: (k ++ '"' :: ':' :: (to_string_int n ++ members_text 1 ps)) := by
  simp [members_text]

theorem number_stop_members_text (i : Nat) (hi : i ≠ 0) (ps : List (List Char × Int))
    (t : List Char) (ht : number_stop t) : number_stop (members_text i ps ++ t) := by
  cases ps with
  | nil => simpa [members_text] using ht
  | cons p ps =>
    obtain ⟨k, n⟩ := p
    rw [members_text_cons i hi]
    exact number_stop_cons ',' _ (by simp)

/-- The loop of `read_object` on a member `"k":n`: two iterations, the key and the
colon with the integer. -/
theorem read_object_loop_int_entry (NE : Bool) (m f : Nat) (it : string_iterator)
    (k : List Char) (n : Int) (r : List Char)
    (h : it.rest = '"' :: (k ++ '"' :: ':' :: (to_string_int n ++ r)))
    (hk : plain_text k = true) (hr : number_stop r) (hf : it.rest.length < f + 2)
    (hm : it.rest.length ≤ m) (values : List (List Char × value)) (key : List Char) :
    read_object_loop NE (read_value NE m) (f + 2) values key it =
      read_object_loop NE (read_value NE m) f (dict_assign values k (value.of_int n)) []
        (it.adv (k.length + 3 + (to_string_int n).length)) := by
  have hlen : it.rest.length = k.length + 3 + (to_string_int n).length + r.length := by
    rw [h]; simp +arith
  have h0 : it.rest = '"' :: k ++ '"' :: (':' :: (to_string_int n ++ r)) := by
    simpa using h
  have hr1 : (it.adv (k.length + 2)).rest = ':' :: (to_string_int n ++ r) := by
    rw [rest_adv, h0]
    have : k.length + 2 = ('"' :: k ++ ['"']).length := by simp
    have e : '"' :: k ++ '"' :: (':' :: (to_string_int n ++ r)) =
        ('"' :: k ++ ['"']) ++ (':' :: (to_string_int n ++ r)) := by simp
    rw [this, e, List.drop_left]
  have hr2 : ((it.adv (k.length + 2)).adv 1).rest = [] ++ (to_string_int n ++ r) := by
    rw [rest_adv, hr1]; rfl
  have hrv := read_value_integer_text NE m ((it.adv (k.length + 2)).adv 1) [] (to_string_int n) r
    (integer_text_to_string_int n) hr2 (by simp) hr (by rw [hr2]; simp; omega)
  rw [read_object_loop_key NE _ (f + 1) values key k it _ h0 hk (by omega),
    read_object_loop_colon NE _ f values k _ _ _ _ hr1 hrv rfl]
  have e : ((it.adv (k.length + 2)).adv 1).adv (([] : List Char).length +
      (to_string_int n).length) = it.adv (k.length + 3 + (to_string_int n).length) := by
    simp +arith [adv_adv, adv_inj]
  rw [e]
  rfl

/-- The loop of `read_object` on the members of an object text: every member is
stored under its key, in the order of the text, and the loop goes on at the text `t`
that follows, with more fuel than `t` has characters. -/
theorem read_object_loop_members (NE : Bool) (m : Nat) (ps : List (List Char × Int)) :
    ∀ (i : Nat) (values : List (List Char × value)) (fuel : Nat) (it : string_iterator)
      (t : List Char),
    (∀ p ∈ ps, plain_text p.1 = true) → it.rest = members_text i ps ++ t → number_stop t →
    it.rest.length < fuel → it.rest.length ≤ m →
    ∃ fuel1, t.length < fuel1 ∧
      read_object_loop NE (read_value NE m) fuel values [] it =
        read_object_loop NE (read_value NE m) fuel1
          (ps.foldl (fun acc p => dict_assign acc p.1 (value.of_int p.2)) values) []
          (it.adv (members_text i ps).length) := by
  induction ps with
  | nil =>
    intro i values fuel it t _ h _ hf _
    have h0 : it.rest = t := by simpa [members_text] using h
    exact ⟨fuel, by rw [← h0]; exact hf, by simp [members_text, adv_zero]⟩
  | cons p ps ih =>
    intro i values fuel it t hps h ht hf hm
    obtain ⟨k, n⟩ := p
    have hk : plain_text k = true := hps (k, n) (by simp)
    by_cases hi : i = 0
    · subst hi
      rw [members_text_zero] at h ⊢
      have h0 : it.rest = '"' :: (k ++ '"' :: ':' :: (to_string_int n ++
          (members_text 1 ps ++ t))) := by simpa using h
      have hlen : it.rest.length =
          k.length + 3 + (to_string_int n).length + (members_text 1 ps ++ t).length := by
        rw [h0]; simp +arith
      obtain ⟨f, rfl⟩ : ∃ f, fuel = f + 2 := ⟨fuel - 2, by omega⟩
      have hr2 : (it.adv (k.length + 3 + (to_string_int n).length)).rest =
          members_text 1 ps ++ t := by
        rw [rest_adv, h0]
        have : k.length + 3 + (to_string_int n).length =
            ('"' :: (k ++ '"' :: ':' :: to_string_int n)).length := by simp +arith
        have e : '"' :: (k ++ '"' :: ':' :: (to_string_int n ++ (members_text 1 ps ++ t))) =
            ('"' :: (k ++ '"' :: ':' :: to_string_int n)) ++ (members_text 1 ps ++ t) := by simp
        rw [this, e, List.drop_left]
      obtain ⟨fuel1, hfuel1, hloop⟩ := ih 1 (dict_assign values k (value.of_int n)) f _ t
        (fun p hp => hps p (by simp [hp])) hr2 ht (by rw [hr2]; omega) (by rw [hr2]; omega)
      refine ⟨fuel1, hfuel1, ?_⟩
      rw [read_object_loop_int_entry NE m f it k n _ h0 hk
        (number_stop_members_text 1 (by omega) ps t ht) (by omega) hm, hloop]
      have e : (it.adv (k.length + 3 + (to_string_int n).length)).adv (members_text 1 ps).length =
          it.adv ('"' :: (k ++ '"' :: ':' :: (to_string_int n ++ members_text 1 ps))).length := by
        simp +arith [adv_adv, adv_inj]
      rw [e]
      simp
    · rw [members_text_cons i hi] at h ⊢
      have h0 : it.rest = ',' :: '"' :: (k ++ '"' :: ':' :: (to_string_int n ++
          (members_text (i + 1) ps ++ t))) := by simpa using h
      have hlen : it.rest.length =
          k.length + 4 + (to_string_int n).length + (members_text (i + 1) ps ++ t).length := by
        rw [h0]; simp +arith
      obtain ⟨f, rfl⟩ : ∃ f, fuel = f + 3 := ⟨fuel - 3, by omega⟩
      have hr1 : (it.adv 1).rest = '"' :: (k ++ '"' :: ':' :: (to_string_int n ++
          (members_text (i + 1) ps ++ t))) := by
        rw [rest_adv, h0]; rfl
      have hr2 : ((it.adv 1).adv (k.length + 3 + (to_string_int n).length)).rest =
          members_text (i + 1) ps ++ t := by
        rw [rest_adv, hr1]
        have : k.length + 3 + (to_string_int n).length =
            ('"' :: (k ++ '"' :: ':' :: to_string_int n)).length := by simp +arith
        have e : '"' :: (k ++ '"' :: ':' :: (to_string_int n ++
            (members_text (i + 1) ps ++ t))) =
            ('"' :: (k ++ '"' :: ':' :: to_string_int n)) ++ (members_text (i + 1) ps ++ t) := by
          simp
        rw [this, e, List.drop_left]
      obtain ⟨fuel1, hfuel1, hloop⟩ := ih (i + 1) (dict_assign values k (value.of_int n)) f _ t
        (fun p hp => hps p (by simp [hp])) hr2 ht (by rw [hr2]; omega) (by rw [hr2]; omega)
      refine ⟨fuel1, hfuel1, ?_⟩
      rw [read_object_loop_comma NE _ (f + 2) values it _ h0,
        read_object_loop_int_entry NE m f (it.adv 1) k n _ hr1 hk
          (number_stop_members_text (i + 1) (by omega) ps t ht) (by rw [hr1]; simp at hlen ⊢; omega)
          (by rw [hr1]; simp at hlen ⊢; omega), hloop]
      have e : ((it.adv 1).adv (k.length + 3 + (to_string_int n).length)).adv
          (members_text (i + 1) ps).length =
          it.adv (',' :: '"' :: (k ++ '"' :: ':' :: (to_string_int n ++
            members_text (i + 1) ps))).length := by
        simp +arith [adv_adv, adv_inj]
      rw [e]
      simp

/-- At the end of the input the loop of `read_object` ends and the members stored so
far are returned. -/
theorem read_object_loop_end (NE : Bool) (rv : string_iterator → outcome value) (fuel : Nat)
    (values : List (List Char × value)) (key : List Char) (it : string_iterator)
    (h : it.rest = []) :
    read_object_loop NE rv (fuel + 1) values key it =
      outcome.ret (value.of_map values) it.next.2 := by
  simp [read_object_loop, available_eq, h]

/-- What `parse` returns on an object text of integers, with its closing brace
(`close` true) or without it. -/
theorem parse_object_text (NE : Bool) (ps : List (List Char × Int))
    (hps : ∀ p ∈ ps, plain_text p.1 = true) (close : Bool) :
    ∃ it, parse NE ('{' :: (members_text 0 ps ++ if close then ['}'] else [])) =
      outcome.ret
        (value.of_map (ps.foldl (fun acc p => dict_assign acc p.1 (value.of_int p.2)) [])) it := by
  generalize htext : '{' :: (members_text 0 ps ++ if close then ['}'] else []) = text
  have h0 : (string_iterator.init text).rest =
      [] ++ ('{' :: (members_text 0 ps ++ if close then ['}'] else [])) := by
    rw [rest_init, ← htext]; simp
  have h0b : ((string_iterator.init text).adv ([] : List Char).length).rest =
      '{' :: (members_text 0 ps ++ if close then ['}'] else []) := by
    show ((string_iterator.init text).adv 0).rest = _
    rw [adv_zero]; simpa using h0
  have h1 : (((string_iterator.init text).adv ([] : List Char).length).adv 1).rest =
      members_text 0 ps ++ if close then ['}'] else [] := by
    rw [rest_adv, h0b]; rfl
  have hlen : text.length = (members_text 0 ps ++ if close then ['}'] else []).length + 1 := by
    rw [← htext]; simp
  have hstop : number_stop (if close then ['}'] else []) := by
    cases close
    · exact number_stop_nil
    · exact number_stop_cons '}' [] (by simp)
  obtain ⟨fuel1, hfuel1, hloop⟩ := read_object_loop_members NE (text.length + 1 - 1) ps 0 []
    (text.length + 1 - 1 - ([] : List Char).length) _ (if close then ['}'] else [])
    hps h1 hstop
    (by rw [h1]; simp at hlen ⊢; omega) (by rw [h1]; simp at hlen ⊢; omega)
  obtain ⟨f, rfl⟩ : ∃ f, fuel1 = f + 1 := ⟨fuel1 - 1, by omega⟩
  have h2 := rest_adv_length h1
  refine ⟨?_, ?_⟩
  · exact if close then
      ((((string_iterator.init text).adv ([] : List Char).length).adv 1).adv
        (members_text 0 ps).length).adv 1
    else
      ((((string_iterator.init text).adv ([] : List Char).length).adv 1).adv
        (members_text 0 ps).length).next.2
  · unfold parse
    rw [read_value_skip NE _ _ [] _ h0 (by simp) (by simp),
      read_value_loop_object NE _ _ [] _ _ h0b, read_object_open NE _ _ _ _ _ h0b, hloop]
    cases close
    · rw [read_object_loop_end NE _ f _ _ _ (by simpa using h2)]
      simp
    · rw [read_object_loop_close NE _ f _ _ _ [] (by simpa using h2)]
      simp

/-! ## The mapping after a run of assignments -/

theorem dict_find_assign (d : List (List Char × value)) (k k2 : List Char) (v : value) :
    dict_find (dict_assign d k v) k2 = if k = k2 then some v else dict_find d k2 := by
  induction d with
  | nil => simp [dict_assign, dict_find]
  | cons e d ih =>
    obtain ⟨k1, w1⟩ := e
    by_cases h1 : k1 = k
    · subst h1
      by_cases h2 : k1 = k2 <;> simp [dict_assign, dict_find, h2]
    · by_cases h2 : k1 = k2
      · subst h2
        have : ¬ k = k1 := fun h => h1 h.symm
        simp [dict_assign, dict_find, h1, this]
      · simp [dict_assign, dict_find, h1, h2, ih]

theorem dict_find_foldl_other (ps : List (List Char × Int)) (k : List Char)
    (h : k ∉ ps.map Prod.fst) : ∀ acc : List (List Char × value),
    dict_find (ps.foldl (fun acc p => dict_assign acc p.1 (value.of_int p.2)) acc) k =
      dict_find acc k := by
  induction ps with
  | nil => intro acc; rfl
  | cons p ps ih =>
    intro acc
    simp only [List.map_cons, List.mem_cons, not_or] at h
    simp only [List.foldl_cons]
    rw [ih h.2, dict_find_assign, if_neg (fun e => h.1 e.symm)]

theorem dict_find_foldl_last (pre post : List (List Char × Int)) (k : List Char) (n : Int)
    (h : k ∉ post.map Prod.fst) (acc : List (List Char × value)) :
    dict_find ((pre ++ (k, n) :: post).foldl
      (fun acc p => dict_assign acc p.1 (value.of_int p.2)) acc) k = some (value.of_int n) := by
  rw [List.foldl_append, List.foldl_cons, dict_find_foldl_other post k h, dict_find_assign,
    if_pos rfl]

theorem index_key_of_map (d : List (List Char × value)) (k : List Char) :
    (value.of_map d).index_key k =
      match dict_find d k with
      | some found => found
      | none => value.default := rfl

/-- What `parse` returns on a string literal with a plain body and no closing quote. -/
theorem parse_open_string (NE : Bool) (s : List Char) (hs : plain_text s = true) :
    ∃ it, parse NE ('"' :: s) = outcome.ret (value.of_string s) it := by
  generalize htext : '"' :: s = text
  have hlen : text.length = s.length + 1 := by rw [← htext]; simp
  have h0 : (string_iterator.init text).rest = [] ++ ('"' :: s) := by
    rw [rest_init, ← htext]; simp
  have h0b : ((string_iterator.init text).adv ([] : List Char).length).rest = '"' :: s := by
    show ((string_iterator.init text).adv 0).rest = _
    rw [adv_zero]; simpa using h0
  have h1 : (((string_iterator.init text).adv ([] : List Char).length).adv 1).rest = s ++ [] := by
    rw [rest_adv, h0b]; simp
  have h2 := rest_adv_length h1
  obtain ⟨f, hf⟩ : ∃ f, text.length + 1 - 1 - ([] : List Char).length - s.length = f + 1 :=
    ⟨0, by simp; omega⟩
  refine ⟨((((string_iterator.init text).adv ([] : List Char).length).adv 1).adv
    s.length).next.2, ?_⟩
  unfold parse
  rw [read_value_skip NE _ _ [] _ h0 (by simp) (by simp),
    read_value_loop_string NE _ _ [] _ _ h0b]
  unfold read_string
  rw [next_snd, h0b]
  simp only [reduceCtorEq, if_false]
  rw [read_string_loop_plain NE s _ [] _ [] h1 hs (by simp; omega), hf]
  have h3 : ((((string_iterator.init text).adv 0).adv 1).adv s.length).rest = [] := h2
  simp [read_string_loop, available_eq, h3]

/-! ## Escapes in string literals -/

/-- Two iterations of the loop of `read_string` on a backslash followed by one of
the letters `b`, `f`, `n`, `r`, `t`: the control character is appended. -/
theorem read_string_loop_escape (NE : Bool) (fuel : Nat) (str : List Char)
    (it : string_iterator) (letter : Char) (r : List Char) (h : it.rest = '\\' :: letter :: r)
    (hl : (body_piece.escape letter).allowed = true) :
    read_string_loop NE (fuel + 2) str false it =
      read_string_loop NE fuel (str ++ [control_char letter]) false (it.adv 2) := by
  have hr1 : (it.adv 1).rest = letter :: r := by simp [rest_adv, h]
  have h1 : read_string_loop NE (fuel + 2) str false it =
      read_string_loop NE (fuel + 1) str true (it.adv 1) := by
    simp [read_string_loop, read_string_tail, available_eq, peek_eq_first, next_snd, h,
      first_cons]
  rw [h1]
  simp only [body_piece.allowed, Bool.or_eq_true, beq_iff_eq] at hl
  rcases hl with (((rfl | rfl) | rfl) | rfl) | rfl <;>
    simp [read_string_loop, read_string_tail, available_eq, peek_eq_first, next_snd, hr1,
      first_cons, control_char, adv_adv]

/-- The loop of `read_string` on a run of allowed pieces: each piece adds the
character it stands for. -/
theorem read_string_loop_pieces (NE : Bool) (ps : List body_piece) :
    ∀ (fuel : Nat) (str : List Char) (it : string_iterator) (r : List Char),
    it.rest = body_source ps ++ r → (∀ p ∈ ps, p.allowed = true) →
    (body_source ps).length ≤ fuel →
    read_string_loop NE fuel str false it =
      read_string_loop NE (fuel - (body_source ps).length) (str ++ ps.map body_piece.denotes)
        false (it.adv (body_source ps).length) := by
  induction ps with
  | nil => intro fuel str it r _ _ _; simp [body_source, adv_zero]
  | cons p ps ih =>
    intro fuel str it r h hp hf
    have hp0 := hp p (by simp)
    cases p with
    | verbatim c =>
      simp only [body_piece.allowed, Bool.and_eq_true, bne_iff_ne, ne_eq] at hp0
      have hlen : (body_source (body_piece.verbatim c :: ps)).length =
          (body_source ps).length + 1 := by simp [body_source, body_piece.source]
      rw [hlen] at hf ⊢
      obtain ⟨f, rfl⟩ : ∃ f, fuel = f + 1 := ⟨fuel - 1, by omega⟩
      have h0 : it.rest = c :: (body_source ps ++ r) := by
        simpa [body_source, body_piece.source] using h
      have hr1 : (it.adv 1).rest = body_source ps ++ r := by simp [rest_adv, h0]
      rw [read_string_loop_char NE f str it c _ h0 hp0.1 hp0.2,
        ih f (str ++ [c]) (it.adv 1) r hr1 (fun q hq => hp q (by simp [hq])) (by omega)]
      simp +arith [adv_adv, adv_inj, body_piece.denotes]
      rw [Nat.add_comm]
    | escape letter =>
      have hlen : (body_source (body_piece.escape letter :: ps)).length =
          (body_source ps).length + 2 := by simp [body_source, body_piece.source]
      rw [hlen] at hf ⊢
      obtain ⟨f, rfl⟩ : ∃ f, fuel = f + 2 := ⟨fuel - 2, by omega⟩
      have h0 : it.rest = '\\' :: letter :: (body_source ps ++ r) := by
        simpa [body_source, body_piece.source] using h
      have hr1 : (it.adv 2).rest = body_source ps ++ r := by simp [rest_adv, h0]
      rw [read_string_loop_escape NE f str it letter _ h0 hp0,
        ih f (str ++ [control_char letter]) (it.adv 2) r hr1
          (fun q hq => hp q (by simp [hq])) (by omega)]
      simp +arith [adv_adv, adv_inj, body_piece.denotes]
      rw [Nat.add_comm]

/-- What `read_string` returns on a literal of allowed pieces. -/
theorem read_string_pieces (NE : Bool) (fuel : Nat) (it : string_iterator)
    (ps : List body_piece) (r : List Char)
    (h : it.rest = '"' :: (body_source ps ++ '"' :: r)) (hp : ∀ p ∈ ps, p.allowed = true)
    (hf : (body_source ps).length < fuel) :
    read_string NE fuel it =
      outcome.ret (value.of_string (ps.map body_piece.denotes))
        (it.adv ((body_source ps).length + 2)) := by
  have hr1 : (it.adv 1).rest = body_source ps ++ '"' :: r := by simp [rest_adv, h]
  have hr2 := rest_adv_length hr1
  obtain ⟨f, hf2⟩ : ∃ f, fuel - (body_source ps).length = f + 1 :=
    ⟨fuel - (body_source ps).length - 1, by omega⟩
  unfold read_string
  rw [next_snd, h]
  simp only [reduceCtorEq, if_false]
  rw [read_string_loop_pieces NE ps fuel [] (it.adv 1) _ hr1 hp (by omega), hf2,
    read_string_loop_close NE f _ _ r hr2]
  simp +arith [adv_adv, adv_inj]

/-! ## Whitespace before the closing bracket -/

/-- On whitespace followed by a closing bracket that ends the input, `read_value`
fails: the bracket is read as a literal. -/
theorem read_value_spaces_close_fails (NE : Bool) (m : Nat) (it : string_iterator)
    (ws : List Char) (h : it.rest = ws ++ [']']) (hws : ∀ c ∈ ws, is_space c = true)
    (hm : it.rest.length < m) : (read_value NE m it).failed NE = true := by
  have hlen : it.rest.length = ws.length + 1 := by rw [h]; simp
  have hr1 : (it.adv ws.length).rest = [']'] := rest_adv_length h
  have hr2 : ((it.adv ws.length).adv 1).rest = [] := by simp [rest_adv, hr1]
  obtain ⟨g, hg⟩ : ∃ g, m - 1 - ws.length = g + 1 := ⟨m - 1 - ws.length - 1, by omega⟩
  rw [read_value_skip NE m it ws _ h hws (by omega), hg,
    read_value_loop_char NE _ (g + 1) [] _ ']' [] hr1 rfl,
    read_value_loop_end NE _ g _ _ hr2,
    read_value_literal_fails NE _ _ (by simp; rfl) (by decide) (by decide) (by decide)]
  exact failed_fail _ _ _

/-! ## No Undefined node in what the readers return -/

theorem clean_ret (NE : Bool) (v : value) (it : string_iterator) (h : v.no_undefined = true) :
    (outcome.ret v it).clean NE := by
  intro w it2 e
  injection e with e1 _
  rw [← e1]
  exact Or.inl h

theorem clean_ret_error (NE : Bool) (v : value) (it : string_iterator)
    (h : NE = true ∧ v.error = true) : (outcome.ret v it).clean NE := by
  intro w it2 e
  injection e with e1 _
  rw [← e1]
  exact Or.inr h

theorem clean_raised (NE : Bool) (msg : String) :
    (outcome.raised msg : outcome value).clean NE := by
  intro w it2 e
  cases e

theorem clean_out_of_fuel (NE : Bool) : (outcome.out_of_fuel : outcome value).clean NE := by
  intro w it2 e
  cases e

theorem clean_fail (NE : Bool) (msg : String) (it : string_iterator) :
    (fail NE msg it).clean NE := by
  cases NE
  · exact clean_raised _ _
  · exact clean_ret_error _ _ _ ⟨rfl, rfl⟩

theorem clean_bind {α : Type} (NE : Bool) (o : outcome α)
    (k : α → string_iterator → outcome value)
    (h : ∀ a it, o = outcome.ret a it → (k a it).clean NE) : (o.bind k).clean NE := by
  cases o with
  | ret a it => exact h a it rfl
  | raised msg => exact clean_raised _ _
  | out_of_fuel => exact clean_out_of_fuel _

theorem clean_ite (NE : Bool) {c : Prop} [Decidable c] {a b : outcome value}
    (ha : a.clean NE) (hb : b.clean NE) : (if c then a else b).clean NE := by
  by_cases h : c
  · rw [if_pos h]; exact ha
  · rw [if_neg h]; exact hb

theorem no_undefined_of_string (s : List Char) : (value.of_string s).no_undefined = true := rfl

theorem no_undefined_of_type_text (ty : value_type) (s : List Char)
    (h : ty ≠ value_type.undefined) : (value.of_type_text ty s).no_undefined = true := by
  cases ty <;> first | rfl | exact absurd rfl h

theorem no_undefined_of_vector (values : List value) :
    (value.of_vector values).no_undefined = array_no_undefined values := by
  simp [value.of_vector, value.no_undefined]

theorem no_undefined_of_map (values : List (List Char × value)) :
    (value.of_map values).no_undefined = object_no_undefined values := by
  simp [value.of_map, value.no_undefined]

theorem array_no_undefined_append (values : List value) (v : value)
    (h1 : array_no_undefined values = true) (h2 : v.no_undefined = true) :
    array_no_undefined (values ++ [v]) = true := by
  induction values with
  | nil => simp [array_no_undefined, h2]
  | cons w ws ih =>
    simp only [array_no_undefined, Bool.and_eq_true] at h1
    simp [array_no_undefined, h1.1, ih h1.2]

theorem object_no_undefined_assign (values : List (List Char × value)) (key : List Char)
    (v : value) (h1 : object_no_undefined values = true) (h2 : v.no_undefined = true) :
    object_no_undefined (dict_assign values key v) = true := by
  induction values with
  | nil => simp [dict_assign, object_no_undefined, h2]
  | cons e es ih =>
    obtain ⟨k, w⟩ := e
    simp only [object_no_undefined, Bool.and_eq_true] at h1
    by_cases hk : k = key
    · simp [dict_assign, hk, object_no_undefined, h2, h1.2]
    · simp [dict_assign, hk, object_no_undefined, h1.1, ih h1.2]

theorem clean_read_string_tail (NE : Bool)
    (loop : List Char → Bool → string_iterator → outcome value)
    (hloop : ∀ s b t, (loop s b t).clean NE) (c : Char) (str : List Char)
    (backslash exit : Bool) (text : string_iterator) :
    (read_string_tail loop c str backslash exit text).clean NE := by
  unfold read_string_tail
  split_ifs
  · exact clean_ret _ _ _ (no_undefined_of_string _)
  · exact hloop _ _ _
  · exact hloop _ _ _
  · exact hloop _ _ _

theorem clean_read_string_loop (NE : Bool) : ∀ (fuel : Nat) (str : List Char) (backslash : Bool)
    (text : string_iterator), (read_string_loop NE fuel str backslash text).clean NE := by
  intro fuel
  induction fuel with
  | zero => intro str b text; exact clean_out_of_fuel _
  | succ fuel ih =>
    intro str b text
    have ht := clean_read_string_tail NE (read_string_loop NE fuel) ih
    have hu : ∀ t : string_iterator, ((read_unicode NE fuel t).bind fun unicode text2 =>
        if (NE && unicode.isEmpty) = true then
          outcome.ret (error "parsing: invalid unicode character") text2
        else
          read_string_tail (read_string_loop NE fuel) text.peek (str ++ unicode) b false
            text2).clean NE := by
      intro t
      apply clean_bind
      intro unicode text2 _
      split
      next hu =>
        simp only [Bool.and_eq_true] at hu
        exact clean_ret_error _ _ _ ⟨hu.1, rfl⟩
      next => exact ht _ _ _ _ _
    rw [read_string_loop]
    repeat' with_reducible apply clean_ite
    all_goals first
      | exact ht _ _ _ _ _
      | exact clean_ret _ _ _ (no_undefined_of_string _)
      | exact hu _

theorem clean_read_string (NE : Bool) (fuel : Nat) (text : string_iterator) :
    (read_string NE fuel text).clean NE :=
  clean_read_string_loop NE fuel _ _ _

theorem clean_read_number_exponent (NE : Bool) (fuel : Nat) (ty : value_type)
    (hty : ty ≠ value_type.undefined) (str : List Char) (text : string_iterator) :
    (read_number_exponent NE fuel ty str text).clean NE := by
  unfold read_number_exponent
  split_ifs
  · apply clean_bind
    intro exponent text1 _
    split_ifs with hu
    · simp only [Bool.and_eq_true] at hu
      exact clean_ret_error _ _ _ ⟨hu.1, rfl⟩
    · apply clean_bind
      intro again text2 _
      exact clean_ret _ _ _ (no_undefined_of_type_text _ _ (by decide))
  · exact clean_ret _ _ _ (no_undefined_of_type_text _ _ hty)

theorem clean_read_number_fraction (NE : Bool) (fuel : Nat) (ty : value_type)
    (hty : ty ≠ value_type.undefined) (str : List Char) (text : string_iterator) :
    (read_number_fraction NE fuel ty str text).clean NE := by
  unfold read_number_fraction
  split_ifs
  · apply clean_bind
    intro fractional text1 _
    split_ifs with hu
    · simp only [Bool.and_eq_true] at hu
      exact clean_ret_error _ _ _ ⟨hu.1, rfl⟩
    · exact clean_read_number_exponent _ _ _ (by decide) _ _
  · exact clean_read_number_exponent _ _ _ hty _ _

theorem clean_read_number_integer (NE : Bool) (fuel : Nat) (str : List Char)
    (text : string_iterator) : (read_number_integer NE fuel str text).clean NE := by
  unfold read_number_integer
  split_ifs
  · exact clean_read_number_fraction _ _ _ (by decide) _ _
  · apply clean_bind
    intro str1 text1 _
    exact clean_read_number_fraction _ _ _ (by decide) _ _
  · exact clean_fail _ _ _

theorem clean_read_number (NE : Bool) (fuel : Nat) (text : string_iterator) :
    (read_number NE fuel text).clean NE := by
  unfold read_number
  split_ifs <;> exact clean_read_number_integer _ _ _ _

theorem clean_read_value_literal (NE : Bool) (buffer : List Char) (text : string_iterator) :
    (read_value_literal NE buffer text).clean NE := by
  unfold read_value_literal
  split_ifs
  · exact clean_ret _ _ _ (no_undefined_of_type_text _ _ (by decide))
  · exact clean_ret _ _ _ (no_undefined_of_type_text _ _ (by decide))
  · exact clean_ret _ _ _ (no_undefined_of_type_text _ _ (by decide))
  · exact clean_fail _ _ _

theorem clean_read_array_tail (NE : Bool) (rv : string_iterator → outcome value)
    (hrv : ∀ it, (rv it).clean NE)
    (loop : List value → Bool → string_iterator → outcome value)
    (hloop : ∀ vs b t, array_no_undefined vs = true → (loop vs b t).clean NE)
    (values : List value) (hvs : array_no_undefined values = true) (ready exit : Bool)
    (text : string_iterator) :
    (read_array_tail NE rv loop values ready exit text).clean NE := by
  unfold read_array_tail
  split_ifs
  · apply clean_bind
    intro back text1 hback
    split_ifs with hu
    · simp only [Bool.and_eq_true] at hu
      exact clean_ret_error _ _ _ hu
    · have hb : back.no_undefined = true := by
        rcases hrv text back text1 hback with hb | hb
        · exact hb
        · exact absurd (by simp [hb.1, hb.2]) hu
      exact hloop _ _ _ (array_no_undefined_append _ _ hvs hb)
  · exact clean_ret _ _ _ (by rw [no_undefined_of_vector]; exact hvs)
  · exact hloop _ _ _ hvs

theorem clean_read_array_loop (NE : Bool) (rv : string_iterator → outcome value)
    (hrv : ∀ it, (rv it).clean NE) : ∀ (fuel : Nat) (values : List value) (ready : Bool)
    (text : string_iterator), array_no_undefined values = true →
    (read_array_loop NE rv fuel values ready text).clean NE := by
  intro fuel
  induction fuel with
  | zero => intro values ready text _; exact clean_out_of_fuel _
  | succ fuel ih =>
    intro values ready text hvs
    have ht := clean_read_array_tail NE rv hrv (read_array_loop NE rv fuel) ih values hvs
    rw [read_array_loop]
    split_ifs <;> first
      | exact ht _ _ _
      | exact clean_fail _ _ _
      | exact clean_ret _ _ _ (by rw [no_undefined_of_vector]; exact hvs)

theorem clean_read_object_loop (NE : Bool) (rv : string_iterator → outcome value)
    (hrv : ∀ it, (rv it).clean NE) : ∀ (fuel : Nat) (values : List (List Char × value))
    (key : List Char) (text : string_iterator), object_no_undefined values = true →
    (read_object_loop NE rv fuel values key text).clean NE := by
  intro fuel
  induction fuel with
  | zero => intro values key text _; exact clean_out_of_fuel _
  | succ fuel ih =>
    intro values key text hvs
    have hret : ∀ it, (outcome.ret (value.of_map values) it).clean NE := fun it =>
      clean_ret _ _ _ (by rw [no_undefined_of_map]; exact hvs)
    rw [read_object_loop]
    split_ifs <;> first
      | exact hret _
      | exact clean_fail _ _ _
      | exact ih _ _ _ hvs
      | skip
    · apply clean_bind
      intro str text1 _
      exact ih _ _ _ hvs
    · apply clean_bind
      intro val text1 hval
      split_ifs with hu
      · simp only [Bool.and_eq_true] at hu
        exact clean_ret_error _ _ _ hu
      · have hb : val.no_undefined = true := by
          rcases hrv _ val text1 hval with hb | hb
          · exact hb
          · exact absurd (by simp [hb.1, hb.2]) hu
        exact ih _ _ _ (object_no_undefined_assign _ _ _ hvs hb)

theorem clean_read_value_loop (NE : Bool) (rv : string_iterator → outcome value)
    (hrv : ∀ it, (rv it).clean NE) : ∀ (fuel : Nat) (buffer : List Char)
    (text : string_iterator), (read_value_loop NE rv fuel buffer text).clean NE := by
  intro fuel
  induction fuel with
  | zero => intro buffer text; exact clean_out_of_fuel _
  | succ fuel ih =>
    intro buffer text
    rw [read_value_loop]
    split_ifs with h1 h2 h3
    · exact clean_read_object_loop NE rv hrv _ _ _ _ rfl
    · unfold read_array
      rw [if_pos h3]
      exact clean_read_array_loop NE rv hrv _ _ _ _ rfl
    · exact clean_read_string _ _ _
    · exact clean_read_number _ _ _
    · exact ih _ _
    · exact clean_read_value_literal _ _ _
    · exact ih _ _
    · exact clean_read_value_literal _ _ _

theorem clean_read_value (NE : Bool) : ∀ (n : Nat) (text : string_iterator),
    (read_value NE n text).clean NE := by
  intro n
  induction n with
  | zero => intro text; exact clean_out_of_fuel _
  | succ n ih =>
    intro text
    rw [read_value]
    exact clean_read_value_loop NE _ ih _ _ _

/-! ## Termination: the cursor moves forward, the fuel suffices -/

theorem next_mk_lt (t : List Char) (i : Nat) (h : i < t.length) :
    (string_iterator.next ⟨t, i⟩).2 = ⟨t, i + 1⟩ := by
  simp [string_iterator.next, string_iterator.available, h]

theorem next_mk_ge (t : List Char) (i : Nat) (h : ¬ i < t.length) :
    (string_iterator.next ⟨t, i⟩).2 = ⟨t, i⟩ := by
  simp [string_iterator.next, string_iterator.available, h]

theorem next_mk_cases (t : List Char) (i : Nat) :
    ∃ k, (string_iterator.next ⟨t, i⟩).2 = ⟨t, k⟩ ∧ i ≤ k ∧ (i < t.length → k = i + 1) ∧
      (i ≤ t.length → k ≤ t.length) := by
  by_cases h : i < t.length
  · exact ⟨i + 1, next_mk_lt t i h, by omega, fun _ => rfl, fun _ => h⟩
  · exact ⟨i, next_mk_ge t i h, by omega, fun h2 => absurd h2 h, fun h2 => h2⟩

theorem available_mk (t : List Char) (i : Nat) :
    (string_iterator.available ⟨t, i⟩ = true) ↔ i < t.length := by
  simp [string_iterator.available]

theorem peek_mk_ge (t : List Char) (i : Nat) (h : ¬ i < t.length) :
    string_iterator.peek ⟨t, i⟩ = Char.ofNat 0 := by
  simp only [string_iterator.peek]
  rw [List.getD_eq_getElem?_getD, List.getElem?_eq_none (by omega)]
  rfl

theorem lt_of_peek (t : List Char) (i : Nat) (c : Char) (h : string_iterator.peek ⟨t, i⟩ = c)
    (hc : c ≠ Char.ofNat 0) : i < t.length := by
  by_contra hn
  rw [peek_mk_ge t i hn] at h
  exact hc h.symm

theorem lt_of_is_digit (t : List Char) (i : Nat)
    (h : is_digit (string_iterator.peek ⟨t, i⟩) = true) : i < t.length := by
  by_contra hn
  rw [peek_mk_ge t i hn] at h
  exact absurd h (by decide)

theorem advances_ret {α : Type} (t : List Char) (j i : Nat) (a : α) (h1 : j ≤ i)
    (h2 : i ≤ t.length) : (outcome.ret a ⟨t, i⟩).advances t j :=
  ⟨rfl, h1, h2⟩

theorem advances_mono {α : Type} (t : List Char) (j k : Nat) (o : outcome α) (h : k ≤ j)
    (ho : o.advances t j) : o.advances t k := by
  cases o with
  | ret a it => exact ⟨ho.1, Nat.le_trans h ho.2.1, ho.2.2⟩
  | raised msg => trivial
  | out_of_fuel => exact ho

theorem advances_bind {α β : Type} (t : List Char) (j k : Nat) (o : outcome α)
    (f : α → string_iterator → outcome β) (ho : o.advances t j)
    (hf : ∀ a i, j ≤ i → i ≤ t.length → (f a ⟨t, i⟩).advances t k) :
    (o.bind f).advances t k := by
  cases o with
  | ret a it =>
    obtain ⟨t2, i⟩ := it
    obtain ⟨h1, h2, h3⟩ := ho
    simp only at h1 h2 h3
    subst h1
    exact hf a i h2 h3
  | raised msg => trivial
  | out_of_fuel => exact ho

theorem advances_fail_string (NE : Bool) (msg : String) (t : List Char) (j i : Nat)
    (h1 : j ≤ i) (h2 : i ≤ t.length) : (fail_string NE msg ⟨t, i⟩).advances t j := by
  cases NE
  · trivial
  · exact advances_ret t j i _ h1 h2

theorem advances_fail (NE : Bool) (msg : String) (t : List Char) (j i : Nat)
    (h1 : j ≤ i) (h2 : i ≤ t.length) : (fail NE msg ⟨t, i⟩).advances t j := by
  cases NE
  · trivial
  · exact advances_ret t j i _ h1 h2

/-- The digit loop, started on a character of the text with as much fuel as there
are characters left, consumes at least that character. -/
theorem advances_do_digits (t : List Char) : ∀ (fuel : Nat) (buffer : List Char) (i : Nat),
    i < t.length → t.length - i ≤ fuel → (do_digits fuel buffer ⟨t, i⟩).advances t (i + 1) := by
  intro fuel
  induction fuel with
  | zero => intro buffer i h1 h2; omega
  | succ fuel ih =>
    intro buffer i h1 h2
    rw [do_digits, next_mk_lt t i h1]
    by_cases hd : is_digit (string_iterator.peek ⟨t, i + 1⟩) = true
    · rw [if_pos hd]
      have := lt_of_is_digit t (i + 1) hd
      exact advances_mono t _ _ _ (by omega) (ih _ (i + 1) this (by omega))
    · rw [if_neg hd]
      exact advances_ret t _ _ _ (by omega) (by omega)

theorem advances_read_fractional (NE : Bool) (t : List Char) (fuel i : Nat)
    (h1 : i ≤ t.length) (h2 : t.length - i ≤ fuel) :
    (read_fractional NE fuel ⟨t, i⟩).advances t i := by
  unfold read_fractional
  by_cases hp : string_iterator.peek ⟨t, i⟩ = '.'
  · have hlt := lt_of_peek t i _ hp (by decide)
    rw [if_pos hp, next_mk_lt t i hlt]
    by_cases hd : is_digit (string_iterator.peek ⟨t, i + 1⟩) = true
    · rw [if_pos hd]
      have := lt_of_is_digit t (i + 1) hd
      exact advances_mono t _ _ _ (by omega) (advances_do_digits t fuel _ (i + 1) this (by omega))
    · rw [if_neg hd]
      exact advances_fail_string NE _ t _ _ (by omega) (by omega)
  · rw [if_neg hp]
    exact advances_ret t _ _ _ (Nat.le_refl _) h1

theorem advances_read_exponent_digits (NE : Bool) (t : List Char) (fuel : Nat)
    (buffer : List Char) (i : Nat) (h1 : i ≤ t.length) (h2 : t.length - i ≤ fuel) :
    (read_exponent_digits NE fuel buffer ⟨t, i⟩).advances t i := by
  unfold read_exponent_digits
  by_cases hd : is_digit (string_iterator.peek ⟨t, i⟩) = true
  · rw [if_pos hd]
    have := lt_of_is_digit t i hd
    exact advances_mono t _ _ _ (by omega) (advances_do_digits t fuel _ i this h2)
  · rw [if_neg hd]
    exact advances_fail_string NE _ t _ _ (Nat.le_refl _) h1

theorem advances_read_exponent (NE : Bool) (t : List Char) (fuel i : Nat)
    (h1 : i ≤ t.length) (h2 : t.length - i ≤ fuel) :
    (read_exponent NE fuel ⟨t, i⟩).advances t i := by
  unfold read_exponent
  by_cases hp : string_iterator.peek ⟨t, i⟩ = 'e' ∨ string_iterator.peek ⟨t, i⟩ = 'E'
  · have hlt : i < t.length := by
      rcases hp with hp | hp
      · exact lt_of_peek t i _ hp (by decide)
      · exact lt_of_peek t i _ hp (by decide)
    rw [if_pos hp, next_mk_lt t i hlt]
    obtain ⟨k, hk, hk1, _, hk3⟩ := next_mk_cases t (i + 1)
    rw [hk]
    have hd := fun b => advances_mono t _ i _ (by omega)
      (advances_read_exponent_digits NE t fuel b k (hk3 (by omega)) (by omega))
    have hd1 := fun b => advances_mono t _ i _ (by omega)
      (advances_read_exponent_digits NE t fuel b (i + 1) (by omega) (by omega))
    split_ifs
    · exact hd _
    · exact hd _
    · exact hd1 _
  · rw [if_neg hp]
    exact advances_ret t _ _ _ (Nat.le_refl _) h1

theorem advances_read_number_exponent (NE : Bool) (t : List Char) (fuel : Nat)
    (ty : value_type) (str : List Char) (i : Nat) (h1 : i ≤ t.length)
    (h2 : t.length - i ≤ fuel) :
    (read_number_exponent NE fuel ty str ⟨t, i⟩).advances t i := by
  unfold read_number_exponent
  split_ifs
  · refine advances_bind t i i _ _ (advances_read_exponent NE t fuel i h1 h2) ?_
    intro exponent i1 hi1 hi2
    split_ifs
    · exact advances_ret t _ _ _ hi1 hi2
    · refine advances_bind t i1 i _ _ (advances_read_exponent NE t fuel i1 hi2 (by omega)) ?_
      intro again i2 hi3 hi4
      exact advances_ret t _ _ _ (by omega) hi4
  · exact advances_ret t _ _ _ (Nat.le_refl _) h1

theorem advances_read_number_fraction (NE : Bool) (t : List Char) (fuel : Nat)
    (ty : value_type) (str : List Char) (i : Nat) (h1 : i ≤ t.length)
    (h2 : t.length - i ≤ fuel) :
    (read_number_fraction NE fuel ty str ⟨t, i⟩).advances t i := by
  unfold read_number_fraction
  split_ifs
  · refine advances_bind t i i _ _ (advances_read_fractional NE t fuel i h1 h2) ?_
    intro fractional i1 hi1 hi2
    split_ifs
    · exact advances_ret t _ _ _ hi1 hi2
    · exact advances_mono t _ _ _ hi1
        (advances_read_number_exponent NE t fuel _ _ i1 hi2 (by omega))
  · exact advances_read_number_exponent NE t fuel _ _ i h1 h2

theorem advances_read_number_integer (NE : Bool) (t : List Char) (fuel : Nat)
    (str : List Char) (i : Nat) (h1 : i ≤ t.length) (h2 : t.length - i ≤ fuel) :
    (read_number_integer NE fuel str ⟨t, i⟩).advances t i ∧
      (is_digit (string_iterator.peek ⟨t, i⟩) = true →
        (read_number_integer NE fuel str ⟨t, i⟩).advances t (i + 1)) := by
  unfold read_number_integer
  by_cases hz : string_iterator.peek ⟨t, i⟩ = '0'
  · have hlt := lt_of_peek t i _ hz (by decide)
    rw [if_pos hz, next_mk_lt t i hlt]
    have := advances_read_number_fraction NE t fuel value_type.integer
      (str ++ [(string_iterator.next ⟨t, i⟩).1]) (i + 1) (by omega) (by omega)
    exact ⟨advances_mono t _ _ _ (by omega) this, fun _ => this⟩
  · rw [if_neg hz]
    by_cases hd : is_digit (string_iterator.peek ⟨t, i⟩) = true
    · have hlt := lt_of_is_digit t i hd
      rw [if_pos hd]
      have : ((do_digits fuel str ⟨t, i⟩).bind fun str1 text1 =>
          read_number_fraction NE fuel value_type.integer str1 text1).advances t (i + 1) := by
        refine advances_bind t (i + 1) (i + 1) _ _ (advances_do_digits t fuel str i hlt h2) ?_
        intro str1 i1 hi1 hi2
        exact advances_mono t _ _ _ hi1
          (advances_read_number_fraction NE t fuel _ _ i1 hi2 (by omega))
      exact ⟨advances_mono t _ _ _ (by omega) this, fun _ => this⟩
    · rw [if_neg hd]
      exact ⟨advances_fail NE _ t _ _ (Nat.le_refl _) h1, fun h => absurd h hd⟩

/-- On a minus sign or a digit `read_number` consumes at least one character. -/
theorem advances_read_number (NE : Bool) (t : List Char) (fuel i : Nat)
    (hp : string_iterator.peek ⟨t, i⟩ = '-' ∨ is_digit (string_iterator.peek ⟨t, i⟩) = true)
    (h1 : i ≤ t.length) (h2 : t.length - i ≤ fuel) :
    (read_number NE fuel ⟨t, i⟩).advances t (i + 1) := by
  unfold read_number
  by_cases hm : string_iterator.peek ⟨t, i⟩ = '-'
  · have hlt := lt_of_peek t i _ hm (by decide)
    rw [if_pos hm, next_mk_lt t i hlt]
    exact (advances_read_number_integer NE t fuel _ (i + 1) (by omega) (by omega)).1
  · rw [if_neg hm]
    rcases hp with hp | hp
    · exact absurd hp hm
    · exact (advances_read_number_integer NE t fuel _ i h1 h2).2 hp

theorem advances_ite {α : Type} (t : List Char) (j : Nat) {c : Prop} [Decidable c]
    {a b : outcome α} (ha : c → a.advances t j) (hb : ¬ c → b.advances t j) :
    (if c then a else b).advances t j := by
  by_cases h : c
  · rw [if_pos h]; exact ha h
  · rw [if_neg h]; exact hb h

theorem advances_ite_both {α : Type} (t : List Char) (j : Nat) {c : Prop} [Decidable c]
    {a b : outcome α} (ha : a.advances t j) (hb : b.advances t j) :
    (if c then a else b).advances t j :=
  advances_ite t j (fun _ => ha) (fun _ => hb)

/-- The loop of `read_unicode` makes at most four iterations, and at most one more
than there are characters left. -/
theorem advances_read_unicode_loop (NE : Bool) (t : List Char) :
    ∀ (fuel value digits i : Nat), i ≤ t.length → min (4 - digits) (t.length - i) < fuel →
    (read_unicode_loop NE fuel value digits ⟨t, i⟩).advances t i := by
  intro fuel
  induction fuel with
  | zero => intro value digits i h1 h2; omega
  | succ fuel ih =>
    intro value digits i h1 h2
    rw [read_unicode_loop]
    refine advances_ite t i (fun hc => ?_) (fun _ => advances_ret t _ _ _ (Nat.le_refl _) h1)
    have hlt : i < t.length := (available_mk t i).mp hc.2
    cases hex_value (string_iterator.peek ⟨t, i⟩) with
    | none => exact advances_fail_string NE _ t _ _ (Nat.le_refl _) h1
    | some d =>
      simp only
      by_cases hd : digits + 1 < 4
      · rw [if_pos hd, next_mk_lt t i hlt]
        exact advances_mono t _ _ _ (by omega) (ih _ _ (i + 1) (by omega) (by omega))
      · rw [if_neg hd]
        exact ih _ _ i h1 (by omega)

theorem advances_read_unicode (NE : Bool) (t : List Char) (fuel i : Nat) (h1 : i ≤ t.length)
    (h2 : t.length - i < fuel) : (read_unicode NE fuel ⟨t, i⟩).advances t i :=
  advances_read_unicode_loop NE t fuel 0 0 i h1 (by omega)

theorem advances_read_string_tail (t : List Char) (j lo : Nat)
    (loop : List Char → Bool → string_iterator → outcome value)
    (hloop : ∀ s b k, lo ≤ k → k ≤ t.length → (loop s b ⟨t, k⟩).advances t j)
    (c : Char) (str : List Char) (backslash exit : Bool) (i : Nat) (hi : i ≤ t.length)
    (hj : j ≤ i) (hlo : (i < t.length ∧ lo ≤ i + 1) ∨ lo ≤ i) :
    (read_string_tail loop c str backslash exit ⟨t, i⟩).advances t j := by
  obtain ⟨k, hk, hk1, hk2, hk3⟩ := next_mk_cases t i
  have hlok : lo ≤ k := by
    rcases hlo with hlo | hlo
    · have := hk2 hlo.1
      omega
    · omega
  unfold read_string_tail
  rw [hk]
  split_ifs
  · exact advances_ret t _ _ _ (by omega) (hk3 hi)
  · exact hloop _ _ k hlok (hk3 hi)
  · exact hloop _ _ k hlok (hk3 hi)
  · exact hloop _ _ k hlok (hk3 hi)

/-- The loop of `read_string` makes at most one iteration more than there are
characters left. -/
theorem advances_read_string_loop (NE : Bool) (t : List Char) :
    ∀ (fuel : Nat) (str : List Char) (backslash : Bool) (i : Nat), i ≤ t.length →
    t.length - i < fuel → (read_string_loop NE fuel str backslash ⟨t, i⟩).advances t i := by
  intro fuel
  induction fuel with
  | zero => intro str b i h1 h2; omega
  | succ fuel ih =>
    intro str b i h1 h2
    have hloop : ∀ s b k, i + 1 ≤ k → k ≤ t.length →
        (read_string_loop NE fuel s b ⟨t, k⟩).advances t i := fun s b k hk1 hk2 =>
      advances_mono t _ _ _ (by omega) (ih s b k hk2 (by omega))
    rw [read_string_loop]
    refine advances_ite t i (fun hc => ?_) (fun hc => ?_)
    · have hlt : i < t.length := (available_mk t i).mp hc
      have ht := fun c s b e => advances_read_string_tail t i (i + 1) (read_string_loop NE fuel)
        hloop c s b e i h1 (Nat.le_refl _) (Or.inl ⟨hlt, Nat.le_refl _⟩)
      have hu : ((read_unicode NE fuel (string_iterator.next ⟨t, i⟩).2).bind
          fun unicode text2 =>
            if (NE && unicode.isEmpty) = true then
              outcome.ret (error "parsing: invalid unicode character") text2
            else
              read_string_tail (read_string_loop NE fuel) (string_iterator.peek ⟨t, i⟩)
                (str ++ unicode) b false text2).advances t i := by
        rw [next_mk_lt t i hlt]
        refine advances_bind t (i + 1) i _ _
          (advances_read_unicode NE t fuel (i + 1) (by omega) (by omega)) ?_
        intro unicode k hk1 hk2
        refine advances_ite t i (fun _ => advances_ret t _ _ _ (by omega) hk2) (fun _ => ?_)
        exact advances_read_string_tail t i (i + 1) (read_string_loop NE fuel) hloop _ _ _ _ k
          hk2 (by omega) (Or.inr hk1)
      repeat' with_reducible apply advances_ite_both
      all_goals first
        | exact ht _ _ _ _
        | exact hu
    · have : ¬ i < t.length := fun h => hc ((available_mk t i).mpr h)
      rw [next_mk_ge t i this]
      exact advances_ret t _ _ _ (Nat.le_refl _) h1

/-- Function `read_string`, started on a character of the text, consumes at least
that character. -/
theorem advances_read_string (NE : Bool) (t : List Char) (fuel i : Nat) (h1 : i < t.length)
    (h2 : t.length - i ≤ fuel) : (read_string NE fuel ⟨t, i⟩).advances t (i + 1) := by
  unfold read_string
  rw [next_mk_lt t i h1]
  exact advances_read_string_loop NE t fuel _ _ (i + 1) (by omega) (by omega)

theorem advances_read_value_literal (NE : Bool) (t : List Char) (buffer : List Char)
    (j i : Nat) (hj : j ≤ i) (hi : i ≤ t.length) :
    (read_value_literal NE buffer ⟨t, i⟩).advances t j := by
  unfold read_value_literal
  split_ifs
  · exact advances_ret t _ _ _ hj hi
  · exact advances_ret t _ _ _ hj hi
  · exact advances_ret t _ _ _ hj hi
  · exact advances_fail NE _ t _ _ hj hi

theorem advances_read_array_tail (NE : Bool) (t : List Char) (m j lo : Nat)
    (rv : string_iterator → outcome value)
    (hrv : ∀ k, k ≤ t.length → t.length - k < m → (rv ⟨t, k⟩).advances t (min (k + 1) t.length))
    (loop : List value → Bool → string_iterator → outcome value)
    (hloop : ∀ vs b k, lo ≤ k → k ≤ t.length → (loop vs b ⟨t, k⟩).advances t j)
    (values : List value) (ready exit : Bool) (i : Nat) (hi : i ≤ t.length)
    (hm : t.length - i < m) (hj : j ≤ i) (hlo : (i < t.length ∧ lo ≤ i + 1) ∨ lo ≤ i) :
    (read_array_tail NE rv loop values ready exit ⟨t, i⟩).advances t j := by
  obtain ⟨k, hk, hk1, hk2, hk3⟩ := next_mk_cases t i
  have hlok : lo ≤ k := by
    rcases hlo with hlo | hlo
    · have := hk2 hlo.1
      omega
    · omega
  unfold read_array_tail
  rw [hk]
  refine advances_ite t j (fun _ => ?_) (fun _ => ?_)
  · refine advances_bind t (min (i + 1) t.length) j _ _ (hrv i hi hm) ?_
    intro back i1 hi1 hi2
    refine advances_ite t j (fun _ => advances_ret t _ _ _ (by omega) hi2) (fun _ => ?_)
    exact hloop _ _ i1 (by omega) hi2
  · refine advances_ite t j (fun _ => advances_ret t _ _ _ (by omega) (hk3 hi)) (fun _ => ?_)
    exact hloop _ _ k hlok (hk3 hi)

/-- The loop of `read_array` makes at most one iteration more than there are
characters left. -/
theorem advances_read_array_loop (NE : Bool) (t : List Char) (m : Nat)
    (rv : string_iterator → outcome value)
    (hrv : ∀ k, k ≤ t.length → t.length - k < m →
      (rv ⟨t, k⟩).advances t (min (k + 1) t.length)) :
    ∀ (fuel : Nat) (values : List value) (ready : Bool) (i : Nat), i ≤ t.length →
    t.length - i < fuel → t.length - i < m →
    (read_array_loop NE rv fuel values ready ⟨t, i⟩).advances t i := by
  intro fuel
  induction fuel with
  | zero => intro values ready i h1 h2; omega
  | succ fuel ih =>
    intro values ready i h1 h2 h3
    have hloop : ∀ vs b k, i + 1 ≤ k → k ≤ t.length →
        (read_array_loop NE rv fuel vs b ⟨t, k⟩).advances t i := fun vs b k hk1 hk2 =>
      advances_mono t _ _ _ (by omega) (ih vs b k hk2 (by omega) (by omega))
    rw [read_array_loop]
    refine advances_ite t i (fun hc => ?_) (fun _ => advances_ret t _ _ _ (Nat.le_refl _) h1)
    have hlt : i < t.length := (available_mk t i).mp hc
    have ht := fun vs b e => advances_read_array_tail NE t m i (i + 1) rv hrv
      (read_array_loop NE rv fuel) hloop vs b e i h1 h3 (Nat.le_refl _)
      (Or.inl ⟨hlt, Nat.le_refl _⟩)
    have ht1 := fun vs b e => advances_read_array_tail NE t m i (i + 1) rv hrv
      (read_array_loop NE rv fuel) hloop vs b e (i + 1) (by omega) (by omega) (by omega)
      (Or.inr (Nat.le_refl _))
    rw [next_mk_lt t i hlt]
    repeat' with_reducible apply advances_ite_both
    all_goals first
      | exact ht _ _ _
      | exact ht1 _ _ _
      | exact advances_fail NE _ t _ _ (Nat.le_refl _) h1

/-- The loop of `read_object` makes at most one iteration more than there are
characters left. -/
theorem advances_read_object_loop (NE : Bool) (t : List Char) (m : Nat)
    (rv : string_iterator → outcome value)
    (hrv : ∀ k, k ≤ t.length → t.length - k < m →
      (rv ⟨t, k⟩).advances t (min (k + 1) t.length)) :
    ∀ (fuel : Nat) (values : List (List Char × value)) (key : List Char) (i : Nat),
    i ≤ t.length → t.length - i < fuel → t.length - i < m →
    (read_object_loop NE rv fuel values key ⟨t, i⟩).advances t i := by
  intro fuel
  induction fuel with
  | zero => intro values key i h1 h2; omega
  | succ fuel ih =>
    intro values key i h1 h2 h3
    have hloop : ∀ vs s k, i + 1 ≤ k → k ≤ t.length →
        (read_object_loop NE rv fuel vs s ⟨t, k⟩).advances t i := fun vs s k hk1 hk2 =>
      advances_mono t _ _ _ (by omega) (ih vs s k hk2 (by omega) (by omega))
    rw [read_object_loop]
    refine advances_ite t i (fun hc => ?_) (fun hc => ?_)
    · have hlt : i < t.length := (available_mk t i).mp hc
      rw [next_mk_lt t i hlt]
      have hkey : ((read_string NE fuel ⟨t, i⟩).bind fun str text1 =>
          read_object_loop NE rv fuel values str.to_std_string text1).advances t i := by
        refine advances_bind t (i + 1) i _ _ (advances_read_string NE t fuel i hlt (by omega)) ?_
        intro str k hk1 hk2
        exact hloop _ _ k hk1 hk2
      have hval : ((rv ⟨t, i + 1⟩).bind fun val text1 =>
          if (NE && val.error) = true then outcome.ret val text1
          else read_object_loop NE rv fuel (dict_assign values key val) [] text1).advances t i := by
        refine advances_bind t (min (i + 1 + 1) t.length) i _ _
          (hrv (i + 1) (by omega) (by omega)) ?_
        intro val k hk1 hk2
        refine advances_ite t i (fun _ => advances_ret t _ _ _ (by omega) hk2) (fun _ => ?_)
        exact hloop _ _ k (by omega) hk2
      repeat' with_reducible apply advances_ite_both
      all_goals first
        | exact hkey
        | exact hval
        | exact hloop _ _ (i + 1) (Nat.le_refl _) (by omega)
        | exact advances_fail NE _ t _ _ (by omega) (by omega)
        | exact advances_ret t _ _ _ (by omega) (by omega)
    · have : ¬ i < t.length := fun h => hc ((available_mk t i).mpr h)
      rw [next_mk_ge t i this]
      exact advances_ret t _ _ _ (Nat.le_refl _) h1

/-- The loop of `read_value` makes at most one iteration more than there are
characters left, and consumes at least one character when one is left. -/
theorem advances_read_value_loop (NE : Bool) (t : List Char) (m : Nat)
    (rv : string_iterator → outcome value)
    (hrv : ∀ k, k ≤ t.length → t.length - k < m →
      (rv ⟨t, k⟩).advances t (min (k + 1) t.length)) :
    ∀ (fuel : Nat) (buffer : List Char) (i : Nat), i ≤ t.length → t.length - i < fuel →
    t.length - i ≤ m →
    (read_value_loop NE rv fuel buffer ⟨t, i⟩).advances t (min (i + 1) t.length) := by
  intro fuel
  induction fuel with
  | zero => intro buffer i h1 h2; omega
  | succ fuel ih =>
    intro buffer i h1 h2 h3
    rw [read_value_loop]
    refine advances_ite t _ (fun hc => ?_) (fun hc => ?_)
    · have hlt : i < t.length := (available_mk t i).mp hc
      have hmin : min (i + 1) t.length = i + 1 := by omega
      rw [hmin, next_mk_lt t i hlt]
      have hobj : (read_object NE rv fuel ⟨t, i⟩).advances t (i + 1) := by
        unfold read_object
        rw [next_mk_lt t i hlt]
        exact advances_read_object_loop NE t m rv hrv fuel _ _ (i + 1) (by omega) (by omega)
          (by omega)
      have harr : string_iterator.peek ⟨t, i⟩ = '[' →
          (read_array NE rv fuel ⟨t, i⟩).advances t (i + 1) := by
        intro hp
        unfold read_array
        rw [if_pos hp, next_mk_lt t i hlt]
        exact advances_read_array_loop NE t m rv hrv fuel _ _ (i + 1) (by omega) (by omega)
          (by omega)
      have hloop : ∀ b, (read_value_loop NE rv fuel b ⟨t, i + 1⟩).advances t (i + 1) :=
        fun b => advances_mono t _ _ _ (by omega) (ih b (i + 1) (by omega) (by omega) (by omega))
      refine advances_ite t _ (fun _ => hobj) (fun _ => ?_)
      refine advances_ite t _ (fun hp => harr hp) (fun _ => ?_)
      refine advances_ite t _
        (fun _ => advances_read_string NE t fuel i hlt (by omega)) (fun _ => ?_)
      refine advances_ite t _
        (fun hp => advances_read_number NE t fuel i hp h1 (by omega)) (fun _ => ?_)
      refine advances_ite t _ (fun _ => hloop _) (fun _ => ?_)
      refine advances_ite t _
        (fun _ => advances_read_value_literal NE t _ _ _ (Nat.le_refl _) (by omega))
        (fun _ => hloop _)
    · have : ¬ i < t.length := fun h => hc ((available_mk t i).mpr h)
      exact advances_read_value_literal NE t _ _ _ (by omega) h1

/-- Function `read_value`, called with more fuel than there are characters left:
it returns or throws, its cursor stays on the text, and it consumes at least one
character when one is left. -/
theorem advances_read_value (NE : Bool) (t : List Char) : ∀ (n i : Nat), i ≤ t.length →
    t.length - i < n → (read_value NE n ⟨t, i⟩).advances t (min (i + 1) t.length) := by
  intro n
  induction n with
  | zero => intro i h1 h2; omega
  | succ n ih =>
    intro i h1 h2
    rw [read_value]
    exact advances_read_value_loop NE t n (read_value NE n) ih (n + 1) [] i h1 h2 (by omega)

theorem advances_cases {α : Type} (t : List Char) (j : Nat) (o : outcome α)
    (h : o.advances t j) :
    (∃ a it, o = outcome.ret a it ∧ it.text = t ∧ j ≤ it.index ∧ it.index ≤ t.length) ∨
      ∃ msg, o = outcome.raised msg := by
  cases o with
  | ret a it => exact Or.inl ⟨a, it, rfl, h⟩
  | raised msg => exact Or.inr ⟨msg, rfl⟩
  | out_of_fuel => exact absurd h (by simp [outcome.advances])

/-! ## The claims -/

/-- C1 (counterexample): the String value whose text is one double quote has no
Undefined node, and `parse` of its rendering `"""` does not return a structurally
equal value (it returns the empty String). -/
theorem C1_string_with_quote_not_read_back :
    (value.of_string ['"']).no_undefined = true ∧
      ¬ ∃ w it, parse false (value.of_string ['"']).to_string = outcome.ret w it ∧
        struct_eq (value.of_string ['"']) w := by
  refine ⟨rfl, ?_⟩
  rintro ⟨w, it, hp, hs⟩
  have he : parse false (value.of_string ['"']).to_string =
      outcome.ret (value.of_string []) ⟨['"', '"', '"'], 2⟩ := rfl
  rw [he] at hp
  injection hp with h1 h2
  subst h1
  simp [struct_eq, value.of_string, value.text] at hs

/-- C1 (amended): in both builds, for every value that is `document_ok` (objects
with distinct keys, arrays, strings and keys without double quote and backslash,
Integer and Float texts that are decimal numbers without exponent, nested to any
depth; or true, false, null as the whole document), `parse` of the rendering
succeeds and returns a structurally equal value. -/
theorem C1_round_trip (NO_EXCEPTIONS : Bool) (v : value) (h : v.document_ok = true) :
    ∃ w it, parse NO_EXCEPTIONS v.to_string = outcome.ret w it ∧ struct_eq v w := by
  by_cases hn : v.nested_ok = true
  · obtain ⟨w, hw, hs⟩ := reads_back_of_nested_ok v hn NO_EXCEPTIONS (v.to_string.length + 1)
      (string_iterator.init v.to_string) [] []
      (by simp [rest_init]) (by simp) number_stop_nil (by simp [rest_init])
    exact ⟨w, _, hw, hs⟩
  · cases v with
    | mk ty text d a =>
      cases ty <;>
        simp [value.document_ok, hn, value.is_bool, value.is_null, value.type] at h
      · refine ⟨value.of_type_text value_type.true_literal ['t', 'r', 'u', 'e'],
          ⟨['t', 'r', 'u', 'e'], 4⟩, ?_, by simp [struct_eq]; rfl⟩
        rw [show (value.mk value_type.true_literal text d a).to_string = ['t', 'r', 'u', 'e']
          from by simp [value.to_string]]
        cases NO_EXCEPTIONS <;> rfl
      · refine ⟨value.of_type_text value_type.false_literal ['f', 'a', 'l', 's', 'e'],
          ⟨['f', 'a', 'l', 's', 'e'], 5⟩, ?_, by simp [struct_eq]; rfl⟩
        rw [show (value.mk value_type.false_literal text d a).to_string =
          ['f', 'a', 'l', 's', 'e'] from by simp [value.to_string]]
        cases NO_EXCEPTIONS <;> rfl
      · refine ⟨value.of_type_text value_type.null_literal ['n', 'u', 'l', 'l'],
          ⟨['n', 'u', 'l', 'l'], 4⟩, ?_, by simp [struct_eq]; rfl⟩
        rw [show (value.mk value_type.null_literal text d a).to_string = ['n', 'u', 'l', 'l']
          from by simp [value.to_string]]
        cases NO_EXCEPTIONS <;> rfl

/-- C1 (witness): the amended round trip at the document `round_trip_document`. -/
theorem C1_round_trip_witness :
    round_trip_document.document_ok = true ∧
      ∃ w it, parse false round_trip_document.to_string = outcome.ret w it ∧
        struct_eq round_trip_document w :=
  ⟨by decide, C1_round_trip false round_trip_document (by decide)⟩

/-- C2 (code at the failing input): on the text `{"\u:1}` the default build throws
"invalid unicode character" while the sentinel build returns an Object, not an
Undefined value: `read_object` turns the sentinel that `read_string` returns into the
key and reads on. -/
theorem C2_builds_disagree :
    parse false ['{', '"', '\\', 'u', ':', '1', '}'] =
        outcome.raised "parsing: invalid unicode character" ∧
      parse true ['{', '"', '\\', 'u', ':', '1', '}'] =
        outcome.ret
          (value.of_map [(("parsing: invalid unicode character").toList,
            value.of_type_text value_type.integer ['1'])])
          ⟨['{', '"', '\\', 'u', ':', '1', '}'], 7⟩ ∧
      (parse true ['{', '"', '\\', 'u', ':', '1', '}']).failed true = false :=
  ⟨rfl, rfl, rfl⟩

/-- C3 (code at the failing input): on the text `1e5`, which matches the number
grammar, `parse` returns a Float whose stored text, and so its `to_string`, is `1`:
the exponent part is consumed and not stored. -/
theorem C3_exponent_not_stored :
    parse false ['1', 'e', '5'] =
        outcome.ret (value.of_type_text value_type.floating ['1']) ⟨['1', 'e', '5'], 3⟩ ∧
      parse true ['1', 'e', '5'] =
        outcome.ret (value.of_type_text value_type.floating ['1']) ⟨['1', 'e', '5'], 3⟩ ∧
      (value.of_type_text value_type.floating ['1']).to_string = ['1'] :=
  ⟨rfl, rfl, rfl⟩

/-- C4: for every text of the number grammar, sign part, integer part, optional
fractional part and optional exponent part, `parse` returns a value for which
`is_number` holds, `is_float` holds exactly when a fractional or an exponent part
is present, and `is_integer` holds exactly when neither is. -/
theorem C4_number_kind (NO_EXCEPTIONS : Bool) (sign int frac exp : List Char)
    (hsign : grammar_sign sign = true) (hint : grammar_int int = true)
    (hfrac : grammar_frac frac = true) (hexp : grammar_exp exp = true) :
    ∃ v it, parse NO_EXCEPTIONS (sign ++ int ++ frac ++ exp) = outcome.ret v it ∧
      v.is_number = true ∧
      v.is_float = decide (frac ≠ [] ∨ exp ≠ []) ∧
      v.is_integer = decide (frac = [] ∧ exp = []) := by
  refine ⟨_, _, parse_number NO_EXCEPTIONS sign int frac exp hsign hint hfrac hexp, ?_⟩
  by_cases hfr : frac = [] <;> by_cases hex : exp = [] <;>
    simp [hfr, hex, value.of_type_text, value.is_number, value.is_float, value.is_integer,
      value.type]

/-- C4 (witness): the text `-42.5E+10`. -/
theorem C4_number_kind_witness :
    grammar_sign ['-'] = true ∧ grammar_int ['4', '2'] = true ∧
      grammar_frac ['.', '5'] = true ∧ grammar_exp ['E', '+', '1', '0'] = true ∧
      ∃ v it, parse false (['-'] ++ ['4', '2'] ++ ['.', '5'] ++ ['E', '+', '1', '0']) =
          outcome.ret v it ∧
        v.is_number = true ∧
        v.is_float = decide (['.', '5'] ≠ [] ∨ ['E', '+', '1', '0'] ≠ []) ∧
        v.is_integer = decide (['.', '5'] = [] ∧ ['E', '+', '1', '0'] = []) :=
  ⟨rfl, rfl, rfl, rfl,
    C4_number_kind false ['-'] ['4', '2'] ['.', '5'] ['E', '+', '1', '0'] rfl rfl rfl rfl⟩

/-- C5: in both builds `parse` fails on a minus sign that no digit follows, on
a sign and integer part followed by a `.` that no digit follows, and on a sign,
integer part and optional fractional part followed by `e` or `E` and an optional
sign that no digit follows; `r` is the rest of the text, `first r` its first
character (NUL when `r` is empty). -/
theorem C5_malformed_number_fails (NO_EXCEPTIONS : Bool) (sign int frac sg r : List Char)
    (e : Char) (hsign : grammar_sign sign = true) (hint : grammar_int int = true)
    (hfrac : grammar_frac frac = true) (he : e = 'e' ∨ e = 'E')
    (hsg : (sg = [] ∧ first r ≠ '+' ∧ first r ≠ '-') ∨ sg = ['+'] ∨ sg = ['-'])
    (hr : is_digit (first r) = false) :
    (parse NO_EXCEPTIONS ('-' :: r)).failed NO_EXCEPTIONS = true ∧
      (parse NO_EXCEPTIONS (sign ++ int ++ '.' :: r)).failed NO_EXCEPTIONS = true ∧
      (parse NO_EXCEPTIONS (sign ++ int ++ frac ++ e :: sg ++ r)).failed NO_EXCEPTIONS
        = true := by
  refine ⟨?_, ?_, ?_⟩
  · unfold parse
    rw [read_value_number NO_EXCEPTIONS _ _ (by rw [rest_init]; exact Or.inl rfl)]
    exact read_number_fails_sign NO_EXCEPTIONS _ _ r (rest_init _) hr
  · have h0 : (string_iterator.init (sign ++ int ++ '.' :: r)).rest =
        sign ++ (int ++ '.' :: r) := by simp [rest_init]
    have h1 := rest_adv_length h0
    have h2 := rest_adv_length h1
    have hd1 := first_int_append (t := '.' :: r) hint
    unfold parse
    rw [read_value_number NO_EXCEPTIONS _ _ (by rw [h0]; exact first_number hsign hint),
      read_number_sign_step NO_EXCEPTIONS _ _ sign _ hsign h0
        (fun _ => (is_digit_not_special hd1).2.2.2.1),
      read_number_integer_step NO_EXCEPTIONS _ sign _ int _ hint h1 (Or.inr (by rw [first_cons]; decide))
        (by simp +arith)]
    exact read_number_fraction_fails NO_EXCEPTIONS _ _ _ _ r h2 hr
  · have h0 : (string_iterator.init (sign ++ int ++ frac ++ e :: sg ++ r)).rest =
        sign ++ (int ++ (frac ++ (e :: sg ++ r))) := by simp [rest_init]
    have h1 := rest_adv_length h0
    have h2 := rest_adv_length h1
    have h3 := rest_adv_length h2
    have hd1 := first_int_append (t := frac ++ (e :: sg ++ r)) hint
    have hde : is_digit (first (e :: sg ++ r)) = false ∧ first (e :: sg ++ r) ≠ '.' := by
      rcases he with rfl | rfl <;> simp [first_cons] <;> decide
    have hd2 : is_digit (first (frac ++ (e :: sg ++ r))) = false := by
      rcases grammar_frac_inv hfrac with rfl | ⟨d, ds, rfl, -, -⟩
      · exact hde.1
      · simp [first_cons]; decide
    unfold parse
    rw [read_value_number NO_EXCEPTIONS _ _ (by rw [h0]; exact first_number hsign hint),
      read_number_sign_step NO_EXCEPTIONS _ _ sign _ hsign h0
        (fun _ => (is_digit_not_special hd1).2.2.2.1),
      read_number_integer_step NO_EXCEPTIONS _ sign _ int _ hint h1 (Or.inr hd2)
        (by simp +arith),
      read_number_fraction_step NO_EXCEPTIONS _ _ _ _ frac _ hfrac h2 hde.1 (fun _ => hde.2)
        (by simp +arith)]
    exact read_number_exponent_fails NO_EXCEPTIONS _ _ _ _ e sg r h3 he hsg hr

/-- C5 (witness): the texts `-x`, `1.x` and `1E+x` in the sentinel build. -/
theorem C5_malformed_number_fails_witness :
    grammar_sign [] = true ∧ grammar_int ['1'] = true ∧ grammar_frac [] = true ∧
      ('E' = 'e' ∨ 'E' = 'E') ∧
      (((['+'] : List Char) = [] ∧ first ['x'] ≠ '+' ∧ first ['x'] ≠ '-') ∨
        ['+'] = ['+'] ∨ ['+'] = ['-']) ∧
      is_digit (first ['x']) = false ∧
      (parse true ('-' :: ['x'])).failed true = true ∧
      (parse true ([] ++ ['1'] ++ '.' :: ['x'])).failed true = true ∧
      (parse true ([] ++ ['1'] ++ [] ++ 'E' :: ['+'] ++ ['x'])).failed true = true :=
  ⟨rfl, rfl, rfl, Or.inr rfl, Or.inr (Or.inl rfl), rfl,
    C5_malformed_number_fails true [] ['1'] [] ['+'] ['x'] 'E' rfl rfl rfl (Or.inr rfl)
      (Or.inr (Or.inl rfl)) rfl⟩

/-- C6 (code at the failing inputs): the body `a\\nb` (a, backslash, backslash, n, b)
decodes to a, backslash, line feed, b, the reader staying in escape mode after the
second backslash; the body `a\"b` decodes to `ab`, the escaped quote adding nothing. -/
theorem C6_escaped_backslash_and_quote :
    parse false ['"', 'a', '\\', '\\', 'n', 'b', '"'] =
        outcome.ret (value.of_string ['a', '\\', '\n', 'b'])
          ⟨['"', 'a', '\\', '\\', 'n', 'b', '"'], 7⟩ ∧
      parse false ['"', 'a', '\\', '"', 'b', '"'] =
        outcome.ret (value.of_string ['a', 'b']) ⟨['"', 'a', '\\', '"', 'b', '"'], 6⟩ :=
  ⟨rfl, rfl⟩

/-- C7: for every code point `cp` below `0x10000` written as four hexadecimal
digits, each in either letter case, the escape `\uXXXX` between two plain runs
`pre` and `post` of a string literal decodes to the UTF-8 layout of `cp` (one, two
or three bytes, whatever the letter case), and decoding resumes with the first
character of `post`. -/
theorem C7_unicode_escape (NO_EXCEPTIONS : Bool) (cp : Nat) (u1 u2 u3 u4 : Bool)
    (pre post : List Char) (hcp : cp < 65536) (hpre : plain_text pre = true)
    (hpost : plain_text post = true) :
    parse NO_EXCEPTIONS ('"' :: pre ++ unicode_escape u1 u2 u3 u4 cp ++ post ++ ['"']) =
      outcome.ret (value.of_string (pre ++ utf8_layout cp ++ post))
        ⟨'"' :: pre ++ unicode_escape u1 u2 u3 u4 cp ++ post ++ ['"'],
          ('"' :: pre ++ unicode_escape u1 u2 u3 u4 cp ++ post ++ ['"']).length⟩ := by
  have e1 := hex_value_hex_char u1 (cp / 4096) (by omega)
  have e2 := hex_value_hex_char u2 (cp / 256 % 16) (by omega)
  have e3 := hex_value_hex_char u3 (cp / 16 % 16) (by omega)
  have e4 := hex_value_hex_char u4 (cp % 16) (by omega)
  have hval : (((((cp / 4096) <<< 4) ||| (cp / 256 % 16)) <<< 4 ||| (cp / 16 % 16)) <<< 4) |||
      (cp % 16) = cp := by
    rw [shift_or_hex _ _ (Nat.mod_lt _ (by decide)), shift_or_hex _ _ (Nat.mod_lt _ (by decide)),
      shift_or_hex _ _ (Nat.mod_lt _ (by decide))]
    omega
  generalize htext : '"' :: pre ++ unicode_escape u1 u2 u3 u4 cp ++ post ++ ['"'] = text
  have hlen : text.length = pre.length + post.length + 8 := by
    rw [← htext]; simp +arith [unicode_escape]
  have h0 : (string_iterator.init text).rest =
      '"' :: (pre ++ ('\\' :: 'u' :: hex_char u1 (cp / 4096) :: hex_char u2 (cp / 256 % 16) ::
        hex_char u3 (cp / 16 % 16) :: hex_char u4 (cp % 16) :: (post ++ ['"']))) := by
    rw [rest_init, ← htext]; simp [unicode_escape]
  have hr1 : ((string_iterator.init text).adv 1).rest = pre ++ ('\\' :: 'u' ::
      hex_char u1 (cp / 4096) :: hex_char u2 (cp / 256 % 16) ::
        hex_char u3 (cp / 16 % 16) :: hex_char u4 (cp % 16) :: (post ++ ['"'])) := by
    simp [rest_adv, h0]
  have hr2 := rest_adv_length hr1
  have hr3 : ((((string_iterator.init text).adv 1).adv pre.length).adv 6).rest =
      post ++ ['"'] := by
    rw [rest_adv, hr2]; rfl
  have hr4 := rest_adv_length hr3
  have hfuel : text.length - pre.length - 2 - post.length = 5 + 1 := by omega
  unfold parse
  rw [read_value, read_value_loop_string NO_EXCEPTIONS _ _ _ _ _ h0, read_string, next_snd, h0]
  simp only [reduceCtorEq, if_false]
  rw [read_string_loop_plain NO_EXCEPTIONS pre _ _ _ _ hr1 hpre (by omega),
    read_string_loop_unicode NO_EXCEPTIONS _ _ _ _ _ _ _ _ _ _ _ _ hr2 e1 e2 e3 e4 (by omega),
    read_string_loop_plain NO_EXCEPTIONS post _ _ _ _ hr3 hpost (by omega), hfuel,
    read_string_loop_close NO_EXCEPTIONS _ _ _ _ hr4, hval, encode_utf8_eq cp hcp]
  simp +arith [adv_adv, adv, string_iterator.init, hlen]

/-- C7 (witness): the literal `"a\u1e55z"`, whose escape decodes to three bytes. -/
theorem C7_unicode_escape_witness :
    0x1E55 < 65536 ∧ plain_text ['a'] = true ∧ plain_text ['z'] = true ∧
      parse false ('"' :: ['a'] ++ unicode_escape true false true false 0x1E55 ++ ['z'] ++ ['"'])
        = outcome.ret (value.of_string (['a'] ++ utf8_layout 0x1E55 ++ ['z']))
          ⟨'"' :: ['a'] ++ unicode_escape true false true false 0x1E55 ++ ['z'] ++ ['"'],
            ('"' :: ['a'] ++ unicode_escape true false true false 0x1E55 ++ ['z'] ++
              ['"']).length⟩ :=
  ⟨by decide, rfl, rfl,
    C7_unicode_escape false 0x1E55 true false true false ['a'] ['z'] (by decide) rfl rfl⟩

/-- C8 (code at the failing input): on the text `"\u12`, where the input ends after
two hexadecimal digits, `parse` returns in both builds the String whose only
character is the code point `0x12`. -/
theorem C8_short_escape_at_end_of_input :
    parse false ['"', '\\', 'u', '1', '2'] =
        outcome.ret (value.of_string [Char.ofNat 0x12]) ⟨['"', '\\', 'u', '1', '2'], 5⟩ ∧
      parse true ['"', '\\', 'u', '1', '2'] =
        outcome.ret (value.of_string [Char.ofNat 0x12]) ⟨['"', '\\', 'u', '1', '2'], 5⟩ :=
  ⟨rfl, rfl⟩

/-- C9 (code at the failing inputs): `[true]`, `[1, null]` and `{"a": false}` are
rejected in both builds: the closing bracket is read into the literal. -/
theorem C9_literal_before_closing_bracket :
    parse false ['[', 't', 'r', 'u', 'e', ']'] =
        outcome.raised "parsing: unrecognized literal" ∧
      parse false ['[', '1', ',', ' ', 'n', 'u', 'l', 'l', ']'] =
        outcome.raised "parsing: unrecognized literal" ∧
      parse false ['{', '"', 'a', '"', ':', ' ', 'f', 'a', 'l', 's', 'e', '}'] =
        outcome.raised "parsing: unrecognized literal" ∧
      (parse true ['[', 't', 'r', 'u', 'e', ']']).failed true = true ∧
      (parse true ['[', '1', ',', ' ', 'n', 'u', 'l', 'l', ']']).failed true = true ∧
      (parse true ['{', '"', 'a', '"', ':', ' ', 'f', 'a', 'l', 's', 'e', '}']).failed true
        = true :=
  ⟨rfl, rfl, rfl, rfl, rfl, rfl⟩

/-- C10 (counterexample): a comma right after the opening bracket is accepted:
`parse` of `[,1]` returns the one-element Array `[1]` in both builds; so is the
comma right before the closing bracket in `[true,]`. -/
theorem C10_leading_comma_accepted :
    parse false ['[', ',', '1', ']'] =
        outcome.ret (value.of_vector [value.of_type_text value_type.integer ['1']])
          ⟨['[', ',', '1', ']'], 4⟩ ∧
      (parse false ['[', ',', '1', ']']).failed false = false ∧
      (parse true ['[', ',', '1', ']']).failed true = false ∧
      (parse false ['[', 't', 'r', 'u', 'e', ',', ']']).failed false = false ∧
      (parse true ['[', 't', 'r', 'u', 'e', ',', ']']).failed true = false :=
  ⟨rfl, rfl, rfl, rfl, rfl⟩

/-- C10 (amended): in both builds `parse` fails on the text of an array of one or
more elements (objects, arrays, strings, numbers, as `to_string` renders them)
continued by a comma, whitespace and the closing bracket that ends the text, and on
that text continued by a comma, whitespace and a second comma, whatever follows. -/
theorem C10_comma_without_value (NO_EXCEPTIONS : Bool) (v : value) (vs : List value)
    (ws t : List Char) (hok : array_ok (v :: vs) = true)
    (hws : ∀ c ∈ ws, is_space c = true) :
    (parse NO_EXCEPTIONS ('[' :: array_to_string 0 (v :: vs) ++ ',' :: (ws ++ [']']))).failed
        NO_EXCEPTIONS = true ∧
      (parse NO_EXCEPTIONS
        ('[' :: array_to_string 0 (v :: vs) ++ ',' :: (ws ++ ',' :: t))).failed
        NO_EXCEPTIONS = true :=
  ⟨parse_array_comma_fails NO_EXCEPTIONS v vs _ hok
      (fun m it h hm => read_value_fails_close NO_EXCEPTIONS m it ws h hws hm),
    parse_array_comma_fails NO_EXCEPTIONS v vs _ hok
      (fun m it h hm => read_value_fails_comma NO_EXCEPTIONS m it ws t h hws hm)⟩

/-- C10 (witness): the amended claim at the texts `[1,` and `[1,`, each continued by a
space and a line feed, then by `]` and by `,2]`. -/
theorem C10_comma_without_value_witness :
    array_ok [value.of_type_text value_type.integer ['1']] = true ∧
      (∀ c ∈ [' ', '\n'], is_space c = true) ∧
      (parse false ('[' :: array_to_string 0 [value.of_type_text value_type.integer ['1']] ++
        ',' :: ([' ', '\n'] ++ [']']))).failed false = true ∧
      (parse false ('[' :: array_to_string 0 [value.of_type_text value_type.integer ['1']] ++
        ',' :: ([' ', '\n'] ++ ',' :: ['2', ']']))).failed false = true :=
  ⟨rfl, by decide,
    C10_comma_without_value false (value.of_type_text value_type.integer ['1']) [] [' ', '\n']
      ['2', ']'] rfl (by decide)⟩

/-- C11: for every list `xs` of host integers, the rendering of `json::array(xs)` is
the decimal texts of `xs` joined by `, ` inside square brackets, and in both builds
`parse` of it returns an Array whose `to_vector<int>()` is `xs`. -/
theorem C11_int_array (NO_EXCEPTIONS : Bool) (xs : List Int) (h : ∀ x ∈ xs, int_range x) :
    (array (xs.map value.of_int)).to_string =
        '[' :: ([',', ' '].intercalate (xs.map to_string_int) ++ [']']) ∧
      ∃ w it, parse NO_EXCEPTIONS (array (xs.map value.of_int)).to_string = outcome.ret w it ∧
        w.is_array = true ∧ w.to_vector value.to_int = some xs := by
  constructor
  · cases xs with
    | nil => rfl
    | cons x xs =>
      simp only [array, value.of_vector, value.to_string, List.map_cons, array_to_string_zero,
        array_to_string_of_int xs 1 (by omega), intercalate_cons, List.map_map]
      simp [value.of_int, value.to_string, Function.comp_def]
  · have hok : (array (xs.map value.of_int)).nested_ok = true := by
      simp [array, value.of_vector, value.nested_ok, array_ok_of_int]
    obtain ⟨w, hw, hs⟩ := reads_back_of_nested_ok _ hok NO_EXCEPTIONS
      ((array (xs.map value.of_int)).to_string.length + 1)
      (string_iterator.init (array (xs.map value.of_int)).to_string) [] []
      (by simp [rest_init]) (by simp) number_stop_nil (by simp [rest_init])
    have hs2 : w.type = value_type.array ∧ array_eq (xs.map value.of_int) w.array := by
      simpa [array, value.of_vector, struct_eq] using hs
    refine ⟨w, _, hw, by simp [value.is_array, hs2.1], ?_⟩
    have := to_vector_loop_of_int xs w.array [] h hs2.2
    simpa [value.to_vector, value.is_array, value.size, hs2.1] using this

/-- C11 (witness): the list `1, -2, 30`. -/
theorem C11_int_array_witness :
    (∀ x ∈ [(1 : Int), -2, 30], int_range x) ∧
      (array ([(1 : Int), -2, 30].map value.of_int)).to_string =
        '[' :: ([',', ' '].intercalate ([(1 : Int), -2, 30].map to_string_int) ++ [']']) ∧
      ∃ w it, parse false (array ([(1 : Int), -2, 30].map value.of_int)).to_string =
          outcome.ret w it ∧
        w.is_array = true ∧ w.to_vector value.to_int = some [(1 : Int), -2, 30] :=
  ⟨by decide, C11_int_array false [1, -2, 30] (by decide)⟩

/-- C12: for every non-empty word `w` of ASCII letters other than `true`, `false`
and `null`, in both builds `parse` fails on `w` and on `w` between square brackets,
while `parse` returns an empty Array on `[]` and an Array on the decimal texts of any
list `xs` of integers, separated by commas (each followed by the spaces `ws`, which
may be none) between square brackets. -/
theorem C12_words_fail (NO_EXCEPTIONS : Bool) (w ws : List Char) (xs : List Int)
    (hne : w ≠ []) (hw : ∀ c ∈ w, c.isAlpha = true)
    (h1 : w ≠ ['t', 'r', 'u', 'e']) (h2 : w ≠ ['f', 'a', 'l', 's', 'e'])
    (h3 : w ≠ ['n', 'u', 'l', 'l']) (hws : ∀ c ∈ ws, c = ' ') :
    (parse NO_EXCEPTIONS w).failed NO_EXCEPTIONS = true ∧
      (parse NO_EXCEPTIONS ('[' :: (w ++ [']']))).failed NO_EXCEPTIONS = true ∧
      parse NO_EXCEPTIONS ['[', ']'] = outcome.ret (value.of_vector []) ⟨['[', ']'], 2⟩ ∧
      ∃ v it, parse NO_EXCEPTIONS ('[' :: (array_text ws 0 (xs.map value.of_int) ++ [']'])) =
          outcome.ret v it ∧ v.is_array = true ∧ v.size = xs.length := by
  refine ⟨?_, ?_, ?_, ?_⟩
  · exact read_value_word_fails NO_EXCEPTIONS _ _ w (rest_init w)
      (fun c hc => is_literal_char_of_isAlpha (hw c hc)) h1 h2 h3 (by rw [rest_init]; omega)
  · cases w with
    | nil => exact absurd rfl hne
    | cons c u =>
      exact parse_bracketed_word_fails NO_EXCEPTIONS c u
        (fun x hx => is_literal_char_of_isAlpha (hw x hx))
        (fun h => by
          have := hw c (by simp)
          rw [h] at this
          exact absurd this (by decide))
  · cases NO_EXCEPTIONS <;> rfl
  · obtain ⟨v, it, hv, hs⟩ := parse_array_text NO_EXCEPTIONS ws hws (xs.map value.of_int)
      (array_ok_of_int xs) true
    have hs2 : v.type = value_type.array ∧ array_eq (xs.map value.of_int) v.array := by
      simpa [value.of_vector, struct_eq] using hs
    refine ⟨v, it, by simpa using hv, by simp [value.is_array, hs2.1], ?_⟩
    have := array_eq_length hs2.2
    simpa [value.size, hs2.1] using this.symm

/-- C12 (witness): the words `qwerty` and `True`, and the list `1, 2, 3, 4, 5`
written without spaces. -/
theorem C12_words_fail_witness :
    ((parse false ['q', 'w', 'e', 'r', 't', 'y']).failed false = true ∧
      (parse false ('[' :: (['q', 'w', 'e', 'r', 't', 'y'] ++ [']']))).failed false = true ∧
      parse false ['[', ']'] = outcome.ret (value.of_vector []) ⟨['[', ']'], 2⟩ ∧
      ∃ v it, parse false
          ('[' :: (array_text [] 0 ([(1 : Int), 2, 3, 4, 5].map value.of_int) ++ [']'])) =
          outcome.ret v it ∧ v.is_array = true ∧ v.size = [(1 : Int), 2, 3, 4, 5].length) ∧
    ((parse true ['T', 'r', 'u', 'e']).failed true = true ∧
      (parse true ('[' :: (['T', 'r', 'u', 'e'] ++ [']']))).failed true = true ∧
      parse true ['[', ']'] = outcome.ret (value.of_vector []) ⟨['[', ']'], 2⟩ ∧
      ∃ v it, parse true
          ('[' :: (array_text [' '] 0 ([(-7 : Int)].map value.of_int) ++ [']'])) =
          outcome.ret v it ∧ v.is_array = true ∧ v.size = [(-7 : Int)].length) :=
  ⟨C12_words_fail false ['q', 'w', 'e', 'r', 't', 'y'] [] [1, 2, 3, 4, 5] (by decide)
      (by decide) (by decide) (by decide) (by decide) (by decide),
    C12_words_fail true ['T', 'r', 'u', 'e'] [' '] [-7] (by decide)
      (by decide) (by decide) (by decide) (by decide) (by decide)⟩

/-- C13: for every list `ps` of pairs of a key without double quote and backslash
and an integer, in both builds `parse` of the text of the members of `ps`, written
without spaces between braces, returns an Object; indexing it by the key `k` of a
pair `(k, n)` of `ps` after which `k` does not occur again returns the Integer value
of text `n`, which converts to `n` and compares equal to `n` when `n` is an `int`;
indexing it by a key that does not occur in `ps` returns the default Undefined
value. -/
theorem C13_object_last_wins (NO_EXCEPTIONS : Bool) (ps : List (List Char × Int))
    (hps : ∀ p ∈ ps, plain_text p.1 = true) :
    ∃ w it, parse NO_EXCEPTIONS (object_text ps) = outcome.ret w it ∧ w.is_object = true ∧
      (∀ pre post k n, ps = pre ++ (k, n) :: post → k ∉ post.map Prod.fst →
        w.index_key k = value.of_int n ∧ (w.index_key k).is_integer = true ∧
        (w.index_key k).to_string = to_string_int n ∧
        (int_range n → (w.index_key k).to_int = some n ∧
          eq_int (w.index_key k) n = some true)) ∧
      ∀ k, k ∉ ps.map Prod.fst →
        w.index_key k = value.default ∧ (w.index_key k).type = value_type.undefined := by
  obtain ⟨it, hparse⟩ := parse_object_text NO_EXCEPTIONS ps hps true
  refine ⟨value.of_map (ps.foldl (fun acc p => dict_assign acc p.1 (value.of_int p.2)) []),
    it, by simpa [object_text] using hparse, rfl, ?_, ?_⟩
  · intro pre post k n hsplit hk
    have hfind := dict_find_foldl_last pre post k n hk []
    have hidx : (value.of_map (ps.foldl
        (fun acc p => dict_assign acc p.1 (value.of_int p.2)) [])).index_key k =
        value.of_int n := by
      rw [hsplit, index_key_of_map, hfind]
    rw [hidx]
    refine ⟨rfl, rfl, rfl, fun hn => ⟨to_int_of_int n hn, ?_⟩⟩
    unfold eq_int
    rw [to_int_of_int n hn]
    simp [value.is_number, value.of_int, value.type]
  · intro k hk
    have hfind := dict_find_foldl_other ps k hk []
    have hidx : (value.of_map (ps.foldl
        (fun acc p => dict_assign acc p.1 (value.of_int p.2)) [])).index_key k =
        value.default := by
      rw [index_key_of_map, hfind]
      rfl
    rw [hidx]
    exact ⟨rfl, rfl⟩

/-- C13 (witness): the text `{"a":1,"b":-2,"a":3}`, whose key `a` occurs twice. -/
theorem C13_object_last_wins_witness :
    (∀ p ∈ object_pairs, plain_text p.1 = true) ∧
      ∃ w it, parse false (object_text object_pairs) = outcome.ret w it ∧ w.is_object = true ∧
      (∀ pre post k n, object_pairs = pre ++ (k, n) :: post → k ∉ post.map Prod.fst →
        w.index_key k = value.of_int n ∧ (w.index_key k).is_integer = true ∧
        (w.index_key k).to_string = to_string_int n ∧
        (int_range n → (w.index_key k).to_int = some n ∧
          eq_int (w.index_key k) n = some true)) ∧
      ∀ k, k ∉ object_pairs.map Prod.fst →
        w.index_key k = value.default ∧ (w.index_key k).type = value_type.undefined :=
  ⟨by decide, C13_object_last_wins false object_pairs (by decide)⟩

/-- C14 (code at the failing inputs): `{"a","b":1}` is rejected, a key followed by a
comma, but `{"a"}` and `{"b":1,"a"}`, a key followed by the closing brace, are
accepted in both builds: the first parses to the empty Object, the second to the
Object with the member `b`. -/
theorem C14_key_before_closing_brace :
    (parse false ['{', '"', 'a', '"', ',', '"', 'b', '"', ':', '1', '}']).failed false = true ∧
      parse false ['{', '"', 'a', '"', '}'] =
        outcome.ret (value.of_map []) ⟨['{', '"', 'a', '"', '}'], 5⟩ ∧
      parse true ['{', '"', 'a', '"', '}'] =
        outcome.ret (value.of_map []) ⟨['{', '"', 'a', '"', '}'], 5⟩ ∧
      parse false ['{', '"', 'b', '"', ':', '1', ',', '"', 'a', '"', '}'] =
        outcome.ret (value.of_map [(['b'], value.of_type_text value_type.integer ['1'])])
          ⟨['{', '"', 'b', '"', ':', '1', ',', '"', 'a', '"', '}'], 11⟩ :=
  ⟨rfl, rfl, rfl, rfl⟩

/-- C15: for every value `v` (satisfying the class invariant) and key `k` such that
`v` is not an Object or `k` is not one of its keys, `v[k]` is the default Undefined
value: none of the kind predicates holds of it, and it compares unequal to every
host `int`, every `double` and every string. -/
theorem C15_index_key_miss {D : Type} (stod : List Char → Option D) (zero : D)
    (eqd : D → D → Bool) (v : value) (k : List Char) (hinv : v.invariant)
    (hk : v.is_object = false ∨ k ∉ v.dict.map Prod.fst) :
    v.index_key k = value.default ∧
      (v.index_key k).type = value_type.undefined ∧
      (v.index_key k).is_object = false ∧ (v.index_key k).is_array = false ∧
      (v.index_key k).is_string = false ∧ (v.index_key k).is_number = false ∧
      (v.index_key k).is_integer = false ∧ (v.index_key k).is_float = false ∧
      (v.index_key k).is_bool = false ∧ (v.index_key k).is_null = false ∧
      (∀ n : Int, eq_int (v.index_key k) n = some false) ∧
      (∀ x : D, eq_double stod zero eqd (v.index_key k) x = some false) ∧
      ∀ s : List Char, eq_string (v.index_key k) s = false := by
  have hnone : dict_find v.dict k = none := by
    rcases hk with hk | hk
    · have : v.dict = [] := hinv.1 (by simpa [value.is_object] using hk)
      rw [this]; rfl
    · exact dict_find_none _ _ hk
  have hdef : v.index_key k = value.default := by
    simp [value.index_key, hnone]
  rw [hdef]
  exact ⟨rfl, rfl, rfl, rfl, rfl, rfl, rfl, rfl, rfl, rfl, fun _ => rfl, fun _ => rfl,
    fun _ => rfl⟩

/-- C15 (witness): the Integer `5` indexed by the key `a`, with `Nat` standing for
`double`. -/
theorem C15_index_key_miss_witness :
    (value.of_int 5).invariant ∧
      ((value.of_int 5).is_object = false ∨ ['a'] ∉ (value.of_int 5).dict.map Prod.fst) ∧
      (value.of_int 5).index_key ['a'] = value.default :=
  ⟨⟨fun _ => rfl, fun _ => rfl⟩, Or.inl rfl,
    (C15_index_key_miss (fun _ => some 0) 0 (fun a b => decide (a = b)) (value.of_int 5) ['a']
      ⟨fun _ => rfl, fun _ => rfl⟩ (Or.inl rfl)).1⟩

/-- C16: indexing a value `v` (satisfying the class invariant) by the position `i`
returns the `i`-th element if `v` is an Array and `i < v.size()`, and fails in every
other case: the exception "array index out of bounds" in the default build, the
Undefined value with that message in the sentinel build. -/
theorem C16_index_position (NO_EXCEPTIONS : Bool) (v : value) (i : Nat) (hinv : v.invariant) :
    (v.is_array = true ∧ i < v.size →
        ∃ x, v.array[i]? = some x ∧ v.index NO_EXCEPTIONS i = Except.ok x) ∧
      (¬ (v.is_array = true ∧ i < v.size) →
        v.index NO_EXCEPTIONS i =
          if NO_EXCEPTIONS then Except.ok (error "array index out of bounds")
          else Except.error "array index out of bounds") := by
  constructor
  · rintro ⟨ha, hi⟩
    have hty : v.type = value_type.array := by simpa [value.is_array] using ha
    have hlt : i < v.array.length := by simpa [value.size, hty] using hi
    refine ⟨v.array[i], by simp [hlt], ?_⟩
    simp [value.index, hlt, List.getD_eq_getElem?_getD]
  · intro hn
    have hge : ¬ i < v.array.length := by
      intro hlt
      by_cases hty : v.type = value_type.array
      · exact hn ⟨by simp [value.is_array, hty], by simpa [value.size, hty] using hlt⟩
      · rw [hinv.2 hty] at hlt
        simp at hlt
    simp [value.index, hge]

/-- C16 (witness): position 1 of the Array `[7, 8]` and position 0 of the empty
Array. -/
theorem C16_index_position_witness :
    (array [value.of_int 7, value.of_int 8]).invariant ∧
      ((array [value.of_int 7, value.of_int 8]).is_array = true ∧
        1 < (array [value.of_int 7, value.of_int 8]).size) ∧
      (∃ x, (array [value.of_int 7, value.of_int 8]).array[1]? = some x ∧
        (array [value.of_int 7, value.of_int 8]).index false 1 = Except.ok x) ∧
      (array []).invariant ∧ ¬ ((array []).is_array = true ∧ 0 < (array []).size) ∧
      (array []).index false 0 = Except.error "array index out of bounds" :=
  ⟨⟨fun _ => rfl, fun h => absurd rfl h⟩, ⟨rfl, by decide⟩,
    (C16_index_position false (array [value.of_int 7, value.of_int 8]) 1
      ⟨fun _ => rfl, fun h => absurd rfl h⟩).1 ⟨rfl, by decide⟩,
    ⟨fun _ => rfl, fun _ => rfl⟩, by decide,
    (C16_index_position false (array []) 0 ⟨fun _ => rfl, fun _ => rfl⟩).2 (by decide)⟩

/-- C17 (counterexample): the True value compares equal to the host `int` 1, and
the False value to 0, though their kind is neither Integer nor Float. -/
theorem C17_bool_equals_int :
    eq_int (value.of_bool true) 1 = some true ∧ eq_int (value.of_bool false) 0 = some true ∧
      (value.of_bool true).is_number = false ∧ (value.of_bool false).is_number = false :=
  ⟨rfl, rfl, rfl, rfl⟩

/-- C17 (amended): `v == n` for a host `int` is true only if `v` is a number or a
boolean, a True value comparing equal to 1 only and a False value to 0 only;
`v == x` for a `double` is true only if `v` is a number; `v == s` for a string is
true only if `v` is a String whose text is `s`. -/
theorem C17_equality_kinds {D : Type} (stod : List Char → Option D) (zero : D)
    (eqd : D → D → Bool) (v : value) (n : Int) (x : D) (s : List Char) :
    (eq_int v n = some true → v.is_number = true ∨ v.is_bool = true) ∧
      (v.type = value_type.true_literal → eq_int v n = some (decide (n = 1))) ∧
      (v.type = value_type.false_literal → eq_int v n = some (decide (n = 0))) ∧
      (eq_double stod zero eqd v x = some true → v.is_number = true) ∧
      (eq_string v s = true → v.is_string = true ∧ v.text = s) := by
  refine ⟨?_, ?_, ?_, ?_, ?_⟩
  · intro h
    by_cases hc : (v.is_number || v.is_bool) = true
    · simpa using hc
    · simp [eq_int, hc] at h
  · intro h
    simp [eq_int, value.is_number, value.is_bool, value.to_int, h, eq_comm]
  · intro h
    simp [eq_int, value.is_number, value.is_bool, value.to_int, h, eq_comm]
  · intro h
    by_cases hc : v.is_number = true
    · exact hc
    · simp [eq_double, hc] at h
  · intro h
    by_cases hc : v.is_string = true
    · have hty : v.type = value_type.string := by simpa [value.is_string] using hc
      simp [eq_string, hc, value.to_std_string, hty] at h
      exact ⟨hc, h⟩
    · simp [eq_string, hc] at h

/-- C17 (witness): the True value against the host `int` 1, with `Nat` standing for
`double`. -/
theorem C17_equality_kinds_witness :
    (value.of_bool true).type = value_type.true_literal ∧
      eq_int (value.of_bool true) 1 = some (decide ((1 : Int) = 1)) :=
  ⟨rfl, (C17_equality_kinds (fun _ => some 0) 0 (fun a b => decide (a = b))
    (value.of_bool true) 1 0 []).2.1 rfl⟩

/-- C18 (code at the failing input): `parse` of `true` returns the True value, but
`parse` of `true x`, the same document followed by a space and the text `x`, fails
in both builds: the literal is read up to the next comma or the end of the input. -/
theorem C18_text_after_literal :
    parse false ['t', 'r', 'u', 'e'] =
        outcome.ret (value.of_type_text value_type.true_literal ['t', 'r', 'u', 'e'])
          ⟨['t', 'r', 'u', 'e'], 4⟩ ∧
      parse false ['t', 'r', 'u', 'e', ' ', 'x'] =
        outcome.raised "parsing: unrecognized literal" ∧
      (parse true ['t', 'r', 'u', 'e', ' ', 'x']).failed true = true :=
  ⟨rfl, rfl, rfl⟩

/-- C19: for every host integer `n`, in both builds `parse` of the decimal text of
`n` returns an Integer value whose conversion to `int` is `n`, which compares equal
to `n`, and whose conversion to `bool` is true. -/
theorem C19_int_text (NO_EXCEPTIONS : Bool) (n : Int) (h : int_range n) :
    ∃ v it, parse NO_EXCEPTIONS (to_string_int n) = outcome.ret v it ∧
      v.is_integer = true ∧ v.to_int = some n ∧ eq_int v n = some true ∧
      v.to_bool = true := by
  refine ⟨_, _, parse_to_string_int NO_EXCEPTIONS n, rfl, to_int_of_int n h, ?_, rfl⟩
  unfold eq_int
  rw [to_int_of_int n h]
  simp [value.is_number, value.of_int, value.type]

/-- C19 (witness): the integers `0` and `-2147483648`. -/
theorem C19_int_text_witness :
    int_range 0 ∧ int_range (-2147483648) ∧
      (∃ v it, parse false (to_string_int 0) = outcome.ret v it ∧
        v.is_integer = true ∧ v.to_int = some 0 ∧ eq_int v 0 = some true ∧
        v.to_bool = true) ∧
      ∃ v it, parse true (to_string_int (-2147483648)) = outcome.ret v it ∧
        v.is_integer = true ∧ v.to_int = some (-2147483648) ∧
        eq_int v (-2147483648) = some true ∧ v.to_bool = true :=
  ⟨by decide, by decide, C19_int_text false 0 (by decide),
    C19_int_text true (-2147483648) (by decide)⟩

/-- C20 (counterexample): in both builds `parse` returns the String `abc` on `"abc`,
the Array of `1` and `2` on `[1, 2` and the Object with the member `a` on `{"a":1`. -/
theorem C20_unterminated_accepted :
    (∀ NE : Bool, parse NE ['"', 'a', 'b', 'c'] =
      outcome.ret (value.of_string ['a', 'b', 'c']) ⟨['"', 'a', 'b', 'c'], 4⟩) ∧
    (∀ NE : Bool, parse NE ['[', '1', ',', ' ', '2'] =
      outcome.ret (value.of_vector [value.of_int 1, value.of_int 2])
        ⟨['[', '1', ',', ' ', '2'], 5⟩) ∧
    ∀ NE : Bool, parse NE ['{', '"', 'a', '"', ':', '1'] =
      outcome.ret (value.of_map [(['a'], value.of_int 1)])
        ⟨['{', '"', 'a', '"', ':', '1'], 6⟩ :=
  ⟨fun NE => by cases NE <;> rfl, fun NE => by cases NE <;> rfl,
    fun NE => by cases NE <;> rfl⟩

/-- C20 (amended): in both builds `parse` returns the part read so far when the
input ends before an opened construct is closed: the String of the characters after
the opening quote on a string literal without double quote and backslash, an Array
structurally equal to the Array of `vs` on the opening bracket followed by the
renderings of the well-formed values `vs` separated by commas and spaces, and the
Object of the members on the opening brace followed by members `"k":n`. -/
theorem C20_unterminated_returns_part (NO_EXCEPTIONS : Bool) (s ws : List Char)
    (vs : List value) (ps : List (List Char × Int)) (hs : plain_text s = true)
    (hws : ∀ c ∈ ws, c = ' ') (hvs : array_ok vs = true)
    (hps : ∀ p ∈ ps, plain_text p.1 = true) :
    (∃ it, parse NO_EXCEPTIONS ('"' :: s) = outcome.ret (value.of_string s) it) ∧
      (∃ w it, parse NO_EXCEPTIONS ('[' :: array_text ws 0 vs) = outcome.ret w it ∧
        struct_eq (value.of_vector vs) w) ∧
      ∃ it, parse NO_EXCEPTIONS ('{' :: members_text 0 ps) =
        outcome.ret (value.of_map
          (ps.foldl (fun acc p => dict_assign acc p.1 (value.of_int p.2)) [])) it := by
  refine ⟨parse_open_string NO_EXCEPTIONS s hs, ?_, ?_⟩
  · obtain ⟨w, it, hw, hsw⟩ := parse_array_text NO_EXCEPTIONS ws hws vs hvs false
    exact ⟨w, it, by simpa using hw, hsw⟩
  · obtain ⟨it, hp⟩ := parse_object_text NO_EXCEPTIONS ps hps false
    exact ⟨it, by simpa using hp⟩

/-- C20 (witness): the texts `"abc`, `[1, 2` and `{"a":1,"b":-2,"a":3`. -/
theorem C20_unterminated_returns_part_witness :
    (∃ it, parse false ('"' :: ['a', 'b', 'c']) =
        outcome.ret (value.of_string ['a', 'b', 'c']) it) ∧
      (∃ w it, parse false ('[' :: array_text [' '] 0 [value.of_int 1, value.of_int 2]) =
          outcome.ret w it ∧
        struct_eq (value.of_vector [value.of_int 1, value.of_int 2]) w) ∧
      ∃ it, parse false ('{' :: members_text 0 object_pairs) =
        outcome.ret (value.of_map
          (object_pairs.foldl (fun acc p => dict_assign acc p.1 (value.of_int p.2)) [])) it :=
  C20_unterminated_returns_part false ['a', 'b', 'c'] [' '] [value.of_int 1, value.of_int 2]
    object_pairs (by decide) (by decide) (by decide) (by decide)

/-- C21: in both builds, when `parse` returns a value and has not failed (in the
sentinel build: the value returned is not an error value), the value has no
Undefined node at any depth: neither itself, nor an element of an Array, nor a
member of an Object, recursively. -/
theorem C21_no_undefined_node (NO_EXCEPTIONS : Bool) (text : List Char) (v : value)
    (it : string_iterator) (h : parse NO_EXCEPTIONS text = outcome.ret v it)
    (hok : (parse NO_EXCEPTIONS text).failed NO_EXCEPTIONS = false) :
    v.no_undefined = true := by
  rcases clean_read_value NO_EXCEPTIONS _ _ v it h with hv | hv
  · exact hv
  · rw [h] at hok
    simp [outcome.failed, hv.1, hv.2] at hok

/-- C21 (witness): the text `{"a":[1,"x",[]]}` in the default build. -/
theorem C21_no_undefined_node_witness :
    ∃ v it, parse false nested_document = outcome.ret v it ∧ v.no_undefined = true :=
  ⟨value.of_map [(['a'], value.of_vector [value.of_type_text value_type.integer ['1'],
      value.of_string ['x'], value.of_vector []])], ⟨nested_document, 16⟩, rfl,
    C21_no_undefined_node false nested_document _ _ rfl rfl⟩

/-- C22: for every string literal whose body is written from characters other than
the double quote and the backslash and from the escapes `\b`, `\f`, `\n`, `\r`, `\t`,
in both builds `read_string`, started on the opening quote with more fuel than the
body has characters, returns the String whose text is the body with each escape
replaced by its control character and every other character copied in order, and
leaves the cursor after the closing quote. -/
theorem C22_escapes (NO_EXCEPTIONS : Bool) (fuel : Nat) (it : string_iterator)
    (ps : List body_piece) (r : List Char)
    (h : it.rest = '"' :: (body_source ps ++ '"' :: r)) (hp : ∀ p ∈ ps, p.allowed = true)
    (hf : (body_source ps).length < fuel) :
    read_string NO_EXCEPTIONS fuel it =
        outcome.ret (value.of_string (ps.map body_piece.denotes))
          (it.adv ((body_source ps).length + 2)) ∧
      (value.of_string (ps.map body_piece.denotes)).is_string = true ∧
      (value.of_string (ps.map body_piece.denotes)).text = ps.map body_piece.denotes ∧
      (it.adv ((body_source ps).length + 2)).rest = r := by
  refine ⟨read_string_pieces NO_EXCEPTIONS fuel it ps r h hp hf, rfl, rfl, ?_⟩
  have e : '"' :: (body_source ps ++ '"' :: r) = ('"' :: (body_source ps ++ ['"'])) ++ r := by
    simp
  rw [e] at h
  have := rest_adv_length h
  simpa using this

/-- C22 (witness): the literal `"a\tb\nu"` followed by a comma; the String returned
has the five characters `a`, tab, `b`, line feed, `u`. -/
theorem C22_escapes_witness :
    read_string false 8 (string_iterator.init ('"' :: (body_source escape_pieces ++ ['"', ','])))
        = outcome.ret (value.of_string ['a', '\t', 'b', '\n', 'u'])
          ⟨'"' :: (body_source escape_pieces ++ ['"', ',']), 9⟩ :=
  (C22_escapes false 8 (string_iterator.init ('"' :: (body_source escape_pieces ++ ['"', ','])))
    escape_pieces [','] rfl (by decide) (by decide)).1

/-- C23 (code at the failing inputs): for every non-empty text `w` of spaces, tabs,
carriage returns and line feeds, `parse` fails in both builds on `w` between square
brackets, whereas it returns the empty Array on `[]`. -/
theorem C23_spaces_in_empty_array (NO_EXCEPTIONS : Bool) (w : List Char) (hne : w ≠ [])
    (hw : ∀ c ∈ w, is_space c = true) :
    (parse NO_EXCEPTIONS ('[' :: (w ++ [']']))).failed NO_EXCEPTIONS = true ∧
      parse NO_EXCEPTIONS ['[', ']'] = outcome.ret (value.of_vector []) ⟨['[', ']'], 2⟩ := by
  refine ⟨?_, by cases NO_EXCEPTIONS <;> rfl⟩
  obtain ⟨c, u, rfl⟩ := List.exists_cons_of_ne_nil hne
  generalize htext : '[' :: (c :: u ++ [']']) = text
  have hlen : text.length = u.length + 3 := by rw [← htext]; simp
  have h0 : (string_iterator.init text).rest = [] ++ ('[' :: (c :: u ++ [']'])) := by
    rw [rest_init, ← htext]; simp
  have h0b : ((string_iterator.init text).adv ([] : List Char).length).rest =
      '[' :: (c :: u ++ [']']) := by
    show ((string_iterator.init text).adv 0).rest = _
    rw [adv_zero]; simpa using h0
  have h1 : (((string_iterator.init text).adv ([] : List Char).length).adv 1).rest =
      c :: (u ++ [']']) := by
    rw [rest_adv, h0b]; rfl
  have hc : is_space c = true := hw c (by simp)
  have hfail := read_value_spaces_close_fails NO_EXCEPTIONS (text.length + 1 - 1) _ (c :: u)
    (by rw [h1]; simp) hw (by rw [h1]; simp; omega)
  obtain ⟨f, hf⟩ : ∃ f, text.length + 1 - 1 - ([] : List Char).length = f + 1 :=
    ⟨text.length - 1, by simp; omega⟩
  unfold parse
  rw [read_value_skip NO_EXCEPTIONS _ _ [] _ h0 (by simp) (by simp),
    read_value_loop_array NO_EXCEPTIONS _ _ [] _ _ h0b,
    read_array_open NO_EXCEPTIONS _ _ _ _ h0b, hf]
  exact read_array_loop_value_fails NO_EXCEPTIONS _ f [] _ c _ h1
    (fun h => by rw [h] at hc; exact absurd hc (by decide))
    (fun h => by rw [h] at hc; exact absurd hc (by decide)) hfail

/-- C23 (witness): the texts `[ ]` in the default build and `[` tab line feed `]` in
the sentinel build. -/
theorem C23_spaces_in_empty_array_witness :
    (parse false ['[', ' ', ']'] = outcome.raised "parsing: unrecognized literal" ∧
      (parse false ('[' :: ([' '] ++ [']']))).failed false = true) ∧
    (parse true ('[' :: (['\t', '\n'] ++ [']']))).failed true = true :=
  ⟨⟨rfl, (C23_spaces_in_empty_array false [' '] (by decide) (by decide)).1⟩,
    (C23_spaces_in_empty_array true ['\t', '\n'] (by decide) (by decide)).1⟩

/-- C24: in both builds `parse` is total: on every text it returns a value, with the
cursor on the text at an index not beyond its length, or throws. More generally
`read_value`, started at any index `i` of the text with more fuel (loop iterations
and nested calls) than there are characters left, returns or throws without running
out of fuel; the cursor it returns is on the same text, at an index not below `i`
and not beyond the length, and beyond `i` when a character was left. The same holds
of the readers it calls: `read_string` and `read_object` consume at least one
character, `read_number` does on a minus sign or a digit, `read_array` on an opening
bracket, and `read_unicode` never moves back. -/
theorem C24_parse_total (NO_EXCEPTIONS : Bool) (text : List Char) (fuel i : Nat)
    (hi : i ≤ text.length) (hf : text.length - i < fuel) :
    ((∃ v it, parse NO_EXCEPTIONS text = outcome.ret v it ∧ it.text = text ∧
        it.index ≤ text.length) ∨ ∃ msg, parse NO_EXCEPTIONS text = outcome.raised msg) ∧
      ((∃ v it, read_value NO_EXCEPTIONS fuel ⟨text, i⟩ = outcome.ret v it ∧ it.text = text ∧
          i ≤ it.index ∧ it.index ≤ text.length ∧ (i < text.length → i < it.index)) ∨
        ∃ msg, read_value NO_EXCEPTIONS fuel ⟨text, i⟩ = outcome.raised msg) ∧
      (i < text.length → (read_string NO_EXCEPTIONS fuel ⟨text, i⟩).advances text (i + 1)) ∧
      (read_unicode NO_EXCEPTIONS fuel ⟨text, i⟩).advances text i ∧
      (string_iterator.peek ⟨text, i⟩ = '-' ∨ is_digit (string_iterator.peek ⟨text, i⟩) = true →
        (read_number NO_EXCEPTIONS fuel ⟨text, i⟩).advances text (i + 1)) ∧
      (string_iterator.peek ⟨text, i⟩ = '[' →
        (read_array NO_EXCEPTIONS (read_value NO_EXCEPTIONS fuel) fuel ⟨text, i⟩).advances text
          (i + 1)) ∧
      (i < text.length →
        (read_object NO_EXCEPTIONS (read_value NO_EXCEPTIONS fuel) fuel ⟨text, i⟩).advances text
          (i + 1)) := by
  have hrv := advances_read_value NO_EXCEPTIONS text fuel
  refine ⟨?_, ?_, ?_, ?_, ?_, ?_, ?_⟩
  · have h := advances_read_value NO_EXCEPTIONS text (text.length + 1) 0 (Nat.zero_le _)
      (by omega)
    rcases advances_cases text _ _ h with ⟨v, it, h1, h2, _, h4⟩ | ⟨msg, h1⟩
    · exact Or.inl ⟨v, it, h1, h2, h4⟩
    · exact Or.inr ⟨msg, h1⟩
  · rcases advances_cases text _ _ (hrv i hi hf) with ⟨v, it, h1, h2, h3, h4⟩ | ⟨msg, h1⟩
    · exact Or.inl ⟨v, it, h1, h2, by omega, h4, fun h => by omega⟩
    · exact Or.inr ⟨msg, h1⟩
  · intro hlt
    exact advances_read_string NO_EXCEPTIONS text fuel i hlt (by omega)
  · exact advances_read_unicode NO_EXCEPTIONS text fuel i hi hf
  · intro hp
    exact advances_read_number NO_EXCEPTIONS text fuel i hp hi (by omega)
  · intro hp
    have hlt := lt_of_peek text i _ hp (by decide)
    unfold read_array
    rw [if_pos hp, next_mk_lt text i hlt]
    exact advances_read_array_loop NO_EXCEPTIONS text fuel _ hrv fuel _ _ (i + 1) (by omega)
      (by omega) (by omega)
  · intro hlt
    unfold read_object
    rw [next_mk_lt text i hlt]
    exact advances_read_object_loop NO_EXCEPTIONS text fuel _ hrv fuel _ _ (i + 1) (by omega)
      (by omega) (by omega)

/-- C24 (witness): the text `{"a":[1,"x",[]]}` read from its start with fuel 17. -/
theorem C24_parse_total_witness :
    (∃ v it, parse true nested_document = outcome.ret v it ∧ it.text = nested_document ∧
        it.index ≤ nested_document.length) ∨
      ∃ msg, parse true nested_document = outcome.raised msg :=
  (C24_parse_total true nested_document 17 0 (by decide) (by decide)).1

end json
